import Mathlib

/-!
# Biathlon simulator: the event state machine and the result aggregation

A shallow embedding of `simulator.go`, `report.go` and the data model of
`main.go`, with the functions of the Go library they call (`time.Parse`,
`time.ParseDuration`, `sort.Slice`), followed by theorems about
`ProcessEvent`, `Competitor.TotalTime`, `formatDuration` and the order in which
the report lists the competitors.

Modelling conventions
* A Go `string` is a Lean `String`; the parsers work on its character list.
  Every test the parsers make is on an ASCII character, so the character
  view and Go's byte view agree.
* `time.Time` is an `Int`: nanoseconds since the zero `Time` (1 January of
  year 1, 00:00:00 UTC).  A time parsed with the layout `15:04:05.000` lies
  on 1 January of year 0, which is 366 days before the zero `Time`.  The
  instants a `time.Time` holds run from `minTime` to `maxTime` (an int64 of
  seconds).
* `time.Duration` is an `Int` holding an int64 number of nanoseconds: adding
  durations wraps (`wrapInt64`), `Time.Sub` saturates at the ends of
  `Duration` and `Time.Add` at the ends of `time.Time`, as in Go.
* The counters `CurrentLap`, `Hits`, `Shots` and `Config.Laps` are Go `int`s,
  taken as 64 bits wide.  They are modelled by `Int`s and `++`, `--` and
  `+= 5` by exact addition, which is what Go computes as long as the result
  stays between `minInt64` and `maxInt64`.  A theorem about an arbitrary
  record states that range as a hypothesis; in a run from an empty
  simulation `CurrentLap` stays between 0 and `Config.Laps`.
* The maps of `Simulation` are functions into `Option`; a `*Competitor` is
  owned by its map entry alone, so updating the entry models the in-place
  mutation.
* The progress lines printed by `ProcessEvent` are not part of the state and
  are left out.
* float64 arithmetic is met in two places.  In `formatDuration` (through
  `d.Seconds()`) it is modelled exactly, over the rationals, as rounding to the
  nearest binary64 number with ties to even (`float64`).  In the fractional
  part of a term of `time.ParseDuration` it is computed with `Float`
  (`fracNanos`); no theorem depends on its value.
-/

namespace Biathlon

/-! ## Time and durations -/

/-- Go `time.Duration`: an int64 count of nanoseconds. -/
abbrev Duration := Int

/-- Go `time.Time` seen as nanoseconds since the zero `Time`. -/
abbrev Time := Int

def Nanosecond : Nat := 1
def Microsecond : Nat := 1000 * Nanosecond
def Millisecond : Nat := 1000 * Microsecond
def Second : Nat := 1000 * Millisecond
def Minute : Nat := 60 * Second
def Hour : Nat := 60 * Minute

def minDuration : Int := -(2 ^ 63)
def maxDuration : Int := 2 ^ 63 - 1

/-- Two's-complement reduction of an integer to the int64 range. -/
def wrapInt64 (x : Int) : Int := (x + 2 ^ 63) % 2 ^ 64 - 2 ^ 63

/-- Go `d1 + d2` on `time.Duration` (int64 addition). -/
def Duration.add (a b : Duration) : Duration := wrapInt64 (a + b)

/-- The smallest Go `int64`, which is also the smallest `int` of a 64-bit
platform. -/
def minInt64 : Int := -(2 ^ 63)

/-- The largest Go `int64`, which is also the largest `int` of a 64-bit
platform. -/
def maxInt64 : Int := 2 ^ 63 - 1

/-- The earliest instant a `time.Time` holds: second `minInt64`, nanosecond 0. -/
def minTime : Int := minInt64 * Second

/-- The latest instant a `time.Time` holds: second `maxInt64`, nanosecond
999999999. -/
def maxTime : Int := maxInt64 * Second + Second - 1

/-- Go `t.Add(d)` for a `Time` without monotonic clock reading, which is what
`time.Parse` and `time.Date` give.  The whole seconds of `d` are added to the
seconds of `t` and the remaining nanoseconds to its nanoseconds, with a carry
of one second either way.  `addSec` computes the int64 sum `t.ext + d` and
tests `(sum > t.ext) == (d > 0)` to see whether it overflowed; when it did, the
seconds become `1<<63 - 1` for a positive `d` and `-(1<<63 - 1)` otherwise.
Here the sum is the exact one and is compared with the int64 range.  The
result is `t + d` whenever that instant is in the range of `time.Time`
(`timeAdd_of_fits`). -/
def Time.Add (t : Time) (d : Duration) : Time :=
  let dsec0 : Int := Int.tdiv d Second
  let nsec0 : Int := t % Second + Int.tmod d Second
  let dsec : Int :=
    if (Second : Int) ≤ nsec0 then dsec0 + 1 else if nsec0 < 0 then dsec0 - 1 else dsec0
  let nsec : Int :=
    if (Second : Int) ≤ nsec0 then nsec0 - Second else if nsec0 < 0 then nsec0 + Second else nsec0
  let sum : Int := t / Second + dsec
  let ext : Int :=
    if 0 < dsec ∧ maxInt64 < sum then maxInt64
    else if dsec < 0 ∧ sum < minInt64 then -maxInt64
    else sum
  ext * Second + nsec

/-- Go `t.After(u)`. -/
def Time.After (t u : Time) : Bool := decide (u < t)

/-- Go `t.Sub(u)`: the difference, saturated to the range of `Duration`. -/
def Time.Sub (t u : Time) : Duration :=
  if t - u < minDuration then minDuration
  else if maxDuration < t - u then maxDuration
  else t - u

/-- The zero `time.Time`. -/
def Time.zero : Time := 0

/-- Go `time.Date(0, January, 1, hour, min, sec, nsec, UTC)`: year 0 is a leap
year, so its first day starts 366 days before the zero `Time`. -/
def time.Date0 (hour min sec nsec : Nat) : Time :=
  ((hour * Hour + min * Minute + sec * Second + nsec : Nat) : Int) - ((366 * 24 * Hour : Nat) : Int)

/-! ## Scanning helpers of package `time` -/

def isDigit (c : Char) : Bool := decide ('0'.toNat ≤ c.toNat) && decide (c.toNat ≤ '9'.toNat)

def digitVal (c : Char) : Nat := c.toNat - '0'.toNat

/-- Go `leadingInt`: the leading decimal digits of `s` as a number (continuing
from `x`) and the rest of `s`; `none` when the number passes `1<<63`. -/
def leadingInt : List Char → Nat → Option (Nat × List Char)
  | [], x => some (x, [])
  | c :: rest, x =>
    if isDigit c then
      if x > 2 ^ 63 / 10 then none
      else if x * 10 + digitVal c > 2 ^ 63 then none
      else leadingInt rest (x * 10 + digitVal c)
    else some (x, c :: rest)

/-- Go `leadingFraction`: the leading digits as a numerator `x` with its
`scale` (a power of ten, a float64); digits past the overflow point are
consumed and dropped. -/
def leadingFraction : List Char → Nat → Float → Bool → Nat × Float × List Char
  | [], x, scale, _ => (x, scale, [])
  | c :: rest, x, scale, overflow =>
    if isDigit c then
      if overflow then leadingFraction rest x scale true
      else if x > (2 ^ 63 - 1) / 10 then leadingFraction rest x scale true
      else if x * 10 + digitVal c > 2 ^ 63 then leadingFraction rest x scale true
      else leadingFraction rest (x * 10 + digitVal c) (scale * 10) false
    else (x, scale, c :: rest)

/-- Go `unitMap`. -/
def unitMap (u : List Char) : Option Nat :=
  if u = ['n', 's'] then some Nanosecond
  else if u = ['u', 's'] then some Microsecond
  else if u = ['µ', 's'] then some Microsecond
  else if u = ['μ', 's'] then some Microsecond
  else if u = ['m', 's'] then some Millisecond
  else if u = ['s'] then some Second
  else if u = ['m'] then some Minute
  else if u = ['h'] then some Hour
  else none

/-- Go `uint64(float64(f) * (float64(unit) / scale))`, the fractional part of
one term of a duration. -/
def fracNanos (f unit : Nat) (scale : Float) : Nat :=
  (f.toUInt64.toFloat * (unit.toUInt64.toFloat / scale)).toUInt64.toNat

def notUnitChar (c : Char) : Bool := c == '.' || isDigit c

/-- The step `Consume (\.[0-9]*)?` of `time.ParseDuration`: the numerator and
scale of the fraction, the rest of the string, and whether a digit was read
after the period (`post`). -/
def fractionPart (s1 : List Char) : Nat × Float × List Char × Bool :=
  match s1 with
  | p :: t =>
    if p = '.' then
      ((leadingFraction t 0 1 false).1, (leadingFraction t 0 1 false).2.1,
        (leadingFraction t 0 1 false).2.2,
        t.length != (leadingFraction t 0 1 false).2.2.length)
    else (0, 1, s1, false)
  | [] => (0, 1, s1, false)

/-- One turn of the loop of `time.ParseDuration`: a number with an optional
fraction and a unit; returns its value in nanoseconds and the rest of the
string, `none` on any of the loop's error returns. -/
def durationTerm (s : List Char) : Option (Nat × List Char) :=
  match s with
  | [] => none
  | c :: _ =>
    if !notUnitChar c then none
    else
      match leadingInt s 0 with
      | none => none
      | some (v, s1) =>
        let pre := s.length != s1.length
        let fr := fractionPart s1
        if !pre && !fr.2.2.2 then none
        else
          let u := fr.2.2.1.takeWhile (fun c => !notUnitChar c)
          let s3 := fr.2.2.1.dropWhile (fun c => !notUnitChar c)
          if u = [] then none
          else
            match unitMap u with
            | none => none
            | some unit =>
              if v > 2 ^ 63 / unit then none
              else if fr.1 > 0 then
                if (v * unit + fracNanos fr.1 unit fr.2.1) % 2 ^ 64 > 2 ^ 63 then none
                else some ((v * unit + fracNanos fr.1 unit fr.2.1) % 2 ^ 64, s3)
              else some (v * unit, s3)

/-- The loop `for s != ""` of `time.ParseDuration`, summing the terms in
uint64.  Every turn consumes a character, so `fuel = s.length` is enough. -/
def durationLoop : Nat → List Char → Nat → Option Nat
  | _, [], d => some d
  | 0, _ :: _, _ => none
  | fuel + 1, c :: rest, d =>
    match durationTerm (c :: rest) with
    | none => none
    | some (v, s') =>
      if (d + v) % 2 ^ 64 > 2 ^ 63 then none
      else durationLoop fuel s' ((d + v) % 2 ^ 64)

/-- Go `time.ParseDuration`; `none` stands for the error return (whose
duration is 0). -/
def time.ParseDuration (s : List Char) : Option Duration :=
  let signed : Bool × List Char :=
    match s with
    | c :: t => if c = '-' then (true, t) else if c = '+' then (false, t) else (false, s)
    | [] => (false, s)
  if signed.2 = ['0'] then some 0
  else if signed.2 = [] then none
  else
    match durationLoop signed.2.length signed.2 0 with
    | none => none
    | some d =>
      if signed.1 then some (wrapInt64 (-(d : Int)))
      else if d > 2 ^ 63 - 1 then none
      else some (d : Int)

/-- Go `getnum`: one or two leading digits (exactly two when `fixed`). -/
def getnum (s : List Char) (fixed : Bool) : Option (Nat × List Char) :=
  match s with
  | [] => none
  | [a] =>
    if !isDigit a then none
    else if fixed then none
    else some (digitVal a, [])
  | a :: b :: rest =>
    if !isDigit a then none
    else if !isDigit b then
      if fixed then none else some (digitVal a, b :: rest)
    else some (digitVal a * 10 + digitVal b, rest)

/-- Go `atoi` of package `time`: an optional sign and digits, nothing else. -/
def atoi (s : List Char) : Option Int :=
  let signed : Bool × List Char :=
    match s with
    | c :: t => if c = '-' then (true, t) else if c = '+' then (false, t) else (false, s)
    | [] => (false, s)
  match leadingInt signed.2 0 with
  | some (q, []) => some (if signed.1 then -(q : Int) else (q : Int))
  | _ => none

/-- Go `time.Parse("15:04:05.000", value)`: hours (one or two digits, below
24), `:`, two-digit minutes, `:`, two-digit seconds, a period or comma and
exactly three more characters read by `atoi`, and nothing after them. -/
def time.Parse (value : List Char) : Option Time :=
  match getnum value false with
  | none => none
  | some (hour, v1) =>
    if 24 ≤ hour then none
    else
      match v1 with
      | c1 :: v2 =>
        if c1 ≠ ':' then none
        else
          match getnum v2 true with
          | none => none
          | some (min, v3) =>
            if 60 ≤ min then none
            else
              match v3 with
              | c2 :: v4 =>
                if c2 ≠ ':' then none
                else
                  match getnum v4 true with
                  | none => none
                  | some (sec, v5) =>
                    if 60 ≤ sec then none
                    else
                      match v5 with
                      | p :: d1 :: d2 :: d3 :: v6 =>
                        if p ≠ '.' ∧ p ≠ ',' then none
                        else
                          match atoi [d1, d2, d3] with
                          | none => none
                          | some ns =>
                            if ns < 0 then none
                            else if v6 ≠ [] then none
                            else some (time.Date0 hour min sec (ns.toNat * 1000000))
                      | _ => none
              | [] => none
      | [] => none

/-- Go `strings.Replace(s, ":", "h", 1)`: the first colon becomes an `h`. -/
def strings.Replace : List Char → List Char
  | [] => []
  | c :: rest => if c = ':' then 'h' :: rest else c :: strings.Replace rest

/-! ## Data model (`main.go`) -/

structure Config where
  Laps : Int
  LapLen : Int
  PenaltyLen : Int
  FiringLines : Int
  Start : String
  StartDelta : String
deriving DecidableEq

/-- One parsed log record; `Kind` is the field `Type` of the source (a reserved
word here). -/
structure Event where
  Time : Time
  Kind : Int
  Competitor : Int
  Params : String
deriving DecidableEq

structure Competitor where
  ID : Int
  StartTime : Time
  ActualStart : Time
  LapTimes : List Duration
  PenaltyStart : Time
  PenaltyTime : Duration
  Hits : Int
  Shots : Int
  Status : String
  Comment : String
  CurrentLap : Int
  OnPenalty : Bool
  OnRange : Bool
deriving DecidableEq

/-- The Go zero value `Competitor{}`. -/
def Competitor.zero : Competitor :=
  { ID := 0, StartTime := Time.zero, ActualStart := Time.zero, LapTimes := [],
    PenaltyStart := Time.zero, PenaltyTime := 0, Hits := 0, Shots := 0,
    Status := "", Comment := "", CurrentLap := 0, OnPenalty := false, OnRange := false }

/-! ## The simulation (`simulator.go`) -/

structure Simulation where
  Config : Config
  Competitors : Int → Option Competitor
  LastLapTime : Int → Option Time

def NewSimulation (config : Config) : Simulation :=
  { Config := config, Competitors := fun _ => none, LastLapTime := fun _ => none }

/-- The tolerance computed in cases 2 and 3:
`time.ParseDuration(strings.Replace(StartDelta, ":", "h", 1) + "m0s")`, the
error being discarded (the duration is then 0). -/
def startDelta (config : Config) : Duration :=
  (time.ParseDuration (strings.Replace config.StartDelta.toList ++ ['m', '0', 's'])).getD 0

/-- Store `comp` as the record of competitor `id`. -/
def Simulation.setCompetitor (s : Simulation) (id : Int) (comp : Competitor) : Simulation :=
  { s with Competitors := Function.update s.Competitors id (some comp) }

/-- Store `t` as the lap boundary of competitor `id`. -/
def Simulation.setLastLapTime (s : Simulation) (id : Int) (t : Time) : Simulation :=
  { s with LastLapTime := Function.update s.LastLapTime id (some t) }

/-- The lateness check shared by cases 2 and 3. -/
def lateCheck (config : Config) (event : Event) (comp : Competitor) : Competitor :=
  if Time.After event.Time (Time.Add comp.StartTime (startDelta config)) then
    { comp with Status := "NotStarted" }
  else comp

/-- Case 10 on the competitor record; `boundary` is the entry of
`LastLapTime`.  `CurrentLap++` and `CurrentLap--` are exact additions: they
are Go's for every `CurrentLap` below `maxInt64`. -/
def lapCompleted (config : Config) (event : Event) (boundary : Option Time)
    (comp : Competitor) : Competitor :=
  let comp1 : Competitor :=
    match boundary with
    | some startTime => { comp with LapTimes := comp.LapTimes ++ [Time.Sub event.Time startTime] }
    | none => comp
  let comp2 : Competitor := { comp1 with CurrentLap := comp1.CurrentLap + 1 }
  if comp2.CurrentLap > config.Laps then
    { comp2 with Status := "Finished", CurrentLap := comp2.CurrentLap - 1 }
  else comp2

/-- Case 33 on the competitor record. -/
def explicitFinish (config : Config) (event : Event) (boundary : Option Time)
    (comp : Competitor) : Competitor :=
  if comp.CurrentLap ≥ config.Laps then
    match boundary with
    | some startTime =>
      { comp with Status := "Finished",
                  LapTimes := comp.LapTimes ++ [Time.Sub event.Time startTime] }
    | none => { comp with Status := "Finished" }
  else comp

/-- Go `(*Simulation).ProcessEvent`.  `Hits++` and `Shots += 5` are exact
additions: they are Go's as long as the sum does not pass `maxInt64`. -/
def ProcessEvent (s : Simulation) (event : Event) : Simulation :=
  if (s.Competitors event.Competitor).isNone ∧ event.Kind ≠ 1 then s
  else if event.Kind = 1 then
    s.setCompetitor event.Competitor
      { Competitor.zero with ID := event.Competitor, Status := "Registered" }
  else
    match s.Competitors event.Competitor with
    | none => s
    | some comp =>
      if event.Kind = 2 then
        match time.Parse event.Params.toList with
        | none => s
        | some startTime =>
          s.setCompetitor event.Competitor
            (lateCheck s.Config event { comp with StartTime := startTime })
      else if event.Kind = 3 then
        s.setCompetitor event.Competitor (lateCheck s.Config event comp)
      else if event.Kind = 4 then
        (s.setCompetitor event.Competitor
          { comp with ActualStart := event.Time, Status := "Running", CurrentLap := 1 }).setLastLapTime
          event.Competitor event.Time
      else if event.Kind = 5 then
        s.setCompetitor event.Competitor { comp with OnRange := true }
      else if event.Kind = 6 then
        s.setCompetitor event.Competitor { comp with Hits := comp.Hits + 1 }
      else if event.Kind = 7 then
        s.setCompetitor event.Competitor { comp with OnRange := false, Shots := comp.Shots + 5 }
      else if event.Kind = 8 then
        s.setCompetitor event.Competitor
          { comp with OnPenalty := true, PenaltyStart := event.Time }
      else if event.Kind = 9 then
        s.setCompetitor event.Competitor
          { comp with OnPenalty := false,
                      PenaltyTime :=
                        Duration.add comp.PenaltyTime (Time.Sub event.Time comp.PenaltyStart) }
      else if event.Kind = 10 then
        match s.LastLapTime event.Competitor with
        | some startTime =>
          (s.setCompetitor event.Competitor
            (lapCompleted s.Config event (some startTime) comp)).setLastLapTime
            event.Competitor event.Time
        | none =>
          s.setCompetitor event.Competitor (lapCompleted s.Config event none comp)
      else if event.Kind = 11 then
        s.setCompetitor event.Competitor
          { comp with Status := "NotFinished", Comment := event.Params }
      else if event.Kind = 32 then
        s.setCompetitor event.Competitor { comp with Status := "NotStarted" }
      else if event.Kind = 33 then
        s.setCompetitor event.Competitor
          (explicitFinish s.Config event (s.LastLapTime event.Competitor) comp)
      else s

/-- The loop of `main`: the events are processed in order. -/
def runEvents (s : Simulation) (events : List Event) : Simulation :=
  events.foldl ProcessEvent s

/-! ## The report (`report.go`) -/

/-- Go `(*Competitor).TotalTime`: the laps are added up in order in int64,
then the penalty time is added. -/
def Competitor.TotalTime (c : Competitor) : Duration :=
  Duration.add (c.LapTimes.foldl (fun total lap => Duration.add total lap) 0) c.PenaltyTime

/-- The comparison function given to `sort.Slice` in `GenerateReport`. -/
def GenerateReport.less (ci cj : Competitor) : Bool :=
  if ci.Status = "Finished" ∧ cj.Status = "Finished" then
    decide (ci.TotalTime < cj.TotalTime)
  else decide (ci.Status = "Finished")

/-- Go `sort.SliceIsSorted`: no element is less than the one before it.  For a
comparison that is a strict weak ordering this is what `sort.Slice` leaves,
together with a rearrangement of the elements it was given. -/
def sort.SliceIsSorted {α : Type} (less : α → α → Bool) : List α → Bool
  | [] => true
  | [_] => true
  | a :: b :: rest => !less b a && sort.SliceIsSorted less (b :: rest)

/-! ## The life cycle of a competitor -/

/-- The statuses that end a competitor's race. -/
def terminalStatus (status : String) : Bool :=
  decide (status = "Finished") || decide (status = "NotFinished") ||
    decide (status = "NotStarted")

/-- An event that keeps to the life cycle of a competitor in state `s`: a
registered identifier is not registered again, a competitor that has a lap
boundary (it has started) is not started again, and a competitor whose status
is Finished, NotFinished or NotStarted gets no kind-10 or kind-33 event. -/
def inProtocol (s : Simulation) (event : Event) : Bool :=
  match s.Competitors event.Competitor with
  | none => true
  | some comp =>
    if event.Kind = 1 then false
    else if event.Kind = 4 then (s.LastLapTime event.Competitor).isNone
    else if event.Kind = 10 ∨ event.Kind = 33 then !terminalStatus comp.Status
    else true

/-- Every event of the sequence keeps to the life cycle in the state in which
it is processed. -/
def protocolRun : Simulation → List Event → Bool
  | _, [] => true
  | s, event :: rest => inProtocol s event && protocolRun (ProcessEvent s event) rest

/-- The relation between a competitor record and its lap boundary that the
life cycle maintains. -/
def lapsOk (config : Config) (boundary : Option Time) (comp : Competitor) : Prop :=
  match boundary with
  | none => comp.LapTimes = []
  | some _ =>
    (comp.LapTimes.length : Int) ≤ config.Laps ∧
      (terminalStatus comp.Status = false →
        (comp.LapTimes.length : Int) + 1 = comp.CurrentLap ∧ comp.CurrentLap ≤ config.Laps)

/-- The invariant behind the bound on `LapTimes`. -/
def lapInvariant (s : Simulation) : Prop :=
  1 ≤ s.Config.Laps ∧
    (∀ id, s.Competitors id = none → s.LastLapTime id = none) ∧
    ∀ id comp, s.Competitors id = some comp → lapsOk s.Config (s.LastLapTime id) comp

/-! ## Example data -/

/-- The configuration used in the tests. -/
def testConfig : Config :=
  { Laps := 2, LapLen := 3651, PenaltyLen := 50, FiringLines := 1,
    Start := "09:30:00", StartDelta := "00:00:30" }

/-- A finished competitor: laps of 15 and 15 minutes, 5 minutes of penalty. -/
def finishedExample : Competitor :=
  { Competitor.zero with
    Status := "Finished", LapTimes := [15 * Minute, 15 * Minute], PenaltyTime := 5 * Minute }

/-- A competitor that gave up after one lap of 15 minutes and 5 minutes of
penalty. -/
def notFinishedExample : Competitor :=
  { Competitor.zero with
    Status := "NotFinished", LapTimes := [15 * Minute], PenaltyTime := 5 * Minute }

/-- A running competitor on lap 1. -/
def runningExample : Competitor :=
  { Competitor.zero with ID := 1, Status := "Running", CurrentLap := 1 }

/-- A simulation in which competitor 1 is running lap 1 of 2 with lap
boundary 09:30:01.005. -/
def runningSim : Simulation :=
  ((NewSimulation testConfig).setCompetitor 1 runningExample).setLastLapTime 1
    (time.Date0 9 30 1 5000000)

/-- A simulation in which competitor 1 is on lap 2 of 2 with lap boundary
09:30:01.005. -/
def lastLapSim : Simulation :=
  ((NewSimulation testConfig).setCompetitor 1 { runningExample with CurrentLap := 2 }).setLastLapTime
    1 (time.Date0 9 30 1 5000000)

/-- A finished competitor with a total of 35 minutes. -/
def c35 : Competitor := finishedExample

/-- A finished competitor with a total of 32 minutes. -/
def c32 : Competitor := { finishedExample with ID := 2, LapTimes := [15 * Minute, 12 * Minute] }

/-- A competitor that did not start, with numeric fields set all the same. -/
def cNS : Competitor :=
  { Competitor.zero with ID := 3, Status := "NotStarted", LapTimes := [Minute], Hits := 5 }

/-- Competitor 1 registers, starts and completes the two laps of the test
configuration. -/
def twoLapEvents : List Event :=
  [⟨time.Date0 9 5 59 867000000, 1, 1, ""⟩, ⟨time.Date0 9 30 1 5000000, 4, 1, ""⟩,
   ⟨time.Date0 9 59 3 872000000, 10, 1, ""⟩, ⟨time.Date0 10 29 3 872000000, 10, 1, ""⟩]

/-- The same race followed by one more lap-completion event. -/
def threeLapEvents : List Event :=
  twoLapEvents ++ [⟨time.Date0 10 59 3 872000000, 10, 1, ""⟩]

/-- The events of `TestSimulationDisqualification`: competitor 1 registers,
draws 09:30:00.000 and is on the start line at 09:30:45.734. -/
def lateEvents : List Event :=
  [⟨time.Date0 9 5 59 867000000, 1, 1, ""⟩,
   ⟨time.Date0 9 15 0 841000000, 2, 1, "09:30:00.000"⟩,
   ⟨time.Date0 9 30 45 734000000, 3, 1, ""⟩]

/-- A kind-11 event for competitor 1. -/
def cannotContinue : Event := ⟨time.Date0 9 59 3 872000000, 11, 1, "Lost in the forest"⟩

/-- A kind-10 event for competitor 1. -/
def lapEnded : Event := ⟨time.Date0 9 59 3 872000000, 10, 1, ""⟩

/-- The record of competitor 1 after `twoLapEvents`. -/
def twoLapRecord : Competitor :=
  { Competitor.zero with
    ID := 1, ActualStart := time.Date0 9 30 1 5000000, Status := "Finished", CurrentLap := 2,
    LapTimes := [29 * Minute + 2867 * Millisecond, 30 * Minute] }

/-- Competitor 1 starts three times and completes one lap after each start;
its status is Running throughout. -/
def restartEvents : List Event :=
  [⟨time.Date0 9 5 59 867000000, 1, 1, ""⟩,
   ⟨time.Date0 9 30 1 5000000, 4, 1, ""⟩, ⟨time.Date0 9 40 0 0, 10, 1, ""⟩,
   ⟨time.Date0 9 41 0 0, 4, 1, ""⟩, ⟨time.Date0 9 50 0 0, 10, 1, ""⟩,
   ⟨time.Date0 9 51 0 0, 4, 1, ""⟩, ⟨time.Date0 9 59 0 0, 10, 1, ""⟩]

/-- Competitor 1 starts, is registered again and then gets three kind-10
events; its new record is Registered until the third of them. -/
def reRegisterEvents : List Event :=
  [⟨time.Date0 9 5 59 867000000, 1, 1, ""⟩, ⟨time.Date0 9 30 1 5000000, 4, 1, ""⟩,
   ⟨time.Date0 9 31 0 0, 1, 1, ""⟩, ⟨time.Date0 9 40 0 0, 10, 1, ""⟩,
   ⟨time.Date0 9 50 0 0, 10, 1, ""⟩, ⟨time.Date0 9 59 0 0, 10, 1, ""⟩]

/-! ## The view of one competitor

`ProcessEvent` reads and writes only the entries of the event's competitor in
the two maps.  `recordStep` and `boundaryStep` are those two entries after the
event, as functions of the entries before it; `processEvent_own` proves that
they agree with `ProcessEvent`. -/

/-- The entry of the event's competitor in `Competitors` after the event. -/
def recordStep (config : Config) (event : Event) (record : Option Competitor)
    (boundary : Option Time) : Option Competitor :=
  if event.Kind = 1 then
    some { Competitor.zero with ID := event.Competitor, Status := "Registered" }
  else
    match record with
    | none => none
    | some comp =>
      if event.Kind = 2 then
        match time.Parse event.Params.toList with
        | none => some comp
        | some startTime => some (lateCheck config event { comp with StartTime := startTime })
      else if event.Kind = 3 then some (lateCheck config event comp)
      else if event.Kind = 4 then
        some { comp with ActualStart := event.Time, Status := "Running", CurrentLap := 1 }
      else if event.Kind = 5 then some { comp with OnRange := true }
      else if event.Kind = 6 then some { comp with Hits := comp.Hits + 1 }
      else if event.Kind = 7 then some { comp with OnRange := false, Shots := comp.Shots + 5 }
      else if event.Kind = 8 then some { comp with OnPenalty := true, PenaltyStart := event.Time }
      else if event.Kind = 9 then
        some { comp with
          OnPenalty := false,
          PenaltyTime := Duration.add comp.PenaltyTime (Time.Sub event.Time comp.PenaltyStart) }
      else if event.Kind = 10 then some (lapCompleted config event boundary comp)
      else if event.Kind = 11 then
        some { comp with Status := "NotFinished", Comment := event.Params }
      else if event.Kind = 32 then some { comp with Status := "NotStarted" }
      else if event.Kind = 33 then some (explicitFinish config event boundary comp)
      else some comp

/-- The entry of the event's competitor in `LastLapTime` after the event. -/
def boundaryStep (event : Event) (record : Option Competitor) (boundary : Option Time) :
    Option Time :=
  match record with
  | none => boundary
  | some _ =>
    if event.Kind = 4 then some event.Time
    else if event.Kind = 10 then
      match boundary with
      | some _ => some event.Time
      | none => none
    else boundary

/-- The two entries of competitor `id` after a run of events: the events of
other competitors are skipped. -/
def localRun (config : Config) (id : Int) :
    List Event → Option Competitor × Option Time → Option Competitor × Option Time
  | [], st => st
  | event :: rest, st =>
    if event.Competitor = id then
      localRun config id rest (recordStep config event st.1 st.2, boundaryStep event st.1 st.2)
    else localRun config id rest st

/-- The bounds on `CurrentLap` that every run keeps. -/
def lapBounds (config : Config) (record : Option Competitor) : Prop :=
  ∀ comp, record = some comp →
    0 ≤ comp.CurrentLap ∧ comp.CurrentLap ≤ config.Laps ∧
      (comp.Status = "Finished" → comp.CurrentLap = config.Laps)

/-- A kind-2 event for competitor 1 whose params are not a time of day. -/
def badDraw : Event := ⟨time.Date0 9 15 0 841000000, 2, 1, "half past nine"⟩

/-- A kind-5 event for competitor 2. -/
def otherOnRange : Event := ⟨time.Date0 9 49 31 659000000, 5, 2, "1"⟩

/-- A simulation in which competitor 1 is registered and nothing else has
happened. -/
def registeredSim : Simulation :=
  (NewSimulation testConfig).setCompetitor 1
    { Competitor.zero with ID := 1, Status := "Registered" }

/-- Competitor 1 after the draw of `TestSimulationDisqualification`: registered,
start time drawn 09:30:00.000. -/
def drawnExample : Competitor :=
  { Competitor.zero with ID := 1, Status := "Registered", StartTime := time.Date0 9 30 0 0 }

/-- The simulation of the test configuration holding `drawnExample`. -/
def drawnSim : Simulation := (NewSimulation testConfig).setCompetitor 1 drawnExample

/-- The times of the kind-10 events of competitor `id` in a run, in order. -/
def ownLapTimes (id : Int) (events : List Event) : List Time :=
  (events.filter fun e => decide (e.Competitor = id ∧ e.Kind = 10)).map fun e => e.Time

/-- The lap durations that successive kind-10 events at `times` append when the
lap boundary is `boundary`: each is `t.Sub` of the boundary before it. -/
def lapDiffs : Time → List Time → List Duration
  | _, [] => []
  | boundary, t :: rest => Time.Sub t boundary :: lapDiffs t rest

/-- Each of the times differs from the boundary before it by an amount that
is a `Duration` (no `Time.Sub` saturates). -/
def diffsFit : Time → List Time → Bool
  | _, [] => true
  | boundary, t :: rest =>
    decide (minDuration ≤ t - boundary) && decide (t - boundary ≤ maxDuration) && diffsFit t rest

/-- Competitor 1 registers, starts at midnight and gets two kind-10 events,
2635200 hours (about 300 years) and 5270400 hours after the start. -/
def farApartEvents : List Event :=
  [⟨time.Date0 0 0 0 0, 1, 1, ""⟩, ⟨time.Date0 0 0 0 0, 4, 1, ""⟩,
   ⟨time.Date0 2635200 0 0 0, 10, 1, ""⟩, ⟨time.Date0 5270400 0 0 0, 10, 1, ""⟩]

/-! ## Formatting a duration (`report.go`)

`formatDuration` goes through `d.Seconds()`, a float64.  The float64
operations it uses (conversion from int64, division, addition) are modelled
exactly: each is the real result rounded to the nearest binary64 number, ties
to even, as IEEE 754 prescribes.  The magnitudes met here are below `2 ^ 64`,
far from the overflow threshold, which the model leaves out. -/

/-- The integer nearest to `q`, ties to even. -/
def roundHalfEven (q : ℚ) : ℤ :=
  if q - ⌊q⌋ < 1 / 2 then ⌊q⌋
  else if 1 / 2 < q - ⌊q⌋ then ⌊q⌋ + 1
  else if ⌊q⌋ % 2 = 0 then ⌊q⌋
  else ⌊q⌋ + 1

/-- The binary exponent of the binary64 interval that holds `x`: the exponent
of `x`, or -1022 for the subnormal range. -/
def float64Exponent (x : ℚ) : ℤ := max (Int.log 2 |x|) (-1022)

/-- The binary64 number nearest to `x` (ties to even): a multiple of
`2 ^ (e - 52)` for the exponent `e` of `x`. -/
def float64 (x : ℚ) : ℚ :=
  if x = 0 then 0
  else (roundHalfEven (x / 2 ^ (float64Exponent x - 52)) : ℚ) * 2 ^ (float64Exponent x - 52)

/-- Go `int(f)` for a float64 `f`: the fraction is dropped. -/
def truncToInt (x : ℚ) : ℤ := if 0 ≤ x then ⌊x⌋ else ⌈x⌉

/-- Go `d.Seconds()`: `float64(sec) + float64(nsec)/1e9` with `sec := d / Second`
and `nsec := d % Second` (int64 division truncates). -/
def Duration.Seconds (d : Duration) : ℚ :=
  float64 (float64 ((d.tdiv (Second : Int) : Int) : ℚ)
    + float64 (float64 ((d.tmod (Second : Int) : Int) : ℚ) / 1000000000))

/-- Go `d.Milliseconds()`. -/
def Duration.Milliseconds (d : Duration) : Int := d.tdiv 1000000

/-- Go `fmt` with the verb `%0<width>d`: the decimal digits, padded with zeros
to `width` characters; a minus sign counts in the width. -/
def fmtZeroPadded (width : Nat) (n : Int) : List Char :=
  if n < 0 then
    '-' :: (List.replicate (width - 1 - (Nat.toDigits 10 n.natAbs).length) '0'
      ++ Nat.toDigits 10 n.natAbs)
  else
    List.replicate (width - (Nat.toDigits 10 n.toNat).length) '0' ++ Nat.toDigits 10 n.toNat

/-- Go `formatDuration`. -/
def formatDuration (d : Duration) : String :=
  String.mk
    (fmtZeroPadded 2 ((truncToInt (Duration.Seconds d)).tdiv 3600) ++ [':']
      ++ fmtZeroPadded 2 (((truncToInt (Duration.Seconds d)).tmod 3600).tdiv 60) ++ [':']
      ++ fmtZeroPadded 2 ((truncToInt (Duration.Seconds d)).tmod 60) ++ ['.']
      ++ fmtZeroPadded 3 ((Duration.Milliseconds d).tmod 1000))

/-- A number below 100 written with two decimal digits. -/
def twoDigits (n : Nat) : List Char := [Nat.digitChar (n / 10), Nat.digitChar (n % 10)]

/-- A number below 1000 written with three decimal digits. -/
def threeDigits (n : Nat) : List Char :=
  [Nat.digitChar (n / 100), Nat.digitChar (n / 10 % 10), Nat.digitChar (n % 10)]

/-- The text `HH:MM:SS.mmm` of a non-negative duration as the specification
words it: the whole hours padded with zeros to at least two digits, the
remaining whole minutes and seconds on two digits, the remaining milliseconds
on three. -/
def clockText (d : Nat) : String :=
  String.mk
    (List.replicate (2 - (Nat.toDigits 10 (d / Hour)).length) '0' ++ Nat.toDigits 10 (d / Hour)
      ++ [':'] ++ twoDigits (d / Minute % 60) ++ [':'] ++ twoDigits (d / Second % 60) ++ ['.']
      ++ threeDigits (d / Millisecond % 1000))

/-! ## Package `sort`: `sort.Slice`

`sort.Slice(x, less)` sorts through two closures on the indices of the slice,
`less(i, j)` and `swap(i, j)` (`lessSwap`).  The slice is a list here;
`data.Less(i, j)` is `sort.Less less data i j`, which compares the elements at
`i` and `j`, and `data.Swap(i, j)` is `sort.Swap data i j`.  Indices are
natural numbers: every subtraction the code makes on an index is guarded by a
test that keeps it non-negative.  A loop of the Go code is a recursive
function, on the loop variable when it counts down and on the number of turns
left otherwise; the theorems on each function show that the turns given are
enough.  The functions are those of `zsortfunc.go`, which `sort.Slice` has
called since Go 1.19. -/

/-- Go `data[i]`.  At an index out of range, where Go panics, it is the
default element; the theorems below show that every `Swap` of `sort.Slice`
stays inside the part of the slice it is sorting. -/
def sort.index {α : Type} [Inhabited α] (data : List α) (i : Nat) : α := data.getD i default

/-- Go `data.Less(i, j)` for the closure `less(i, j)` that compares the
elements at `i` and `j`. -/
def sort.Less {α : Type} [Inhabited α] (less : α → α → Bool) (data : List α) (i j : Nat) : Bool :=
  less (sort.index data i) (sort.index data j)

/-- Go `data.Swap(i, j)`: `data[i], data[j] = data[j], data[i]`. -/
def sort.Swap {α : Type} [Inhabited α] (data : List α) (i j : Nat) : List α :=
  (data.set i (sort.index data j)).set j (sort.index data i)

/-- The inner loop of `insertionSort_func`:
`for j := i; j > a && data.Less(j, j-1); j-- { data.Swap(j, j-1) }`. -/
def sort.insertionSort_inner {α : Type} [Inhabited α] (less : α → α → Bool) (a : Nat) :
    Nat → List α → List α
  | 0, data => data
  | j + 1, data =>
    if a < j + 1 ∧ sort.Less less data (j + 1) j = true then
      sort.insertionSort_inner less a j (sort.Swap data (j + 1) j)
    else data

/-- The outer loop of `insertionSort_func`, `for i := a + 1; i < b; i++`, with
`n` turns left to run from `i`. -/
def sort.insertionSort_outer {α : Type} [Inhabited α] (less : α → α → Bool) (a : Nat) :
    Nat → Nat → List α → List α
  | 0, _, data => data
  | n + 1, i, data =>
    sort.insertionSort_outer less a n (i + 1) (sort.insertionSort_inner less a i data)

/-- Go `insertionSort_func(data, a, b)`: sorts `data[a:b]` by insertion. -/
def sort.insertionSort_func {α : Type} [Inhabited α] (less : α → α → Bool) (data : List α)
    (a b : Nat) : List α :=
  sort.insertionSort_outer less a (b - (a + 1)) (a + 1) data

/-- The loop of `siftDown_func`; `root` grows at every turn, so `hi` turns are
enough. -/
def sort.siftDown_loop {α : Type} [Inhabited α] (less : α → α → Bool) (hi first : Nat) :
    Nat → Nat → List α → List α
  | 0, _, data => data
  | fuel + 1, root, data =>
    if hi ≤ 2 * root + 1 then data
    else
      let child :=
        if 2 * root + 1 + 1 < hi ∧
            sort.Less less data (first + (2 * root + 1)) (first + (2 * root + 1) + 1) = true
        then 2 * root + 1 + 1 else 2 * root + 1
      if sort.Less less data (first + root) (first + child) = false then data
      else
        sort.siftDown_loop less hi first fuel child
          (sort.Swap data (first + root) (first + child))

/-- Go `siftDown_func(data, lo, hi, first)`. -/
def sort.siftDown_func {α : Type} [Inhabited α] (less : α → α → Bool) (data : List α)
    (lo hi first : Nat) : List α :=
  sort.siftDown_loop less hi first hi lo data

/-- The first loop of `heapSort_func`, `for i := (hi - 1) / 2; i >= 0; i--`,
from `i` down. -/
def sort.heapSort_build {α : Type} [Inhabited α] (less : α → α → Bool) (hi first : Nat) :
    Nat → List α → List α
  | 0, data => sort.siftDown_func less data 0 hi first
  | i + 1, data =>
    sort.heapSort_build less hi first i (sort.siftDown_func less data (i + 1) hi first)

/-- The second loop of `heapSort_func`, `for i := hi - 1; i >= 0; i--`; the
argument is `i + 1`. -/
def sort.heapSort_pop {α : Type} [Inhabited α] (less : α → α → Bool) (first : Nat) :
    Nat → List α → List α
  | 0, data => data
  | i + 1, data =>
    sort.heapSort_pop less first i
      (sort.siftDown_func less (sort.Swap data first (first + i)) 0 i first)

/-- Go `heapSort_func(data, a, b)`. -/
def sort.heapSort_func {α : Type} [Inhabited α] (less : α → α → Bool) (data : List α)
    (a b : Nat) : List α :=
  sort.heapSort_pop less a (b - a) (sort.heapSort_build less (b - a) a ((b - a - 1) / 2) data)

/-- Go `sortedHint`. -/
inductive sort.sortedHint where
  | unknownHint
  | increasingHint
  | decreasingHint
  deriving DecidableEq, Repr

/-- Go `order2_func(data, a, b, swaps)`: the two indices in order, and the
count of swaps. -/
def sort.order2_func {α : Type} [Inhabited α] (less : α → α → Bool) (data : List α)
    (a b swaps : Nat) : Nat × Nat × Nat :=
  if sort.Less less data b a = true then (b, a, swaps + 1) else (a, b, swaps)

/-- Go `median_func(data, a, b, c, swaps)`: the index of the median of three,
and the count of swaps. -/
def sort.median_func {α : Type} [Inhabited α] (less : α → α → Bool) (data : List α)
    (a b c swaps : Nat) : Nat × Nat :=
  let r1 := sort.order2_func less data a b swaps
  let r2 := sort.order2_func less data r1.2.1 c r1.2.2
  let r3 := sort.order2_func less data r1.1 r2.1 r2.2.2
  (r3.2.1, r3.2.2)

/-- Go `medianAdjacent_func(data, a, swaps)`. -/
def sort.medianAdjacent_func {α : Type} [Inhabited α] (less : α → α → Bool) (data : List α)
    (a swaps : Nat) : Nat × Nat :=
  sort.median_func less data (a - 1) a (a + 1) swaps

/-- Go `choosePivot_func(data, a, b)`: the index of the pivot and a hint. -/
def sort.choosePivot_func {α : Type} [Inhabited α] (less : α → α → Bool) (data : List α)
    (a b : Nat) : Nat × sort.sortedHint :=
  let l := b - a
  let i := a + l / 4 * 1
  let j := a + l / 4 * 2
  let k := a + l / 4 * 3
  let r : Nat × Nat :=
    if 8 ≤ l then
      if 50 ≤ l then
        let ri := sort.medianAdjacent_func less data i 0
        let rj := sort.medianAdjacent_func less data j ri.2
        let rk := sort.medianAdjacent_func less data k rj.2
        sort.median_func less data ri.1 rj.1 rk.1 rk.2
      else sort.median_func less data i j k 0
    else (j, 0)
  if r.2 = 0 then (r.1, sort.sortedHint.increasingHint)
  else if r.2 = 4 * 3 then (r.1, sort.sortedHint.decreasingHint)
  else (r.1, sort.sortedHint.unknownHint)

/-- The loop of `reverseRange_func`: `for i < j { data.Swap(i, j); i++; j-- }`. -/
def sort.reverseRange_loop {α : Type} [Inhabited α] : Nat → Nat → Nat → List α → List α
  | 0, _, _, data => data
  | fuel + 1, i, j, data =>
    if i < j then sort.reverseRange_loop fuel (i + 1) (j - 1) (sort.Swap data i j) else data

/-- Go `reverseRange_func(data, a, b)`. -/
def sort.reverseRange_func {α : Type} [Inhabited α] (data : List α) (a b : Nat) : List α :=
  sort.reverseRange_loop (b - a) a (b - 1) data

/-- Go `bits.Len(x)`: the number of bits of `x`. -/
def bits.Len (x : Nat) : Nat := if x = 0 then 0 else Nat.log2 x + 1

/-- Go `nextPowerOfTwo(length)`. -/
def sort.nextPowerOfTwo (length : Nat) : Nat := 1 <<< bits.Len length

/-- Go `(*xorshift).Next` on the uint64 state `r`: three xorshift steps, by
13 to the left, 7 to the right and 17 to the left.  (Releases of Go differ in
the last two shifts; what is proved about `sort.Slice` holds for every
function in its place.) -/
def sort.xorshift_Next (r : Nat) : Nat :=
  let r1 := r ^^^ ((r <<< 13) % 2 ^ 64)
  let r2 := r1 ^^^ (r1 >>> 7)
  r2 ^^^ ((r2 <<< 17) % 2 ^ 64)

/-- The loop of `breakPatterns_func`, `for i := 0; i < 3; i++`, with `n` turns
left; `next` is `random.Next`. -/
def sort.breakPatterns_loop {α : Type} [Inhabited α] (next : Nat → Nat)
    (a length modulus idx : Nat) :
    Nat → Nat → Nat → List α → List α
  | 0, _, _, data => data
  | n + 1, i, random, data =>
    let random1 := next random
    let other0 := random1 &&& (modulus - 1)
    let other := if length ≤ other0 then other0 - length else other0
    sort.breakPatterns_loop next a length modulus idx n (i + 1) random1
      (sort.Swap data (idx - 1 + i) (a + other))

/-- Go `breakPatterns_func(data, a, b)`; `next` is `random.Next`. -/
def sort.breakPatterns_func {α : Type} [Inhabited α] (next : Nat → Nat) (data : List α)
    (a b : Nat) : List α :=
  let length := b - a
  if 8 ≤ length then
    sort.breakPatterns_loop next a length (sort.nextPowerOfTwo length) (a + (length / 4) * 2 - 1)
      3 0 length data
  else data

/-- `for i < b && !data.Less(i, i-1) { i++ }` in `partialInsertionSort_func`. -/
def sort.partialInsertionSort_scan {α : Type} [Inhabited α] (less : α → α → Bool)
    (data : List α) (b : Nat) : Nat → Nat → Nat
  | 0, i => i
  | fuel + 1, i =>
    if i < b ∧ sort.Less less data i (i - 1) = false then
      sort.partialInsertionSort_scan less data b fuel (i + 1)
    else i

/-- `for j := i - 1; j >= 1; j-- { if !data.Less(j, j-1) { break }; data.Swap(j, j-1) }`
in `partialInsertionSort_func`, from `j`. -/
def sort.partialInsertionSort_left {α : Type} [Inhabited α] (less : α → α → Bool) :
    Nat → List α → List α
  | 0, data => data
  | j + 1, data =>
    if sort.Less less data (j + 1) j = false then data
    else sort.partialInsertionSort_left less j (sort.Swap data (j + 1) j)

/-- `for j := i + 1; j < b; j++ { if !data.Less(j, j-1) { break }; data.Swap(j, j-1) }`
in `partialInsertionSort_func`, from `j`. -/
def sort.partialInsertionSort_right {α : Type} [Inhabited α] (less : α → α → Bool) (b : Nat) :
    Nat → Nat → List α → List α
  | 0, _, data => data
  | fuel + 1, j, data =>
    if j < b then
      if sort.Less less data j (j - 1) = false then data
      else sort.partialInsertionSort_right less b fuel (j + 1) (sort.Swap data j (j - 1))
    else data

/-- The loop `for j := 0; j < maxSteps; j++` of `partialInsertionSort_func`,
with `steps` turns left. -/
def sort.partialInsertionSort_loop {α : Type} [Inhabited α] (less : α → α → Bool) (a b : Nat) :
    Nat → Nat → List α → List α × Bool
  | 0, _, data => (data, false)
  | steps + 1, i0, data =>
    let i := sort.partialInsertionSort_scan less data b (b - i0) i0
    if i = b then (data, true)
    else if b - a < 50 then (data, false)
    else
      let data1 := sort.Swap data i (i - 1)
      let data2 := if 2 ≤ i - a then sort.partialInsertionSort_left less (i - 1) data1 else data1
      let data3 :=
        if 2 ≤ b - i then sort.partialInsertionSort_right less b (b - (i + 1)) (i + 1) data2
        else data2
      sort.partialInsertionSort_loop less a b steps i data3

/-- Go `partialInsertionSort_func(data, a, b)`: the slice, and whether it is
sorted at the end. -/
def sort.partialInsertionSort_func {α : Type} [Inhabited α] (less : α → α → Bool)
    (data : List α) (a b : Nat) : List α × Bool :=
  sort.partialInsertionSort_loop less a b 5 (a + 1) data

/-- `for i <= j && data.Less(i, a) { i++ }` in `partition_func`. -/
def sort.partition_up {α : Type} [Inhabited α] (less : α → α → Bool) (data : List α)
    (a j : Nat) : Nat → Nat → Nat
  | 0, i => i
  | fuel + 1, i =>
    if i ≤ j ∧ sort.Less less data i a = true then sort.partition_up less data a j fuel (i + 1)
    else i

/-- `for i <= j && !data.Less(j, a) { j-- }` in `partition_func`; `i` is at
least `a + 1`, so the loop has stopped when `j` is 0. -/
def sort.partition_down {α : Type} [Inhabited α] (less : α → α → Bool) (data : List α)
    (a i : Nat) : Nat → Nat
  | 0 => 0
  | j + 1 =>
    if i ≤ j + 1 ∧ sort.Less less data (j + 1) a = false then
      sort.partition_down less data a i j
    else j + 1

/-- The second loop of `partition_func`; returns the slice and `j`. -/
def sort.partition_loop {α : Type} [Inhabited α] (less : α → α → Bool) (a : Nat) :
    Nat → Nat → Nat → List α → List α × Nat
  | 0, _, j, data => (data, j)
  | fuel + 1, i0, j0, data =>
    let i := sort.partition_up less data a j0 (j0 + 1 - i0) i0
    let j := sort.partition_down less data a i j0
    if j < i then (data, j)
    else sort.partition_loop less a fuel (i + 1) (j - 1) (sort.Swap data i j)

/-- Go `partition_func(data, a, b, pivot)`: the slice, the new index of the
pivot and whether the slice was already partitioned. -/
def sort.partition_func {α : Type} [Inhabited α] (less : α → α → Bool) (data : List α)
    (a b pivot : Nat) : List α × Nat × Bool :=
  let data1 := sort.Swap data a pivot
  let i := sort.partition_up less data1 a (b - 1) (b - 1 + 1 - (a + 1)) (a + 1)
  let j := sort.partition_down less data1 a i (b - 1)
  if j < i then (sort.Swap data1 j a, j, true)
  else
    let r := sort.partition_loop less a (b - a) (i + 1) (j - 1) (sort.Swap data1 i j)
    (sort.Swap r.1 r.2 a, r.2, false)

/-- `for i <= j && !data.Less(a, i) { i++ }` in `partitionEqual_func`. -/
def sort.partitionEqual_up {α : Type} [Inhabited α] (less : α → α → Bool) (data : List α)
    (a j : Nat) : Nat → Nat → Nat
  | 0, i => i
  | fuel + 1, i =>
    if i ≤ j ∧ sort.Less less data a i = false then
      sort.partitionEqual_up less data a j fuel (i + 1)
    else i

/-- `for i <= j && data.Less(a, j) { j-- }` in `partitionEqual_func`; `i` is
at least `a + 1`, so the loop has stopped when `j` is 0. -/
def sort.partitionEqual_down {α : Type} [Inhabited α] (less : α → α → Bool) (data : List α)
    (a i : Nat) : Nat → Nat
  | 0 => 0
  | j + 1 =>
    if i ≤ j + 1 ∧ sort.Less less data a (j + 1) = true then
      sort.partitionEqual_down less data a i j
    else j + 1

/-- The loop of `partitionEqual_func`; returns the slice and `i`. -/
def sort.partitionEqual_loop {α : Type} [Inhabited α] (less : α → α → Bool) (a : Nat) :
    Nat → Nat → Nat → List α → List α × Nat
  | 0, i, _, data => (data, i)
  | fuel + 1, i0, j0, data =>
    let i := sort.partitionEqual_up less data a j0 (j0 + 1 - i0) i0
    let j := sort.partitionEqual_down less data a i j0
    if j < i then (data, i)
    else sort.partitionEqual_loop less a fuel (i + 1) (j - 1) (sort.Swap data i j)

/-- Go `partitionEqual_func(data, a, b, pivot)`: the slice and the index
where the elements greater than the pivot start. -/
def sort.partitionEqual_func {α : Type} [Inhabited α] (less : α → α → Bool) (data : List α)
    (a b pivot : Nat) : List α × Nat :=
  sort.partitionEqual_loop less a (b - a) (a + 1) (b - 1) (sort.Swap data a pivot)

/-- What one turn of the `for` loop of `pdqsort_func` leaves to do. -/
inductive sort.pdqsortTurn (α : Type) where
  /-- The turn returned. -/
  | done (data : List α)
  /-- The turn ended in `a = mid; continue` after `partitionEqual_func`. -/
  | equal (data : List α) (mid : Nat)
  /-- The turn partitioned the slice around `mid`. -/
  | split (data : List α) (mid : Nat) (alreadyPartitioned : Bool)

/-- One turn of the `for` loop of `pdqsort_func(data, a, b, limit)`, up to the
nested call; `limit` is the value on entry and `next` the `Next` of the
random source of `breakPatterns_func`. -/
def sort.pdqsort_turn {α : Type} [Inhabited α] (next : Nat → Nat) (less : α → α → Bool)
    (data : List α)
    (a b limit : Nat) (wasBalanced wasPartitioned : Bool) : sort.pdqsortTurn α :=
  if b - a ≤ 12 then sort.pdqsortTurn.done (sort.insertionSort_func less data a b)
  else if limit = 0 then sort.pdqsortTurn.done (sort.heapSort_func less data a b)
  else
    let data1 := if wasBalanced = false then sort.breakPatterns_func next data a b else data
    let c := sort.choosePivot_func less data1 a b
    let data2 :=
      if c.2 = sort.sortedHint.decreasingHint then sort.reverseRange_func data1 a b else data1
    let pivot :=
      if c.2 = sort.sortedHint.decreasingHint then (b - 1) - (c.1 - a) else c.1
    let hint :=
      if c.2 = sort.sortedHint.decreasingHint then sort.sortedHint.increasingHint else c.2
    let p : List α × Bool :=
      if wasBalanced = true ∧ wasPartitioned = true ∧ hint = sort.sortedHint.increasingHint
      then sort.partialInsertionSort_func less data2 a b
      else (data2, false)
    if p.2 = true then sort.pdqsortTurn.done p.1
    else if 0 < a ∧ sort.Less less p.1 (a - 1) pivot = false then
      let e := sort.partitionEqual_func less p.1 a b pivot
      sort.pdqsortTurn.equal e.1 e.2
    else
      let q := sort.partition_func less p.1 a b pivot
      sort.pdqsortTurn.split q.1 q.2.1 q.2.2

/-- Go `pdqsort_func(data, a, b, limit)`.  One call of the function below is
one turn of its `for` loop: `wasBalanced` and `wasPartitioned` are the two
variables of the loop, a nested call starts with both true, and the loop goes
on through the outer call of each branch.  In a turn that goes on, `limit` is
taken down by one exactly when `wasBalanced` is false.  Every turn shortens
`data[a:b]`, so `b - a + 1` turns are enough. -/
def sort.pdqsort_func {α : Type} [Inhabited α] (next : Nat → Nat) (less : α → α → Bool) :
    Nat → List α → Nat → Nat → Nat → Bool → Bool → List α
  | 0, data, _, _, _, _, _ => data
  | fuel + 1, data, a, b, limit, wasBalanced, wasPartitioned =>
    match sort.pdqsort_turn next less data a b limit wasBalanced wasPartitioned with
    | sort.pdqsortTurn.done data1 => data1
    | sort.pdqsortTurn.equal data1 mid =>
      sort.pdqsort_func next less fuel data1 mid b (if wasBalanced = false then limit - 1 else limit)
        wasBalanced wasPartitioned
    | sort.pdqsortTurn.split data1 mid alreadyPartitioned =>
      if mid - a < b - mid then
        sort.pdqsort_func next less fuel
          (sort.pdqsort_func next less fuel data1 a mid
            (if wasBalanced = false then limit - 1 else limit) true true)
          (mid + 1) b (if wasBalanced = false then limit - 1 else limit)
          (decide ((b - a) / 8 ≤ mid - a)) alreadyPartitioned
      else
        sort.pdqsort_func next less fuel
          (sort.pdqsort_func next less fuel data1 (mid + 1) b
            (if wasBalanced = false then limit - 1 else limit) true true)
          a mid (if wasBalanced = false then limit - 1 else limit)
          (decide ((b - a) / 8 ≤ b - mid)) alreadyPartitioned

/-- Go `sort.Slice(x, less)`: the slice `x` after the call; `next` is the
`Next` of the random source of `breakPatterns_func`. -/
def sort.Slice {α : Type} [Inhabited α] (next : Nat → Nat) (less : α → α → Bool) (x : List α) :
    List α :=
  sort.pdqsort_func next less (x.length + 1) x 0 x.length (bits.Len x.length) true true


/-- The elements of `data[a:b]` are in order: none is less than one before it. -/
def sort.SortedOn {α : Type} [Inhabited α] (less : α → α → Bool) (data : List α) (a b : Nat) :
    Prop :=
  ∀ i j, a ≤ i → i ≤ j → j < b → less (sort.index data j) (sort.index data i) = false

/-- The slice `data2` is `data1` with the elements of `data1[a:b]` rearranged. -/
def sort.PermOn {α : Type} [Inhabited α] (data1 data2 : List α) (a b : Nat) : Prop :=
  data2.length = data1.length ∧
    ∃ σ : Equiv.Perm Nat, (∀ k, k < a ∨ b ≤ k → σ k = k) ∧
      ∀ k, sort.index data2 k = sort.index data1 (σ k)

/-- The comparison is a strict weak ordering: of two elements one is not less
than the other, and "not less than" is transitive. -/
def sort.IsOrder {α : Type} (less : α → α → Bool) : Prop :=
  (∀ x y : α, less y x = false ∨ less x y = false) ∧
    ∀ x y z : α, less y x = false → less z y = false → less z x = false

/-- No element of `data[a:b]` is less than the element before `data[a:b]`, if
there is one.  `pdqsort_func` keeps this true of the part it is sorting. -/
def sort.LowerBound {α : Type} [Inhabited α] (less : α → α → Bool) (data : List α) (a b : Nat) :
    Prop :=
  a = 0 ∨ ∀ k, a ≤ k → k < b → less (sort.index data k) (sort.index data (a - 1)) = false

/-- The heap of `hi` nodes laid out from `data[first]` on is in heap order at
every node from `lo` on: no such node is less than a child of it. -/
def sort.HeapFrom {α : Type} [Inhabited α] (less : α → α → Bool) (data : List α)
    (first lo hi : Nat) : Prop :=
  ∀ r c, lo ≤ r → (c = 2 * r + 1 ∨ c = 2 * r + 2) → c < hi →
    less (sort.index data (first + r)) (sort.index data (first + c)) = false

instance : Inhabited Competitor := ⟨Competitor.zero⟩

/-- The slice `competitors` of `GenerateReport` after the call of `sort.Slice`.
The argument is the slice as the loop over the map `s.Competitors` has built
it: it holds the records of the map, in an order that Go does not fix. -/
def GenerateReport.sorted (competitors : List Competitor) : List Competitor :=
  sort.Slice sort.xorshift_Next GenerateReport.less competitors

/-! ## Theorems -/

/-! ### Duration arithmetic -/

theorem wrapInt64_of_mem {x : Int} (hlo : minDuration ≤ x) (hhi : x ≤ maxDuration) :
    wrapInt64 x = x := by
  unfold wrapInt64
  unfold minDuration at hlo
  unfold maxDuration at hhi
  omega

/-- Go `x + n` on `int` for a representable `x` and `n >= 0` whose exact sum
does not pass the largest `int`: the sum does not wrap. -/
theorem int_add_fits {x n : Int} (hlo : minInt64 ≤ x) (hn : 0 ≤ n) (hhi : x + n ≤ maxInt64) :
    wrapInt64 (x + n) = x + n := by
  unfold wrapInt64
  unfold minInt64 at hlo
  unfold maxInt64 at hhi
  omega

theorem wrapInt64_add_wrapInt64 (a b : Int) : wrapInt64 (wrapInt64 a + b) = wrapInt64 (a + b) := by
  unfold wrapInt64
  omega

theorem foldl_durationAdd (laps : List Duration) (acc : Int) :
    wrapInt64 (laps.foldl (fun total lap => Duration.add total lap) acc)
      = wrapInt64 (acc + laps.sum) := by
  induction laps generalizing acc with
  | nil => simp
  | cons lap rest ih =>
    rw [List.foldl_cons, ih, List.sum_cons, Duration.add, wrapInt64_add_wrapInt64, add_assoc]

theorem totalTime_eq_wrap (c : Competitor) :
    c.TotalTime = wrapInt64 (c.LapTimes.sum + c.PenaltyTime) := by
  unfold Competitor.TotalTime
  rw [Duration.add]
  have h := foldl_durationAdd c.LapTimes 0
  rw [zero_add] at h
  have h2 := wrapInt64_add_wrapInt64 (c.LapTimes.foldl (fun total lap => Duration.add total lap) 0)
    c.PenaltyTime
  have h3 := wrapInt64_add_wrapInt64 c.LapTimes.sum c.PenaltyTime
  rw [← h2, h, h3]

theorem timeSub_of_mem {t u : Time} (hlo : minDuration ≤ t - u) (hhi : t - u ≤ maxDuration) :
    Time.Sub t u = t - u := by
  unfold Time.Sub
  rw [if_neg (not_lt.mpr hlo), if_neg (not_lt.mpr hhi)]

/-! ### `Time.Add` inside and at the ends of the range of `time.Time` -/

theorem second_eq : ((Second : Nat) : Int) = 1000000000 := by decide

theorem tmod_second_bounds (d : Int) :
    -1000000000 < Int.tmod d 1000000000 ∧ Int.tmod d 1000000000 < 1000000000 ∧
      1000000000 * Int.tdiv d 1000000000 + Int.tmod d 1000000000 = d := by
  have hneg : Int.tmod (-d) 1000000000 = -(Int.tmod d 1000000000) := by
    have e1 := Int.tmod_def (-d) 1000000000
    have e2 := Int.tmod_def d 1000000000
    rw [Int.neg_tdiv] at e1
    omega
  refine ⟨?_, Int.tmod_lt_of_pos d (by decide), Int.tdiv_add_tmod d _⟩
  have h := Int.tmod_lt_of_pos (-d) (show (0 : Int) < 1000000000 by decide)
  rw [hneg] at h
  omega

/-- Inside the range of `time.Time`, `t.Add(d)` is the instant `t + d`. -/
theorem timeAdd_of_fits (t d : Int) (hlo : minTime ≤ t + d) (hhi : t + d ≤ maxTime) :
    Time.Add t d = t + d := by
  obtain ⟨h1, h2, h6⟩ := tmod_second_bounds d
  unfold Time.Add
  unfold minTime minInt64 at hlo
  unfold maxTime maxInt64 at hhi
  simp only [second_eq, maxInt64, minInt64] at hlo hhi ⊢
  have hq := Int.emod_add_ediv t 1000000000
  have hr := Int.emod_nonneg t (show (1000000000 : Int) ≠ 0 by decide)
  have hr2 := Int.emod_lt_of_pos t (show (0 : Int) < 1000000000 by decide)
  split_ifs <;> (show (_ : Int) = _) <;> omega

/-- Adding the zero duration changes nothing. -/
theorem timeAdd_zero (t : Int) : Time.Add t 0 = t := by
  unfold Time.Add
  simp only [second_eq]
  have hq := Int.emod_add_ediv t 1000000000
  have hr := Int.emod_nonneg t (show (1000000000 : Int) ≠ 0 by decide)
  have hr2 := Int.emod_lt_of_pos t (show (0 : Int) < 1000000000 by decide)
  simp only [Int.zero_tdiv, Int.zero_tmod, add_zero]
  split_ifs <;> (show (_ : Int) = _) <;> omega

/-- Past the end of the range the seconds stay at the largest int64: the
result is in the last second of `time.Time`, before the exact sum. -/
theorem timeAdd_saturates (t d : Int) (ht : t ≤ maxTime) (hd : 0 < d)
    (hhi : maxTime < t + d) :
    Time.Add t d = maxInt64 * Second + (t + d) % Second ∧ Time.Add t d < t + d := by
  obtain ⟨h1, h2, h6⟩ := tmod_second_bounds d
  have h7 : 0 ≤ Int.tmod d 1000000000 := Int.tmod_nonneg _ (le_of_lt hd)
  have h8 : 0 ≤ Int.tdiv d 1000000000 := Int.tdiv_nonneg (le_of_lt hd) (by decide)
  unfold Time.Add
  unfold maxTime maxInt64 at hhi ht
  simp only [second_eq, maxInt64, minInt64] at hhi ht ⊢
  have hq := Int.emod_add_ediv t 1000000000
  have hr := Int.emod_nonneg t (show (1000000000 : Int) ≠ 0 by decide)
  have hr2 := Int.emod_lt_of_pos t (show (0 : Int) < 1000000000 by decide)
  have hq2 := Int.emod_add_ediv (t + d) 1000000000
  have hr3 := Int.emod_nonneg (t + d) (show (1000000000 : Int) ≠ 0 by decide)
  have hr4 := Int.emod_lt_of_pos (t + d) (show (0 : Int) < 1000000000 by decide)
  split_ifs <;> constructor <;> first
    | (show (_ : Int) = _) ; omega
    | (show (_ : Int) < _) ; omega

/-! ### The effect of `ProcessEvent`, kind by kind -/

theorem processEvent_kind1 (s : Simulation) (event : Event) (hk : event.Kind = 1) :
    ProcessEvent s event = s.setCompetitor event.Competitor
      { Competitor.zero with ID := event.Competitor, Status := "Registered" } := by
  unfold ProcessEvent
  simp [hk]

theorem processEvent_unregistered (s : Simulation) (event : Event) (hk : event.Kind ≠ 1)
    (hreg : s.Competitors event.Competitor = none) : ProcessEvent s event = s := by
  unfold ProcessEvent
  simp [hk, hreg]

theorem processEvent_kind2 (s : Simulation) (event : Event) (comp : Competitor) (startTime : Time)
    (hk : event.Kind = 2) (hreg : s.Competitors event.Competitor = some comp)
    (hparse : time.Parse event.Params.toList = some startTime) :
    ProcessEvent s event = s.setCompetitor event.Competitor
      (lateCheck s.Config event { comp with StartTime := startTime }) := by
  have hparse2 : time.Parse event.Params.data = some startTime := hparse
  unfold ProcessEvent
  simp [hk, hreg, hparse2]

theorem processEvent_kind2_unparsed (s : Simulation) (event : Event) (comp : Competitor)
    (hk : event.Kind = 2) (hreg : s.Competitors event.Competitor = some comp)
    (hparse : time.Parse event.Params.toList = none) : ProcessEvent s event = s := by
  have hparse2 : time.Parse event.Params.data = none := hparse
  unfold ProcessEvent
  simp [hk, hreg, hparse2]

theorem processEvent_kind3 (s : Simulation) (event : Event) (comp : Competitor)
    (hk : event.Kind = 3) (hreg : s.Competitors event.Competitor = some comp) :
    ProcessEvent s event = s.setCompetitor event.Competitor (lateCheck s.Config event comp) := by
  unfold ProcessEvent
  simp [hk, hreg]

theorem processEvent_kind4 (s : Simulation) (event : Event) (comp : Competitor)
    (hk : event.Kind = 4) (hreg : s.Competitors event.Competitor = some comp) :
    ProcessEvent s event =
      (s.setCompetitor event.Competitor
        { comp with ActualStart := event.Time, Status := "Running", CurrentLap := 1 }).setLastLapTime
        event.Competitor event.Time := by
  unfold ProcessEvent
  simp [hk, hreg]

theorem processEvent_kind5 (s : Simulation) (event : Event) (comp : Competitor)
    (hk : event.Kind = 5) (hreg : s.Competitors event.Competitor = some comp) :
    ProcessEvent s event = s.setCompetitor event.Competitor { comp with OnRange := true } := by
  unfold ProcessEvent
  simp [hk, hreg]

theorem processEvent_kind6 (s : Simulation) (event : Event) (comp : Competitor)
    (hk : event.Kind = 6) (hreg : s.Competitors event.Competitor = some comp) :
    ProcessEvent s event =
      s.setCompetitor event.Competitor { comp with Hits := comp.Hits + 1 } := by
  unfold ProcessEvent
  simp [hk, hreg]

theorem processEvent_kind7 (s : Simulation) (event : Event) (comp : Competitor)
    (hk : event.Kind = 7) (hreg : s.Competitors event.Competitor = some comp) :
    ProcessEvent s event =
      s.setCompetitor event.Competitor { comp with OnRange := false, Shots := comp.Shots + 5 } := by
  unfold ProcessEvent
  simp [hk, hreg]

theorem processEvent_kind8 (s : Simulation) (event : Event) (comp : Competitor)
    (hk : event.Kind = 8) (hreg : s.Competitors event.Competitor = some comp) :
    ProcessEvent s event =
      s.setCompetitor event.Competitor
        { comp with OnPenalty := true, PenaltyStart := event.Time } := by
  unfold ProcessEvent
  simp [hk, hreg]

theorem processEvent_kind9 (s : Simulation) (event : Event) (comp : Competitor)
    (hk : event.Kind = 9) (hreg : s.Competitors event.Competitor = some comp) :
    ProcessEvent s event =
      s.setCompetitor event.Competitor
        { comp with
          OnPenalty := false,
          PenaltyTime := Duration.add comp.PenaltyTime (Time.Sub event.Time comp.PenaltyStart) } := by
  unfold ProcessEvent
  simp [hk, hreg]

theorem processEvent_kind10 (s : Simulation) (event : Event) (comp : Competitor)
    (hk : event.Kind = 10) (hreg : s.Competitors event.Competitor = some comp) :
    ProcessEvent s event =
      match s.LastLapTime event.Competitor with
      | some startTime =>
        (s.setCompetitor event.Competitor
          (lapCompleted s.Config event (some startTime) comp)).setLastLapTime
          event.Competitor event.Time
      | none => s.setCompetitor event.Competitor (lapCompleted s.Config event none comp) := by
  unfold ProcessEvent
  simp [hk, hreg]

theorem processEvent_kind11 (s : Simulation) (event : Event) (comp : Competitor)
    (hk : event.Kind = 11) (hreg : s.Competitors event.Competitor = some comp) :
    ProcessEvent s event =
      s.setCompetitor event.Competitor
        { comp with Status := "NotFinished", Comment := event.Params } := by
  unfold ProcessEvent
  simp [hk, hreg]

theorem processEvent_kind32 (s : Simulation) (event : Event) (comp : Competitor)
    (hk : event.Kind = 32) (hreg : s.Competitors event.Competitor = some comp) :
    ProcessEvent s event =
      s.setCompetitor event.Competitor { comp with Status := "NotStarted" } := by
  unfold ProcessEvent
  simp [hk, hreg]

theorem processEvent_kind33 (s : Simulation) (event : Event) (comp : Competitor)
    (hk : event.Kind = 33) (hreg : s.Competitors event.Competitor = some comp) :
    ProcessEvent s event = s.setCompetitor event.Competitor
      (explicitFinish s.Config event (s.LastLapTime event.Competitor) comp) := by
  unfold ProcessEvent
  simp [hk, hreg]

theorem processEvent_other_kind (s : Simulation) (event : Event)
    (h1 : event.Kind ≠ 1) (h2 : event.Kind ≠ 2) (h3 : event.Kind ≠ 3) (h4 : event.Kind ≠ 4)
    (h5 : event.Kind ≠ 5) (h6 : event.Kind ≠ 6) (h7 : event.Kind ≠ 7) (h8 : event.Kind ≠ 8)
    (h9 : event.Kind ≠ 9) (h10 : event.Kind ≠ 10) (h11 : event.Kind ≠ 11)
    (h32 : event.Kind ≠ 32) (h33 : event.Kind ≠ 33) : ProcessEvent s event = s := by
  unfold ProcessEvent
  cases hreg : s.Competitors event.Competitor <;>
    simp [h1, h2, h3, h4, h5, h6, h7, h8, h9, h10, h11, h32, h33]

theorem lateCheck_eq (config : Config) (event : Event) (comp : Competitor) :
    lateCheck config event comp =
      { comp with
        Status := if Time.Add comp.StartTime (startDelta config) < event.Time then "NotStarted"
                  else comp.Status } := by
  unfold lateCheck Time.After
  by_cases h : Time.Add comp.StartTime (startDelta config) < event.Time <;> simp [h]

/-! ### Frame lemmas for `ProcessEvent` -/

theorem setCompetitor_same (s : Simulation) (id : Int) (comp : Competitor) :
    (s.setCompetitor id comp).Competitors id = some comp := by
  simp [Simulation.setCompetitor]

theorem setLastLapTime_competitors (s : Simulation) (id : Int) (t : Time) :
    (s.setLastLapTime id t).Competitors = s.Competitors := rfl

theorem setCompetitor_lastLapTime (s : Simulation) (id : Int) (comp : Competitor) :
    (s.setCompetitor id comp).LastLapTime = s.LastLapTime := rfl

theorem setLastLapTime_same (s : Simulation) (id : Int) (t : Time) :
    (s.setLastLapTime id t).LastLapTime id = some t := by
  simp [Simulation.setLastLapTime]

/-- The three shapes a step can have: nothing changes, the record of the
event's competitor is replaced, or its record and its lap boundary are. -/
theorem processEvent_shape (s : Simulation) (event : Event) :
    ProcessEvent s event = s ∨
      (∃ c, ProcessEvent s event = s.setCompetitor event.Competitor c) ∨
      ∃ c t, ProcessEvent s event =
        (s.setCompetitor event.Competitor c).setLastLapTime event.Competitor t := by
  by_cases h1 : event.Kind = 1
  · exact Or.inr (Or.inl ⟨_, processEvent_kind1 s event h1⟩)
  cases hreg : s.Competitors event.Competitor with
  | none => exact Or.inl (processEvent_unregistered s event h1 hreg)
  | some comp =>
    by_cases h2 : event.Kind = 2
    · cases hparse : time.Parse event.Params.toList with
      | none => exact Or.inl (processEvent_kind2_unparsed s event comp h2 hreg hparse)
      | some st => exact Or.inr (Or.inl ⟨_, processEvent_kind2 s event comp st h2 hreg hparse⟩)
    by_cases h3 : event.Kind = 3
    · exact Or.inr (Or.inl ⟨_, processEvent_kind3 s event comp h3 hreg⟩)
    by_cases h4 : event.Kind = 4
    · exact Or.inr (Or.inr ⟨_, _, processEvent_kind4 s event comp h4 hreg⟩)
    by_cases h5 : event.Kind = 5
    · exact Or.inr (Or.inl ⟨_, processEvent_kind5 s event comp h5 hreg⟩)
    by_cases h6 : event.Kind = 6
    · exact Or.inr (Or.inl ⟨_, processEvent_kind6 s event comp h6 hreg⟩)
    by_cases h7 : event.Kind = 7
    · exact Or.inr (Or.inl ⟨_, processEvent_kind7 s event comp h7 hreg⟩)
    by_cases h8 : event.Kind = 8
    · exact Or.inr (Or.inl ⟨_, processEvent_kind8 s event comp h8 hreg⟩)
    by_cases h9 : event.Kind = 9
    · exact Or.inr (Or.inl ⟨_, processEvent_kind9 s event comp h9 hreg⟩)
    by_cases h10 : event.Kind = 10
    · have h := processEvent_kind10 s event comp h10 hreg
      cases hb : s.LastLapTime event.Competitor with
      | none =>
        rw [hb] at h
        exact Or.inr (Or.inl ⟨_, h⟩)
      | some b =>
        rw [hb] at h
        exact Or.inr (Or.inr ⟨_, _, h⟩)
    by_cases h11 : event.Kind = 11
    · exact Or.inr (Or.inl ⟨_, processEvent_kind11 s event comp h11 hreg⟩)
    by_cases h32 : event.Kind = 32
    · exact Or.inr (Or.inl ⟨_, processEvent_kind32 s event comp h32 hreg⟩)
    by_cases h33 : event.Kind = 33
    · exact Or.inr (Or.inl ⟨_, processEvent_kind33 s event comp h33 hreg⟩)
    exact Or.inl (processEvent_other_kind s event h1 h2 h3 h4 h5 h6 h7 h8 h9 h10 h11 h32 h33)

theorem processEvent_config (s : Simulation) (event : Event) :
    (ProcessEvent s event).Config = s.Config := by
  rcases processEvent_shape s event with h | ⟨c, h⟩ | ⟨c, t, h⟩ <;> rw [h] <;> rfl

theorem processEvent_other (s : Simulation) (event : Event) (id : Int)
    (hid : id ≠ event.Competitor) :
    (ProcessEvent s event).Competitors id = s.Competitors id ∧
      (ProcessEvent s event).LastLapTime id = s.LastLapTime id := by
  rcases processEvent_shape s event with h | ⟨c, h⟩ | ⟨c, t, h⟩ <;> rw [h] <;>
    simp [Simulation.setCompetitor, Simulation.setLastLapTime, Function.update_noteq hid]

theorem runEvents_config (s : Simulation) (events : List Event) :
    (runEvents s events).Config = s.Config := by
  induction events generalizing s with
  | nil => rfl
  | cons event rest ih =>
    have h := ih (ProcessEvent s event)
    rw [processEvent_config] at h
    exact h

/-! ### `time.ParseDuration`: digits, terms and fuel -/

theorem isDigit_bounds {c : Char} (h : isDigit c = true) : 48 ≤ c.toNat ∧ c.toNat ≤ 57 := by
  unfold isDigit at h
  simpa using h

theorem digitVal_le {c : Char} (h : isDigit c = true) : digitVal c ≤ 9 := by
  have := isDigit_bounds h
  unfold digitVal
  have h0 : '0'.toNat = 48 := rfl
  omega

theorem notUnitChar_of_isDigit {c : Char} (h : isDigit c = true) : notUnitChar c = true := by
  simp [notUnitChar, h]

theorem leadingInt_digit (c : Char) (rest : List Char) (x : Nat) (hc : isDigit c = true)
    (hx : x ≤ 2 ^ 63 / 10 - 1) : leadingInt (c :: rest) x = leadingInt rest (x * 10 + digitVal c) := by
  have hd := digitVal_le hc
  rw [leadingInt]
  simp only [hc, if_true]
  rw [if_neg (by omega), if_neg (by omega)]

theorem leadingInt_stop (c : Char) (rest : List Char) (x : Nat) (hc : isDigit c = false) :
    leadingInt (c :: rest) x = some (x, c :: rest) := by
  rw [leadingInt]
  simp [hc]

theorem leadingInt_length (s : List Char) (x v : Nat) (r : List Char)
    (h : leadingInt s x = some (v, r)) : r.length ≤ s.length := by
  induction s generalizing x with
  | nil =>
    rw [leadingInt] at h
    cases h
    exact le_refl _
  | cons c rest ih =>
    rw [leadingInt] at h
    split_ifs at h with h1 h2 h3
    · exact Nat.le_succ_of_le (ih _ h)
    · cases h
      exact le_refl _

theorem leadingInt_length_lt (c : Char) (s : List Char) (v : Nat) (r : List Char)
    (hc : isDigit c = true) (h : leadingInt (c :: s) 0 = some (v, r)) :
    r.length < (c :: s).length := by
  rw [leadingInt] at h
  simp only [hc, if_true] at h
  split_ifs at h with h2 h3
  exact Nat.lt_succ_of_le (leadingInt_length _ _ _ _ h)

theorem leadingFraction_length (s : List Char) (x : Nat) (scale : Float) (overflow : Bool) :
    (leadingFraction s x scale overflow).2.2.length ≤ s.length := by
  induction s generalizing x scale overflow with
  | nil => simp [leadingFraction]
  | cons c rest ih =>
    rw [leadingFraction]
    split_ifs
    · exact Nat.le_succ_of_le (ih _ _ _)
    · exact Nat.le_succ_of_le (ih _ _ _)
    · exact Nat.le_succ_of_le (ih _ _ _)
    · exact Nat.le_succ_of_le (ih _ _ _)
    · exact le_refl _

theorem fractionPart_length (s1 : List Char) : (fractionPart s1).2.2.1.length ≤ s1.length := by
  unfold fractionPart
  cases s1 with
  | nil => simp
  | cons p t =>
    by_cases hp : p = '.'
    · simp only [hp, if_true]
      exact Nat.le_succ_of_le (leadingFraction_length _ _ _ _)
    · simp only [hp, if_false]
      exact le_refl _

theorem dropWhile_length_lt (p : Char → Bool) (l : List Char) (h : l.takeWhile p ≠ []) :
    (l.dropWhile p).length < l.length := by
  cases l with
  | nil => simp at h
  | cons a t =>
    by_cases ha : p a = true
    · rw [List.dropWhile_cons_of_pos ha]
      exact Nat.lt_succ_of_le (List.Sublist.length_le (List.dropWhile_sublist p))
    · simp [List.takeWhile_cons, ha] at h

/-- Every successful turn of the loop of `time.ParseDuration` consumes at
least one character. -/
theorem durationTerm_length (s : List Char) (v : Nat) (s' : List Char)
    (h : durationTerm s = some (v, s')) : s'.length < s.length := by
  unfold durationTerm at h
  cases s with
  | nil => simp at h
  | cons c rest =>
    simp only at h
    split_ifs at h with hc
    cases hint : leadingInt (c :: rest) 0 with
    | none => simp [hint] at h
    | some r =>
      obtain ⟨v1, s1⟩ := r
      have hlen1 := leadingInt_length _ _ _ _ hint
      have hfr := fractionPart_length s1
      simp only [hint] at h
      generalize fractionPart s1 = fr at h hfr
      by_cases hpre : (!((c :: rest).length != s1.length) && !fr.2.2.2) = true
      · rw [if_pos hpre] at h
        cases h
      · rw [if_neg hpre] at h
        by_cases hu : List.takeWhile (fun c => !notUnitChar c) fr.2.2.1 = []
        · rw [if_pos hu] at h
          cases h
        · rw [if_neg hu] at h
          have hdrop := lt_of_lt_of_le (dropWhile_length_lt _ _ hu) (le_trans hfr hlen1)
          cases hunit : unitMap (List.takeWhile (fun c => !notUnitChar c) fr.2.2.1) with
          | none => simp [hunit] at h
          | some unit =>
            simp only [hunit] at h
            split_ifs at h <;>
              · simp only [Option.some.injEq, Prod.mk.injEq] at h
                rw [← h.2]
                exact hdrop

/-- The loop of `time.ParseDuration` gives the same result with any fuel that
is at least the length of the string: it never stops for lack of fuel. -/
theorem durationLoop_fuel (fuel : Nat) (s : List Char) (d : Nat) (h : s.length ≤ fuel) :
    durationLoop fuel s d = durationLoop s.length s d := by
  induction fuel using Nat.strong_induction_on generalizing s d with
  | _ fuel ih =>
    cases s with
    | nil => cases fuel <;> simp [durationLoop]
    | cons c rest =>
      cases fuel with
      | zero => simp at h
      | succ fuel =>
        simp only [List.length_cons, durationLoop]
        cases hterm : durationTerm (c :: rest) with
        | none => rfl
        | some r =>
          obtain ⟨v, s'⟩ := r
          have hlen := durationTerm_length _ _ _ hterm
          simp only [List.length_cons] at hlen h
          simp only
          split_ifs
          · rfl
          · have h1 := ih fuel (Nat.lt_succ_self _) s' ((d + v) % 2 ^ 64) (by omega)
            rcases Nat.lt_or_ge rest.length fuel with hlt | hge
            · have h2 := ih rest.length (by omega) s' ((d + v) % 2 ^ 64) (by omega)
              rw [h1, h2]
            · have : rest.length = fuel := by omega
              rw [this]

/-- A term made of digits that `leadingInt` reads as `v`, followed by a
one-letter unit and then by a digit or the end of the string. -/
theorem durationTerm_unit (c : Char) (s : List Char) (v : Nat) (uc : Char) (rest : List Char)
    (unit : Nat) (hc : isDigit c = true)
    (hint : leadingInt (c :: s) 0 = some (v, uc :: rest))
    (huc : notUnitChar uc = false)
    (hrest : ∀ r t, rest = r :: t → notUnitChar r = true)
    (hunit : unitMap [uc] = some unit) (hv : v ≤ 2 ^ 63 / unit) :
    durationTerm (c :: s) = some (v * unit, rest) := by
  have hne : ¬ (uc = '.') := by
    intro h
    rw [h] at huc
    exact Bool.noConfusion huc
  have hcu : notUnitChar c = true := by
    simp [notUnitChar, hc]
  have hlen : ((c :: s).length != (uc :: rest).length) = true := by
    have := leadingInt_length_lt c s v _ hc hint
    simp only [bne_iff_ne, ne_eq]
    omega
  have htake : (uc :: rest).takeWhile (fun c => !notUnitChar c) = [uc] := by
    cases rest with
    | nil => simp [huc]
    | cons r t => simp [List.takeWhile_cons, huc, hrest r t rfl]
  have hdrop : (uc :: rest).dropWhile (fun c => !notUnitChar c) = rest := by
    cases rest with
    | nil => simp [huc]
    | cons r t => simp [List.dropWhile_cons, huc, hrest r t rfl]
  unfold durationTerm
  simp only [hint, fractionPart, hcu, hlen, if_neg hne, htake, hdrop, hunit]
  simpa using hv

theorem parseDuration_hhmm (h1 h2 m1 m2 : Char) (hh1 : isDigit h1 = true) (hh2 : isDigit h2 = true)
    (hm1 : isDigit m1 = true) (hm2 : isDigit m2 = true) :
    time.ParseDuration [h1, h2, 'h', m1, m2, 'm', '0', 's']
      = some (((digitVal h1 * 10 + digitVal h2) * Hour + (digitVal m1 * 10 + digitVal m2) * Minute
          : Nat) : Int) := by
  have d1 := digitVal_le hh1
  have d2 := digitVal_le hh2
  have d3 := digitVal_le hm1
  have d4 := digitVal_le hm2
  have b1 := isDigit_bounds hh1
  have hmin : h1 ≠ '-' := by
    intro h; rw [h] at hh1; exact Bool.noConfusion hh1
  have hplus : h1 ≠ '+' := by
    intro h; rw [h] at hh1; exact Bool.noConfusion hh1
  have t1 : durationTerm [h1, h2, 'h', m1, m2, 'm', '0', 's']
      = some ((digitVal h1 * 10 + digitVal h2) * Hour, [m1, m2, 'm', '0', 's']) := by
    apply durationTerm_unit h1 _ _ 'h' _ Hour hh1 _ (by decide) _ (by decide)
    · simp only [Hour, Minute, Second, Millisecond, Microsecond, Nanosecond]; omega
    · rw [leadingInt_digit _ _ _ hh1 (by omega), leadingInt_digit _ _ _ hh2 (by omega),
        leadingInt_stop _ _ _ (by decide)]
      simp
    · intro r t hrt
      cases hrt
      exact notUnitChar_of_isDigit hm1
  have t2 : durationTerm [m1, m2, 'm', '0', 's']
      = some ((digitVal m1 * 10 + digitVal m2) * Minute, ['0', 's']) := by
    apply durationTerm_unit m1 _ _ 'm' _ Minute hm1 _ (by decide) _ (by decide)
    · simp only [Minute, Second, Millisecond, Microsecond, Nanosecond]; omega
    · rw [leadingInt_digit _ _ _ hm1 (by omega), leadingInt_digit _ _ _ hm2 (by omega),
        leadingInt_stop _ _ _ (by decide)]
      simp
    · intro r t hrt
      cases hrt
      decide
  have t3 : durationTerm ['0', 's'] = some (0, []) := by decide
  unfold time.ParseDuration
  simp only [if_neg hmin, if_neg hplus]
  rw [if_neg (by simp), if_neg (by simp)]
  simp only [List.length_cons, List.length_nil, durationLoop, t1, t2, t3]
  have bA : (digitVal h1 * 10 + digitVal h2) * Hour ≤ 99 * 3600000000000 := by
    simp only [Hour, Minute, Second, Millisecond, Microsecond, Nanosecond]; omega
  have bB : (digitVal m1 * 10 + digitVal m2) * Minute ≤ 99 * 60000000000 := by
    simp only [Minute, Second, Millisecond, Microsecond, Nanosecond]; omega
  generalize (digitVal h1 * 10 + digitVal h2) * Hour = A at bA ⊢
  generalize (digitVal m1 * 10 + digitVal m2) * Minute = B at bB ⊢
  have e1 : (0 + A) % 2 ^ 64 = A := by omega
  have e2 : (A + B) % 2 ^ 64 = A + B := by omega
  have e3 : (A + B + 0) % 2 ^ 64 = A + B := by omega
  rw [e1, e2, e3, if_neg (by omega), if_neg (by omega), if_neg (by omega)]
  simp only [Bool.false_eq_true, if_false]
  rw [if_neg (by omega)]

/-! ### The comparison of the report is a total preorder -/

theorem less_false_trans (a b c : Competitor) (hab : GenerateReport.less b a = false)
    (hbc : GenerateReport.less c b = false) : GenerateReport.less c a = false := by
  unfold GenerateReport.less at *
  by_cases ha : a.Status = "Finished" <;> by_cases hb : b.Status = "Finished" <;>
    by_cases hc : c.Status = "Finished" <;> simp_all
  exact le_trans hab hbc

theorem less_false_total (a b : Competitor) :
    GenerateReport.less b a = false ∨ GenerateReport.less a b = false := by
  unfold GenerateReport.less
  by_cases ha : a.Status = "Finished" <;> by_cases hb : b.Status = "Finished" <;> simp [ha, hb]
  exact le_total _ _

theorem sliceIsSorted_iff_chain {α : Type} (less : α → α → Bool) (l : List α) :
    sort.SliceIsSorted less l = true ↔ l.Chain' (fun a b => less b a = false) := by
  induction l with
  | nil => simp [sort.SliceIsSorted]
  | cons a rest ih =>
    cases rest with
    | nil => simp [sort.SliceIsSorted]
    | cons b rest2 =>
      rw [sort.SliceIsSorted, List.chain'_cons, ← ih]
      simp

theorem sortSlice_result_exists (input : List Competitor) :
    ∃ out : List Competitor, out.Perm input ∧
      sort.SliceIsSorted GenerateReport.less out = true := by
  haveI : IsTrans Competitor (fun a b => GenerateReport.less b a = false) :=
    ⟨fun a b c hab hbc => less_false_trans a b c hab hbc⟩
  haveI : IsTotal Competitor (fun a b => GenerateReport.less b a = false) :=
    ⟨fun a b => less_false_total a b⟩
  refine ⟨input.insertionSort (fun a b => GenerateReport.less b a = false),
    List.perm_insertionSort _ _, ?_⟩
  rw [sliceIsSorted_iff_chain]
  exact List.chain'_iff_pairwise.mpr (List.sorted_insertionSort _ _)

/-! ### The invariant behind the bound on `LapTimes` -/

theorem lapsOk_of_same (config : Config) (boundary : Option Time) (comp comp' : Competitor)
    (h : lapsOk config boundary comp) (hl : comp'.LapTimes = comp.LapTimes)
    (hc : comp'.CurrentLap = comp.CurrentLap)
    (hs : terminalStatus comp'.Status = false → comp'.Status = comp.Status) :
    lapsOk config boundary comp' := by
  cases boundary with
  | none =>
    simp only [lapsOk] at h ⊢
    rw [hl, h]
  | some b =>
    simp only [lapsOk] at h ⊢
    rw [hl, hc]
    refine ⟨h.1, fun ht => ?_⟩
    have hst := hs ht
    rw [hst] at ht
    exact h.2 ht

theorem lapInvariant_setCompetitor (s : Simulation) (id : Int) (comp' : Competitor)
    (hinv : lapInvariant s) (hnew : lapsOk s.Config (s.LastLapTime id) comp') :
    lapInvariant (s.setCompetitor id comp') := by
  obtain ⟨hl, hun, hreg⟩ := hinv
  refine ⟨hl, ?_, ?_⟩
  · intro j hj
    by_cases hji : j = id
    · subst hji
      simp [Simulation.setCompetitor] at hj
    · simp only [Simulation.setCompetitor, Function.update_noteq hji] at hj
      exact hun j hj
  · intro j c hj
    by_cases hji : j = id
    · subst hji
      simp only [Simulation.setCompetitor, Function.update_same, Option.some.injEq] at hj
      subst hj
      exact hnew
    · simp only [Simulation.setCompetitor, Function.update_noteq hji] at hj
      exact hreg j c hj

theorem lapInvariant_setBoth (s : Simulation) (id : Int) (comp' : Competitor) (t : Time)
    (hinv : lapInvariant s) (hnew : lapsOk s.Config (some t) comp') :
    lapInvariant ((s.setCompetitor id comp').setLastLapTime id t) := by
  obtain ⟨hl, hun, hreg⟩ := hinv
  refine ⟨hl, ?_, ?_⟩
  · intro j hj
    by_cases hji : j = id
    · subst hji
      simp [Simulation.setCompetitor, Simulation.setLastLapTime] at hj
    · simp only [Simulation.setCompetitor, Simulation.setLastLapTime,
        Function.update_noteq hji] at hj ⊢
      exact hun j hj
  · intro j c hj
    by_cases hji : j = id
    · subst hji
      simp only [Simulation.setCompetitor, Simulation.setLastLapTime, Function.update_same,
        Option.some.injEq] at hj ⊢
      subst hj
      exact hnew
    · simp only [Simulation.setCompetitor, Simulation.setLastLapTime,
        Function.update_noteq hji] at hj ⊢
      exact hreg j c hj

theorem lapsOk_lateCheck (config : Config) (boundary : Option Time) (event : Event)
    (comp comp' : Competitor) (h : lapsOk config boundary comp)
    (hl : comp'.LapTimes = comp.LapTimes) (hc : comp'.CurrentLap = comp.CurrentLap)
    (hs : comp'.Status = comp.Status) :
    lapsOk config boundary (lateCheck config event comp') := by
  rw [lateCheck_eq]
  refine lapsOk_of_same config boundary comp _ h hl hc ?_
  intro ht
  by_cases hlate : Time.Add comp'.StartTime (startDelta config) < event.Time
  · simp [hlate, terminalStatus] at ht
  · simp only [if_neg hlate]
    exact hs

theorem lapInvariant_step (s : Simulation) (event : Event) (hinv : lapInvariant s)
    (hp : inProtocol s event = true) : lapInvariant (ProcessEvent s event) := by
  have hinv' := hinv
  obtain ⟨hl, hun, hregs⟩ := hinv'
  cases hreg : s.Competitors event.Competitor with
  | none =>
    by_cases h1 : event.Kind = 1
    · rw [processEvent_kind1 s event h1]
      apply lapInvariant_setCompetitor s _ _ hinv
      rw [hun _ hreg]
      simp [lapsOk, Competitor.zero]
    · rw [processEvent_unregistered s event h1 hreg]
      exact hinv
  | some comp =>
    have hok := hregs _ comp hreg
    simp only [inProtocol, hreg] at hp
    by_cases h1 : event.Kind = 1
    · simp [h1] at hp
    by_cases h2 : event.Kind = 2
    · cases hparse : time.Parse event.Params.toList with
      | none =>
        rw [processEvent_kind2_unparsed s event comp h2 hreg hparse]
        exact hinv
      | some st =>
        rw [processEvent_kind2 s event comp st h2 hreg hparse]
        exact lapInvariant_setCompetitor s _ _ hinv
          (lapsOk_lateCheck _ _ _ comp _ hok rfl rfl rfl)
    by_cases h3 : event.Kind = 3
    · rw [processEvent_kind3 s event comp h3 hreg]
      exact lapInvariant_setCompetitor s _ _ hinv (lapsOk_lateCheck _ _ _ comp _ hok rfl rfl rfl)
    by_cases h4 : event.Kind = 4
    · rw [processEvent_kind4 s event comp h4 hreg]
      apply lapInvariant_setBoth s _ _ _ hinv
      simp [h4] at hp
      rw [hp] at hok
      simp only [lapsOk] at hok ⊢
      rw [hok]
      simp only [List.length_nil, Nat.cast_zero, zero_add]
      exact ⟨by omega, fun _ => ⟨trivial, hl⟩⟩
    by_cases h5 : event.Kind = 5
    · rw [processEvent_kind5 s event comp h5 hreg]
      exact lapInvariant_setCompetitor s _ _ hinv
        (lapsOk_of_same _ _ comp _ hok rfl rfl (fun _ => rfl))
    by_cases h6 : event.Kind = 6
    · rw [processEvent_kind6 s event comp h6 hreg]
      exact lapInvariant_setCompetitor s _ _ hinv
        (lapsOk_of_same _ _ comp _ hok rfl rfl (fun _ => rfl))
    by_cases h7 : event.Kind = 7
    · rw [processEvent_kind7 s event comp h7 hreg]
      exact lapInvariant_setCompetitor s _ _ hinv
        (lapsOk_of_same _ _ comp _ hok rfl rfl (fun _ => rfl))
    by_cases h8 : event.Kind = 8
    · rw [processEvent_kind8 s event comp h8 hreg]
      exact lapInvariant_setCompetitor s _ _ hinv
        (lapsOk_of_same _ _ comp _ hok rfl rfl (fun _ => rfl))
    by_cases h9 : event.Kind = 9
    · rw [processEvent_kind9 s event comp h9 hreg]
      exact lapInvariant_setCompetitor s _ _ hinv
        (lapsOk_of_same _ _ comp _ hok rfl rfl (fun _ => rfl))
    by_cases h10 : event.Kind = 10
    · have hstep := processEvent_kind10 s event comp h10 hreg
      simp [h10] at hp
      cases hb : s.LastLapTime event.Competitor with
      | none =>
        rw [hb] at hstep hok
        rw [hstep]
        apply lapInvariant_setCompetitor s _ _ hinv
        rw [hb]
        simp only [lapsOk] at hok ⊢
        by_cases hfin : comp.CurrentLap + 1 > s.Config.Laps <;> simp [lapCompleted, hfin, hok]
      | some b =>
        rw [hb] at hstep hok
        rw [hstep]
        apply lapInvariant_setBoth s _ _ _ hinv
        simp only [lapsOk] at hok ⊢
        obtain ⟨hlen, hrel⟩ := hok.2 hp
        unfold lapCompleted
        by_cases hfin : comp.CurrentLap + 1 > s.Config.Laps
        · simp only [hfin, if_true, List.length_append, List.length_singleton, Nat.cast_add,
            Nat.cast_one]
          exact ⟨by omega, fun ht => by simp [terminalStatus] at ht⟩
        · simp only [hfin, if_false, List.length_append, List.length_singleton, Nat.cast_add,
            Nat.cast_one]
          exact ⟨by omega, fun _ => ⟨by omega, by omega⟩⟩
    by_cases h11 : event.Kind = 11
    · rw [processEvent_kind11 s event comp h11 hreg]
      exact lapInvariant_setCompetitor s _ _ hinv
        (lapsOk_of_same _ _ comp _ hok rfl rfl (fun ht => by simp [terminalStatus] at ht))
    by_cases h32 : event.Kind = 32
    · rw [processEvent_kind32 s event comp h32 hreg]
      exact lapInvariant_setCompetitor s _ _ hinv
        (lapsOk_of_same _ _ comp _ hok rfl rfl (fun ht => by simp [terminalStatus] at ht))
    by_cases h33 : event.Kind = 33
    · rw [processEvent_kind33 s event comp h33 hreg]
      simp [h33] at hp
      apply lapInvariant_setCompetitor s _ _ hinv
      unfold explicitFinish
      by_cases hge : comp.CurrentLap ≥ s.Config.Laps
      · simp only [hge, if_true]
        cases hb : s.LastLapTime event.Competitor with
        | none =>
          rw [hb] at hok
          simp only [lapsOk] at hok ⊢
          exact hok
        | some b =>
          rw [hb] at hok
          simp only [lapsOk] at hok ⊢
          obtain ⟨hlen, hrel⟩ := hok.2 hp
          simp only [List.length_append, List.length_singleton, Nat.cast_add, Nat.cast_one]
          exact ⟨by omega, fun ht => by simp [terminalStatus] at ht⟩
      · simp only [hge, if_false]
        exact hok
    rw [processEvent_other_kind s event h1 h2 h3 h4 h5 h6 h7 h8 h9 h10 h11 h32 h33]
    exact hinv

theorem lapInvariant_new (config : Config) (hlaps : 1 ≤ config.Laps) :
    lapInvariant (NewSimulation config) := by
  refine ⟨hlaps, fun _ _ => rfl, ?_⟩
  intro id comp h
  simp [NewSimulation] at h

theorem lapInvariant_run (s : Simulation) (events : List Event) (hinv : lapInvariant s)
    (hrun : protocolRun s events = true) : lapInvariant (runEvents s events) := by
  induction events generalizing s with
  | nil => exact hinv
  | cons event rest ih =>
    simp only [protocolRun, Bool.and_eq_true] at hrun
    exact ih (ProcessEvent s event) (lapInvariant_step s event hinv hrun.1) hrun.2

theorem protocolRun_take (s : Simulation) (events : List Event) (k : Nat)
    (hrun : protocolRun s events = true) : protocolRun s (events.take k) = true := by
  induction events generalizing s k with
  | nil => simp [protocolRun]
  | cons event rest ih =>
    cases k with
    | zero => simp [protocolRun]
    | succ k =>
      simp only [protocolRun, Bool.and_eq_true, List.take_succ_cons] at hrun ⊢
      exact ⟨hrun.1, ih _ k hrun.2⟩

/-! ### `ProcessEvent` seen from one competitor -/

theorem processEvent_own (s : Simulation) (event : Event) :
    (ProcessEvent s event).Competitors event.Competitor =
        recordStep s.Config event (s.Competitors event.Competitor)
          (s.LastLapTime event.Competitor) ∧
      (ProcessEvent s event).LastLapTime event.Competitor =
        boundaryStep event (s.Competitors event.Competitor) (s.LastLapTime event.Competitor) := by
  by_cases h1 : event.Kind = 1
  · rw [processEvent_kind1 s event h1]
    refine ⟨by simp [recordStep, h1, Simulation.setCompetitor], ?_⟩
    rw [setCompetitor_lastLapTime]
    cases hreg : s.Competitors event.Competitor <;> simp [boundaryStep, h1]
  cases hreg : s.Competitors event.Competitor with
  | none =>
    rw [processEvent_unregistered s event h1 hreg]
    simp [recordStep, boundaryStep, h1, hreg]
  | some comp =>
    by_cases h2 : event.Kind = 2
    · cases hparse : time.Parse event.Params.toList with
      | none =>
        rw [processEvent_kind2_unparsed s event comp h2 hreg hparse]
        have hparse2 : time.Parse event.Params.data = none := hparse
        simp [recordStep, boundaryStep, h2, hreg, hparse2]
      | some st =>
        rw [processEvent_kind2 s event comp st h2 hreg hparse]
        have hparse2 : time.Parse event.Params.data = some st := hparse
        simp [recordStep, boundaryStep, h2, hparse2, Simulation.setCompetitor]
    by_cases h3 : event.Kind = 3
    · rw [processEvent_kind3 s event comp h3 hreg]
      simp [recordStep, boundaryStep, h3, Simulation.setCompetitor]
    by_cases h4 : event.Kind = 4
    · rw [processEvent_kind4 s event comp h4 hreg]
      simp [recordStep, boundaryStep, h4, Simulation.setCompetitor, Simulation.setLastLapTime]
    by_cases h5 : event.Kind = 5
    · rw [processEvent_kind5 s event comp h5 hreg]
      simp [recordStep, boundaryStep, h5, Simulation.setCompetitor]
    by_cases h6 : event.Kind = 6
    · rw [processEvent_kind6 s event comp h6 hreg]
      simp [recordStep, boundaryStep, h6, Simulation.setCompetitor]
    by_cases h7 : event.Kind = 7
    · rw [processEvent_kind7 s event comp h7 hreg]
      simp [recordStep, boundaryStep, h7, Simulation.setCompetitor]
    by_cases h8 : event.Kind = 8
    · rw [processEvent_kind8 s event comp h8 hreg]
      simp [recordStep, boundaryStep, h8, Simulation.setCompetitor]
    by_cases h9 : event.Kind = 9
    · rw [processEvent_kind9 s event comp h9 hreg]
      simp [recordStep, boundaryStep, h9, Simulation.setCompetitor]
    by_cases h10 : event.Kind = 10
    · have h := processEvent_kind10 s event comp h10 hreg
      cases hb : s.LastLapTime event.Competitor with
      | none =>
        rw [hb] at h
        rw [h]
        simp [recordStep, boundaryStep, h10, hb, Simulation.setCompetitor]
      | some b =>
        rw [hb] at h
        rw [h]
        simp [recordStep, boundaryStep, h10, Simulation.setCompetitor, Simulation.setLastLapTime]
    by_cases h11 : event.Kind = 11
    · rw [processEvent_kind11 s event comp h11 hreg]
      simp [recordStep, boundaryStep, h11, Simulation.setCompetitor]
    by_cases h32 : event.Kind = 32
    · rw [processEvent_kind32 s event comp h32 hreg]
      simp [recordStep, boundaryStep, h32, Simulation.setCompetitor]
    by_cases h33 : event.Kind = 33
    · rw [processEvent_kind33 s event comp h33 hreg]
      simp [recordStep, boundaryStep, h33, Simulation.setCompetitor]
    rw [processEvent_other_kind s event h1 h2 h3 h4 h5 h6 h7 h8 h9 h10 h11 h32 h33]
    simp [recordStep, boundaryStep, h1, h2, h3, h4, h5, h6, h7, h8, h9, h10, h11, h32, h33, hreg]

/-- The entries of competitor `id` after a run are those of `localRun`: they
depend on the configuration, on the two entries of `id` before the run and on
the events of `id`, in their order. -/
theorem runEvents_local (s : Simulation) (events : List Event) (id : Int) :
    ((runEvents s events).Competitors id, (runEvents s events).LastLapTime id) =
      localRun s.Config id events (s.Competitors id, s.LastLapTime id) := by
  induction events generalizing s with
  | nil => rfl
  | cons event rest ih =>
    have hrun : runEvents s (event :: rest) = runEvents (ProcessEvent s event) rest := rfl
    rw [hrun, ih (ProcessEvent s event), processEvent_config]
    by_cases hid : event.Competitor = id
    · subst hid
      rw [(processEvent_own s event).1, (processEvent_own s event).2]
      simp [localRun]
    · have hne : id ≠ event.Competitor := fun h => hid h.symm
      rw [(processEvent_other s event id hne).1, (processEvent_other s event id hne).2]
      simp [localRun, hid]

/-! ### Case analysis of `recordStep` -/

theorem recordStep_kind1 (config : Config) (event : Event) (record : Option Competitor)
    (boundary : Option Time) (h1 : event.Kind = 1) :
    recordStep config event record boundary =
      some { Competitor.zero with ID := event.Competitor, Status := "Registered" } := by
  simp [recordStep, h1]

theorem recordStep_none (config : Config) (event : Event) (boundary : Option Time)
    (h1 : event.Kind ≠ 1) : recordStep config event none boundary = none := by
  simp [recordStep, h1]

/-- A property of the record that holds in each case of the switch holds after
the step (for a registered competitor and a kind other than 1). -/
theorem recordStep_elim (config : Config) (event : Event) (comp : Competitor)
    (boundary : Option Time) (P : Competitor → Prop) (h1 : event.Kind ≠ 1)
    (hsame : P comp)
    (h2 : event.Kind = 2 → ∀ st, time.Parse event.Params.toList = some st →
      P (lateCheck config event { comp with StartTime := st }))
    (h3 : event.Kind = 3 → P (lateCheck config event comp))
    (h4 : event.Kind = 4 →
      P { comp with ActualStart := event.Time, Status := "Running", CurrentLap := 1 })
    (h5 : event.Kind = 5 → P { comp with OnRange := true })
    (h6 : event.Kind = 6 → P { comp with Hits := comp.Hits + 1 })
    (h7 : event.Kind = 7 → P { comp with OnRange := false, Shots := comp.Shots + 5 })
    (h8 : event.Kind = 8 → P { comp with OnPenalty := true, PenaltyStart := event.Time })
    (h9 : event.Kind = 9 →
      P { comp with
        OnPenalty := false,
        PenaltyTime := Duration.add comp.PenaltyTime (Time.Sub event.Time comp.PenaltyStart) })
    (h10 : event.Kind = 10 → P (lapCompleted config event boundary comp))
    (h11 : event.Kind = 11 → P { comp with Status := "NotFinished", Comment := event.Params })
    (h32 : event.Kind = 32 → P { comp with Status := "NotStarted" })
    (h33 : event.Kind = 33 → P (explicitFinish config event boundary comp)) :
    ∃ c, recordStep config event (some comp) boundary = some c ∧ P c := by
  by_cases k2 : event.Kind = 2
  · cases hparse : time.Parse event.Params.toList with
    | none =>
      have hparse2 : time.Parse event.Params.data = none := hparse
      exact ⟨comp, by simp [recordStep, k2, hparse2], hsame⟩
    | some st =>
      have hparse2 : time.Parse event.Params.data = some st := hparse
      exact ⟨_, by simp [recordStep, k2, hparse2], h2 k2 st hparse⟩
  by_cases k3 : event.Kind = 3
  · exact ⟨_, by simp [recordStep, k3], h3 k3⟩
  by_cases k4 : event.Kind = 4
  · exact ⟨_, by simp [recordStep, k4], h4 k4⟩
  by_cases k5 : event.Kind = 5
  · exact ⟨_, by simp [recordStep, k5], h5 k5⟩
  by_cases k6 : event.Kind = 6
  · exact ⟨_, by simp [recordStep, k6], h6 k6⟩
  by_cases k7 : event.Kind = 7
  · exact ⟨_, by simp [recordStep, k7], h7 k7⟩
  by_cases k8 : event.Kind = 8
  · exact ⟨_, by simp [recordStep, k8], h8 k8⟩
  by_cases k9 : event.Kind = 9
  · exact ⟨_, by simp [recordStep, k9], h9 k9⟩
  by_cases k10 : event.Kind = 10
  · exact ⟨_, by simp [recordStep, k10], h10 k10⟩
  by_cases k11 : event.Kind = 11
  · exact ⟨_, by simp [recordStep, k11], h11 k11⟩
  by_cases k32 : event.Kind = 32
  · exact ⟨_, by simp [recordStep, k32], h32 k32⟩
  by_cases k33 : event.Kind = 33
  · exact ⟨_, by simp [recordStep, k33], h33 k33⟩
  exact ⟨comp, by simp [recordStep, h1, k2, k3, k4, k5, k6, k7, k8, k9, k10, k11, k32, k33], hsame⟩

/-! ### The bounds on `CurrentLap` -/

theorem lapBounds_of_same (config : Config) (comp comp' : Competitor)
    (h : lapBounds config (some comp)) (hc : comp'.CurrentLap = comp.CurrentLap)
    (hs : comp'.Status = "Finished" → comp.Status = "Finished") :
    lapBounds config (some comp') := by
  intro c hcomp
  cases hcomp
  obtain ⟨h0, h1, h2⟩ := h comp rfl
  rw [hc]
  exact ⟨h0, h1, fun hf => h2 (hs hf)⟩

theorem lapBounds_lateCheck (config : Config) (event : Event) (comp comp' : Competitor)
    (h : lapBounds config (some comp)) (hc : comp'.CurrentLap = comp.CurrentLap)
    (hs : comp'.Status = comp.Status) :
    lapBounds config (some (lateCheck config event comp')) := by
  rw [lateCheck_eq]
  refine lapBounds_of_same config comp _ h hc ?_
  by_cases hlate : Time.Add comp'.StartTime (startDelta config) < event.Time
  · simp [hlate]
  · simp only [if_neg hlate]
    intro hf
    rw [← hs]
    exact hf

theorem recordStep_lapBounds (config : Config) (hl : 1 ≤ config.Laps) (event : Event)
    (record : Option Competitor) (boundary : Option Time) (h : lapBounds config record) :
    lapBounds config (recordStep config event record boundary) := by
  by_cases h1 : event.Kind = 1
  · rw [recordStep_kind1 config event record boundary h1]
    intro c hc
    cases hc
    simp only [Competitor.zero]
    exact ⟨le_refl _, by omega, fun hf => by simp at hf⟩
  cases record with
  | none =>
    rw [recordStep_none config event boundary h1]
    exact h
  | some comp =>
    obtain ⟨h0, hle, hfin⟩ := h comp rfl
    obtain ⟨c, hc, hP⟩ := recordStep_elim config event comp boundary
      (fun c => lapBounds config (some c)) h1 h
      (fun _ st _ => lapBounds_lateCheck config event comp _ h rfl rfl)
      (fun _ => lapBounds_lateCheck config event comp _ h rfl rfl)
      (fun _ c hc => by
        cases hc
        exact ⟨Int.zero_le_ofNat 1, hl, fun hf => by simp at hf⟩)
      (fun _ => lapBounds_of_same config comp _ h rfl (fun hf => hf))
      (fun _ => lapBounds_of_same config comp _ h rfl (fun hf => hf))
      (fun _ => lapBounds_of_same config comp _ h rfl (fun hf => hf))
      (fun _ => lapBounds_of_same config comp _ h rfl (fun hf => hf))
      (fun _ => lapBounds_of_same config comp _ h rfl (fun hf => hf))
      (fun _ c hc => by
        cases hc
        unfold lapCompleted
        by_cases hover : comp.CurrentLap + 1 > config.Laps
        · cases boundary <;> simp only [hover, if_true] <;>
            exact ⟨by omega, by omega, fun _ => by omega⟩
        · cases boundary <;> simp only [hover, if_false] <;>
            exact ⟨by omega, by omega, fun hf => by have := hfin hf; omega⟩)
      (fun _ => lapBounds_of_same config comp _ h rfl (fun hf => by simp at hf))
      (fun _ => lapBounds_of_same config comp _ h rfl (fun hf => by simp at hf))
      (fun _ c hc => by
        cases hc
        unfold explicitFinish
        by_cases hge : comp.CurrentLap ≥ config.Laps
        · cases boundary <;> simp only [hge, if_true] <;>
            exact ⟨h0, hle, fun _ => by omega⟩
        · simp only [hge, if_false]
          exact ⟨h0, hle, hfin⟩)
    rw [hc]
    exact hP

theorem localRun_lapBounds (config : Config) (hl : 1 ≤ config.Laps) (id : Int)
    (events : List Event) (st : Option Competitor × Option Time) (h : lapBounds config st.1) :
    lapBounds config (localRun config id events st).1 := by
  induction events generalizing st with
  | nil => exact h
  | cons event rest ih =>
    unfold localRun
    split_ifs
    · exact ih _ (recordStep_lapBounds config hl event st.1 st.2 h)
    · exact ih _ h

/-! ### Fields that the helpers of `ProcessEvent` leave alone -/

theorem lateCheck_fields (config : Config) (event : Event) (comp : Competitor) :
    (lateCheck config event comp).ID = comp.ID ∧
      (lateCheck config event comp).StartTime = comp.StartTime ∧
      (lateCheck config event comp).ActualStart = comp.ActualStart ∧
      (lateCheck config event comp).LapTimes = comp.LapTimes ∧
      (lateCheck config event comp).PenaltyStart = comp.PenaltyStart ∧
      (lateCheck config event comp).PenaltyTime = comp.PenaltyTime ∧
      (lateCheck config event comp).Hits = comp.Hits ∧
      (lateCheck config event comp).Shots = comp.Shots ∧
      (lateCheck config event comp).Comment = comp.Comment ∧
      (lateCheck config event comp).CurrentLap = comp.CurrentLap ∧
      (lateCheck config event comp).OnPenalty = comp.OnPenalty ∧
      (lateCheck config event comp).OnRange = comp.OnRange := by
  rw [lateCheck_eq]
  exact ⟨rfl, rfl, rfl, rfl, rfl, rfl, rfl, rfl, rfl, rfl, rfl, rfl⟩

theorem lapCompleted_fields (config : Config) (event : Event) (boundary : Option Time)
    (comp : Competitor) :
    (lapCompleted config event boundary comp).ID = comp.ID ∧
      (lapCompleted config event boundary comp).StartTime = comp.StartTime ∧
      (lapCompleted config event boundary comp).ActualStart = comp.ActualStart ∧
      (lapCompleted config event boundary comp).PenaltyStart = comp.PenaltyStart ∧
      (lapCompleted config event boundary comp).PenaltyTime = comp.PenaltyTime ∧
      (lapCompleted config event boundary comp).Hits = comp.Hits ∧
      (lapCompleted config event boundary comp).Shots = comp.Shots ∧
      (lapCompleted config event boundary comp).Comment = comp.Comment ∧
      (lapCompleted config event boundary comp).OnPenalty = comp.OnPenalty ∧
      (lapCompleted config event boundary comp).OnRange = comp.OnRange := by
  unfold lapCompleted
  cases boundary <;> simp only <;> split_ifs <;>
    exact ⟨rfl, rfl, rfl, rfl, rfl, rfl, rfl, rfl, rfl, rfl⟩

theorem lapCompleted_lapTimes (config : Config) (event : Event) (boundary : Option Time)
    (comp : Competitor) :
    (lapCompleted config event boundary comp).LapTimes =
      match boundary with
      | some b => comp.LapTimes ++ [Time.Sub event.Time b]
      | none => comp.LapTimes := by
  unfold lapCompleted
  cases boundary <;> simp only <;> split_ifs <;> rfl

theorem explicitFinish_fields (config : Config) (event : Event) (boundary : Option Time)
    (comp : Competitor) :
    (explicitFinish config event boundary comp).ID = comp.ID ∧
      (explicitFinish config event boundary comp).StartTime = comp.StartTime ∧
      (explicitFinish config event boundary comp).ActualStart = comp.ActualStart ∧
      (explicitFinish config event boundary comp).PenaltyStart = comp.PenaltyStart ∧
      (explicitFinish config event boundary comp).PenaltyTime = comp.PenaltyTime ∧
      (explicitFinish config event boundary comp).Hits = comp.Hits ∧
      (explicitFinish config event boundary comp).Shots = comp.Shots ∧
      (explicitFinish config event boundary comp).Comment = comp.Comment ∧
      (explicitFinish config event boundary comp).CurrentLap = comp.CurrentLap ∧
      (explicitFinish config event boundary comp).OnPenalty = comp.OnPenalty ∧
      (explicitFinish config event boundary comp).OnRange = comp.OnRange := by
  unfold explicitFinish
  split_ifs
  · cases boundary <;> exact ⟨rfl, rfl, rfl, rfl, rfl, rfl, rfl, rfl, rfl, rfl, rfl⟩
  · exact ⟨rfl, rfl, rfl, rfl, rfl, rfl, rfl, rfl, rfl, rfl, rfl⟩

/-! ### Runs seen from one competitor -/

theorem localRun_append (config : Config) (id : Int) (es1 es2 : List Event)
    (st : Option Competitor × Option Time) :
    localRun config id (es1 ++ es2) st = localRun config id es2 (localRun config id es1 st) := by
  induction es1 generalizing st with
  | nil => rfl
  | cons event rest ih =>
    simp only [List.cons_append, localRun]
    split_ifs
    · exact ih _
    · exact ih _

theorem localRun_own_cons (config : Config) (event : Event) (rest : List Event)
    (st : Option Competitor × Option Time) :
    localRun config event.Competitor (event :: rest) st =
      localRun config event.Competitor rest
        (recordStep config event st.1 st.2, boundaryStep event st.1 st.2) := by
  simp [localRun]

/-- A property of the record that every event of the competitor in the run
keeps, is kept by the run; the competitor stays registered. -/
theorem localRun_preserves (config : Config) (id : Int) (Q : Competitor → Prop)
    (ok : Event → Prop)
    (hstep : ∀ (e : Event) (comp : Competitor) (b : Option Time), ok e → Q comp →
      ∃ c, recordStep config e (some comp) b = some c ∧ Q c)
    (events : List Event) (hev : ∀ e ∈ events, e.Competitor = id → ok e)
    (comp : Competitor) (b : Option Time) (hQ : Q comp) :
    ∃ c, (localRun config id events (some comp, b)).1 = some c ∧ Q c := by
  induction events generalizing comp b with
  | nil => exact ⟨comp, rfl, hQ⟩
  | cons event rest ih =>
    have hrest : ∀ e ∈ rest, e.Competitor = id → ok e :=
      fun e he => hev e (List.mem_cons_of_mem _ he)
    unfold localRun
    split_ifs with hid
    · obtain ⟨c, hc, hQc⟩ := hstep event comp b (hev event (List.mem_cons_self _ _) hid) hQ
      simp only [hc]
      exact ih hrest c _ hQc
    · exact ih hrest comp b hQ

/-- Events of the competitor other than kinds 1 and 8 keep `PenaltyStart`. -/
theorem recordStep_penaltyStart (config : Config) (t1 : Time) (e : Event) (comp : Competitor)
    (b : Option Time) (hok : e.Kind ≠ 1 ∧ e.Kind ≠ 8) (hQ : comp.PenaltyStart = t1) :
    ∃ c, recordStep config e (some comp) b = some c ∧ c.PenaltyStart = t1 := by
  refine recordStep_elim config e comp b (fun c => c.PenaltyStart = t1) hok.1 hQ
    (fun _ st _ => ?_) (fun _ => ?_) (fun _ => hQ) (fun _ => hQ) (fun _ => hQ) (fun _ => hQ)
    (fun h8 => absurd h8 hok.2) (fun _ => hQ) (fun _ => ?_) (fun _ => hQ) (fun _ => hQ)
    (fun _ => ?_)
  · exact ((lateCheck_fields config e _).2.2.2.2.1).trans hQ
  · exact ((lateCheck_fields config e _).2.2.2.2.1).trans hQ
  · exact ((lapCompleted_fields config e b comp).2.2.2.1).trans hQ
  · exact ((explicitFinish_fields config e b comp).2.2.2.1).trans hQ

/-- Events of the competitor other than kinds 1 and 9 keep `PenaltyTime`. -/
theorem recordStep_penaltyTime (config : Config) (d : Duration) (e : Event) (comp : Competitor)
    (b : Option Time) (hok : e.Kind ≠ 1 ∧ e.Kind ≠ 9) (hQ : comp.PenaltyTime = d) :
    ∃ c, recordStep config e (some comp) b = some c ∧ c.PenaltyTime = d := by
  refine recordStep_elim config e comp b (fun c => c.PenaltyTime = d) hok.1 hQ
    (fun _ st _ => ?_) (fun _ => ?_) (fun _ => hQ) (fun _ => hQ) (fun _ => hQ) (fun _ => hQ)
    (fun _ => hQ) (fun h9 => absurd h9 hok.2) (fun _ => ?_) (fun _ => hQ) (fun _ => hQ)
    (fun _ => ?_)
  · exact ((lateCheck_fields config e _).2.2.2.2.2.1).trans hQ
  · exact ((lateCheck_fields config e _).2.2.2.2.2.1).trans hQ
  · exact ((lapCompleted_fields config e b comp).2.2.2.2.1).trans hQ
  · exact ((explicitFinish_fields config e b comp).2.2.2.2.1).trans hQ

/-- A run of kind-6 events of one competitor adds their number to `Hits`. -/
theorem localRun_hits (config : Config) (id : Int) (hits : List (Time × String))
    (comp : Competitor) (b : Option Time) :
    localRun config id (hits.map fun h => (⟨h.1, 6, id, h.2⟩ : Event)) (some comp, b) =
      (some { comp with Hits := comp.Hits + hits.length }, b) := by
  induction hits generalizing comp with
  | nil => simp [localRun]
  | cons h rest ih =>
    simp only [List.map_cons, localRun, if_true]
    have hr : recordStep config ⟨h.1, 6, id, h.2⟩ (some comp) b
        = some { comp with Hits := comp.Hits + 1 } := by
      simp [recordStep]
    have hb : boundaryStep ⟨h.1, 6, id, h.2⟩ (some comp) b = b := by
      simp [boundaryStep]
    rw [hr, hb, ih]
    simp only [List.length_cons, Nat.cast_add, Nat.cast_one]
    congr 2
    simp only [Competitor.mk.injEq, true_and, and_true]
    omega

/-! ### `time.ParseDuration` on `HHhMM:SSm0s` -/

/-- A term whose digits are followed by a one-character unit that is not in
`unitMap` is an error. -/
theorem durationTerm_unknown_unit (c : Char) (s : List Char) (v : Nat) (uc : Char)
    (rest : List Char) (hc : isDigit c = true)
    (hint : leadingInt (c :: s) 0 = some (v, uc :: rest))
    (huc : notUnitChar uc = false)
    (hrest : ∀ r t, rest = r :: t → notUnitChar r = true)
    (hunit : unitMap [uc] = none) :
    durationTerm (c :: s) = none := by
  have hne : ¬ (uc = '.') := by
    intro h
    rw [h] at huc
    exact Bool.noConfusion huc
  have hcu : notUnitChar c = true := by
    simp [notUnitChar, hc]
  have hlen : ((c :: s).length != (uc :: rest).length) = true := by
    have := leadingInt_length_lt c s v _ hc hint
    simp only [bne_iff_ne, ne_eq]
    omega
  have htake : (uc :: rest).takeWhile (fun c => !notUnitChar c) = [uc] := by
    cases rest with
    | nil => simp [huc]
    | cons r t => simp [List.takeWhile_cons, huc, hrest r t rfl]
  unfold durationTerm
  simp only [hint, fractionPart, hcu, hlen, if_neg hne, htake, hunit]
  simp

theorem parseDuration_hhmmss (h1 h2 m1 m2 s1 s2 : Char) (hh1 : isDigit h1 = true)
    (hh2 : isDigit h2 = true) (hm1 : isDigit m1 = true) (hm2 : isDigit m2 = true)
    (hs1 : isDigit s1 = true) :
    time.ParseDuration [h1, h2, 'h', m1, m2, ':', s1, s2, 'm', '0', 's'] = none := by
  have d1 := digitVal_le hh1
  have d2 := digitVal_le hh2
  have d3 := digitVal_le hm1
  have d4 := digitVal_le hm2
  have hmin : h1 ≠ '-' := by
    intro h; rw [h] at hh1; exact Bool.noConfusion hh1
  have hplus : h1 ≠ '+' := by
    intro h; rw [h] at hh1; exact Bool.noConfusion hh1
  have t1 : durationTerm [h1, h2, 'h', m1, m2, ':', s1, s2, 'm', '0', 's']
      = some ((digitVal h1 * 10 + digitVal h2) * Hour, [m1, m2, ':', s1, s2, 'm', '0', 's']) := by
    apply durationTerm_unit h1 _ _ 'h' _ Hour hh1 _ (by decide) _ (by decide)
    · simp only [Hour, Minute, Second, Millisecond, Microsecond, Nanosecond]; omega
    · rw [leadingInt_digit _ _ _ hh1 (by omega), leadingInt_digit _ _ _ hh2 (by omega),
        leadingInt_stop _ _ _ (by decide)]
      simp
    · intro r t hrt
      cases hrt
      exact notUnitChar_of_isDigit hm1
  have t2 : durationTerm [m1, m2, ':', s1, s2, 'm', '0', 's'] = none := by
    have hint : leadingInt [m1, m2, ':', s1, s2, 'm', '0', 's'] 0
        = some (digitVal m1 * 10 + digitVal m2, [':', s1, s2, 'm', '0', 's']) := by
      rw [leadingInt_digit _ _ _ hm1 (by omega), leadingInt_digit _ _ _ hm2 (by omega),
        leadingInt_stop _ _ _ (by decide)]
      simp
    have hrest : ∀ r t, [s1, s2, 'm', '0', 's'] = r :: t → notUnitChar r = true := by
      intro r t hrt
      cases hrt
      exact notUnitChar_of_isDigit hs1
    exact durationTerm_unknown_unit m1 _ _ ':' _ hm1 hint (by decide) hrest (by decide)
  have bA : (digitVal h1 * 10 + digitVal h2) * Hour ≤ 99 * 3600000000000 := by
    simp only [Hour, Minute, Second, Millisecond, Microsecond, Nanosecond]; omega
  unfold time.ParseDuration
  simp only [if_neg hmin, if_neg hplus]
  rw [if_neg (by simp), if_neg (by simp)]
  simp only [List.length_cons, List.length_nil, durationLoop, t1]
  generalize (digitVal h1 * 10 + digitVal h2) * Hour = A at bA ⊢
  have e1 : (0 + A) % 2 ^ 64 = A := by omega
  rw [e1, if_neg (by omega)]
  simp only [durationLoop, t2]

/-! ### Lap times along a run -/

theorem lapDiffs_length (b : Time) (times : List Time) :
    (lapDiffs b times).length = times.length := by
  induction times generalizing b with
  | nil => rfl
  | cons t rest ih => simp [lapDiffs, ih]

theorem lapDiffs_sum (b : Time) (times : List Time) (hfit : diffsFit b times = true) :
    (lapDiffs b times).sum = times.getLastD b - b := by
  induction times generalizing b with
  | nil => simp [lapDiffs]
  | cons t rest ih =>
    simp only [diffsFit, Bool.and_eq_true, decide_eq_true_eq] at hfit
    obtain ⟨⟨hlo, hhi⟩, hrest⟩ := hfit
    have h := ih t hrest
    rw [List.getLastD_cons]
    simp only [lapDiffs, List.sum_cons, h, timeSub_of_mem hlo hhi]
    ring

theorem localRun_skip (config : Config) (id : Int) (events : List Event)
    (hev : ∀ e ∈ events, e.Competitor ≠ id) (st : Option Competitor × Option Time) :
    localRun config id events st = st := by
  induction events with
  | nil => rfl
  | cons event rest ih =>
    unfold localRun
    rw [if_neg (hev event (List.mem_cons_self _ _))]
    exact ih fun e he => hev e (List.mem_cons_of_mem _ he)

/-- A relation between the record and the lap boundary that every event of
the competitor in the run keeps, is kept by the run. -/
theorem localRun_invariant (config : Config) (id : Int)
    (I : Competitor → Option Time → Prop) (ok : Event → Prop)
    (hstep : ∀ (e : Event) (comp : Competitor) (b : Option Time), ok e → I comp b →
      ∃ c, recordStep config e (some comp) b = some c ∧ I c (boundaryStep e (some comp) b))
    (events : List Event) (hev : ∀ e ∈ events, e.Competitor = id → ok e)
    (comp : Competitor) (b : Option Time) (hI : I comp b) :
    ∃ c b', localRun config id events (some comp, b) = (some c, b') ∧ I c b' := by
  induction events generalizing comp b with
  | nil => exact ⟨comp, b, rfl, hI⟩
  | cons event rest ih =>
    have hrest : ∀ e ∈ rest, e.Competitor = id → ok e :=
      fun e he => hev e (List.mem_cons_of_mem _ he)
    unfold localRun
    split_ifs with hid
    · obtain ⟨c, hc, hIc⟩ := hstep event comp b (hev event (List.mem_cons_self _ _) hid) hI
      simp only [hc]
      exact ih hrest c _ hIc
    · exact ih hrest comp b hI

/-- What an event of a kind other than 1, 4 and 33 does to `LapTimes` when
there is no lap boundary: nothing, and there is still no boundary. -/
theorem recordStep_lapTimes_none (config : Config) (e : Event) (comp : Competitor)
    (h1 : e.Kind ≠ 1) (h4 : e.Kind ≠ 4) (h33 : e.Kind ≠ 33) :
    ∃ c, recordStep config e (some comp) none = some c ∧ c.LapTimes = comp.LapTimes ∧
      boundaryStep e (some comp) none = none := by
  have hb : boundaryStep e (some comp) none = none := by
    unfold boundaryStep
    by_cases h10 : e.Kind = 10 <;> simp [h4, h10]
  obtain ⟨c, hc, hP⟩ := recordStep_elim config e comp none
    (fun c => c.LapTimes = comp.LapTimes) h1 rfl
    (fun _ st _ => (lateCheck_fields config e _).2.2.2.1)
    (fun _ => (lateCheck_fields config e _).2.2.2.1)
    (fun k => absurd k h4)
    (fun _ => rfl) (fun _ => rfl) (fun _ => rfl) (fun _ => rfl) (fun _ => rfl)
    (fun _ => lapCompleted_lapTimes config e none comp)
    (fun _ => rfl) (fun _ => rfl)
    (fun k => absurd k h33)
  exact ⟨c, hc, hP, hb⟩

/-- What an event of a kind other than 1, 4 and 33 does to `LapTimes` when the
lap boundary is `bt`: a kind-10 event appends `Time.Sub` of its time and `bt`
and moves the boundary to its time, any other kind changes neither. -/
theorem recordStep_lapTimes_some (config : Config) (e : Event) (comp : Competitor)
    (bt : Time) (h1 : e.Kind ≠ 1) (h4 : e.Kind ≠ 4) (h33 : e.Kind ≠ 33) :
    ∃ c, recordStep config e (some comp) (some bt) = some c ∧
      c.LapTimes =
        (if e.Kind = 10 then comp.LapTimes ++ [Time.Sub e.Time bt] else comp.LapTimes) ∧
      boundaryStep e (some comp) (some bt) = if e.Kind = 10 then some e.Time else some bt := by
  have hb : boundaryStep e (some comp) (some bt)
      = if e.Kind = 10 then some e.Time else some bt := by
    unfold boundaryStep
    by_cases h10 : e.Kind = 10 <;> simp [h4, h10]
  by_cases h10 : e.Kind = 10
  · refine ⟨lapCompleted config e (some bt) comp, by simp [recordStep, h10], ?_, hb⟩
    rw [lapCompleted_lapTimes, if_pos h10]
  · obtain ⟨c, hc, hP⟩ := recordStep_elim config e comp (some bt)
      (fun c => c.LapTimes = comp.LapTimes) h1 rfl
      (fun _ st _ => (lateCheck_fields config e _).2.2.2.1)
      (fun _ => (lateCheck_fields config e _).2.2.2.1)
      (fun k => absurd k h4)
      (fun _ => rfl) (fun _ => rfl) (fun _ => rfl) (fun _ => rfl) (fun _ => rfl)
      (fun k => absurd k h10)
      (fun _ => rfl) (fun _ => rfl)
      (fun k => absurd k h33)
    exact ⟨c, hc, by rw [if_neg h10]; exact hP, hb⟩

/-- Before the start (no lap boundary, no lap time) the events of the
competitor other than kinds 1 and 4 leave it so. -/
theorem localRun_before_start (config : Config) (id : Int) (events : List Event)
    (hev : ∀ e ∈ events, e.Competitor = id → e.Kind ≠ 1 ∧ e.Kind ≠ 4 ∧ e.Kind ≠ 33)
    (comp : Competitor) (hl : comp.LapTimes = []) :
    ∃ c, localRun config id events (some comp, none) = (some c, none) ∧ c.LapTimes = [] := by
  obtain ⟨c, b', hrun, hc, hb⟩ := localRun_invariant config id
    (fun c b => c.LapTimes = [] ∧ b = none)
    (fun e => e.Kind ≠ 1 ∧ e.Kind ≠ 4 ∧ e.Kind ≠ 33)
    (fun e comp b hok hI => by
      obtain ⟨hI1, hI2⟩ := hI
      subst hI2
      obtain ⟨c, hc, hlap, hbs⟩ := recordStep_lapTimes_none config e comp hok.1 hok.2.1 hok.2.2
      exact ⟨c, hc, hlap.trans hI1, hbs⟩)
    events hev comp none ⟨hl, rfl⟩
  subst hb
  exact ⟨c, hrun, hc⟩

/-- After the start, with lap boundary `b`, the events of the competitor other
than kinds 1, 4 and 33 append the successive differences of its kind-10 times
and move the boundary to the last of them. -/
theorem localRun_after_start (config : Config) (id : Int) (events : List Event)
    (hev : ∀ e ∈ events, e.Competitor = id → e.Kind ≠ 1 ∧ e.Kind ≠ 4 ∧ e.Kind ≠ 33)
    (comp : Competitor) (b : Time) :
    ∃ c, localRun config id events (some comp, some b)
        = (some c, some ((ownLapTimes id events).getLastD b)) ∧
      c.LapTimes = comp.LapTimes ++ lapDiffs b (ownLapTimes id events) := by
  induction events generalizing comp b with
  | nil => exact ⟨comp, rfl, by simp [ownLapTimes, lapDiffs]⟩
  | cons event rest ih =>
    have hrest : ∀ e ∈ rest, e.Competitor = id → e.Kind ≠ 1 ∧ e.Kind ≠ 4 ∧ e.Kind ≠ 33 :=
      fun e he => hev e (List.mem_cons_of_mem _ he)
    unfold localRun
    by_cases hid : event.Competitor = id
    · rw [if_pos hid]
      obtain ⟨hk1, hk4, hk33⟩ := hev event (List.mem_cons_self _ _) hid
      obtain ⟨c, hc, hlap, hbs⟩ := recordStep_lapTimes_some config event comp b hk1 hk4 hk33
      simp only [hc, hbs]
      by_cases h10 : event.Kind = 10
      · rw [if_pos h10] at hlap
        simp only [if_pos h10]
        obtain ⟨c', hc', hl'⟩ := ih hrest c event.Time
        have hown : ownLapTimes id (event :: rest) = event.Time :: ownLapTimes id rest := by
          simp [ownLapTimes, hid, h10]
        rw [hown]
        refine ⟨c', ?_, ?_⟩
        · rw [hc', List.getLastD_cons]
        · rw [hl', hlap]
          simp [lapDiffs]
      · rw [if_neg h10] at hlap
        simp only [if_neg h10]
        obtain ⟨c', hc', hl'⟩ := ih hrest c b
        have hown : ownLapTimes id (event :: rest) = ownLapTimes id rest := by
          simp [ownLapTimes, h10]
        rw [hown]
        exact ⟨c', hc', by rw [hl', hlap]⟩
    · rw [if_neg hid]
      obtain ⟨c', hc', hl'⟩ := ih hrest comp b
      have hown : ownLapTimes id (event :: rest) = ownLapTimes id rest := by
        simp [ownLapTimes, hid]
      rw [hown]
      exact ⟨c', hc', hl'⟩

/-! ### Rounding to binary64 never passes a binary64 number -/

theorem roundHalfEven_le (q : ℚ) (N : ℤ) (h : q ≤ N) : roundHalfEven q ≤ N := by
  have hfl : (⌊q⌋ : ℚ) ≤ q := Int.floor_le q
  have hfN : ⌊q⌋ ≤ N := by exact_mod_cast le_trans hfl h
  have hstep : (0 : ℚ) < q - ⌊q⌋ → ⌊q⌋ + 1 ≤ N := by
    intro hpos
    have hlt : (⌊q⌋ : ℚ) < N := by linarith
    have : ⌊q⌋ < N := by exact_mod_cast hlt
    omega
  unfold roundHalfEven
  split_ifs with h1 h2 h3
  · exact hfN
  · exact hstep (by linarith)
  · exact hfN
  · exact hstep (by linarith)

theorem le_roundHalfEven (q : ℚ) (N : ℤ) (h : (N : ℚ) ≤ q) : N ≤ roundHalfEven q := by
  have hfN : N ≤ ⌊q⌋ := Int.le_floor.mpr h
  unfold roundHalfEven
  split_ifs <;> omega

theorem float64Exponent_ge (x : ℚ) : -1022 ≤ float64Exponent x := le_max_right _ _

theorem float64Exponent_pow_le (x : ℚ) (hx : 0 < x) (hlog : float64Exponent x = Int.log 2 |x|) :
    (2 : ℚ) ^ float64Exponent x ≤ x := by
  rw [hlog, abs_of_pos hx]
  exact_mod_cast Int.zpow_log_le_self (by decide : 1 < 2) hx

/-- A multiple of the unit in the last place: `M / 2 ^ k` is an integer number
of `2 ^ (e - 52)` when `e + k <= 52`. -/
theorem dyadic_eq_mul_ulp (M k : ℕ) (e : ℤ) (hek : e + k ≤ 52) :
    ((M : ℚ) / 2 ^ k) = ((M * 2 ^ (52 - e - k).toNat : ℕ) : ℚ) * 2 ^ (e - 52) := by
  have hn : ((52 - e - k).toNat : ℤ) = 52 - e - k := Int.toNat_of_nonneg (by omega)
  have h2 : (2 : ℚ) ≠ 0 := by norm_num
  have hpow : ((2 : ℚ) ^ (52 - e - k).toNat) = (2 : ℚ) ^ (52 - e - (k : ℤ)) := by
    rw [← zpow_natCast, hn]
  push_cast
  rw [hpow, mul_assoc, ← zpow_add₀ h2]
  have : 52 - e - (k : ℤ) + (e - 52) = -(k : ℤ) := by ring
  rw [this, zpow_neg, zpow_natCast]
  rfl

theorem float64_zero : float64 0 = 0 := by simp [float64]

theorem float64_nonneg (x : ℚ) (hx : 0 ≤ x) : 0 ≤ float64 x := by
  unfold float64
  split_ifs
  · exact le_refl _
  · have hulp : (0 : ℚ) < 2 ^ (float64Exponent x - 52) := zpow_pos (by norm_num) _
    have h0 : (0 : ℤ) ≤ roundHalfEven (x / 2 ^ (float64Exponent x - 52)) :=
      le_roundHalfEven _ 0 (by simpa using div_nonneg hx hulp.le)
    have : (0 : ℚ) ≤ (roundHalfEven (x / 2 ^ (float64Exponent x - 52)) : ℚ) := by
      exact_mod_cast h0
    exact mul_nonneg this hulp.le

/-- Rounding does not pass a binary64 number above: if `x <= M / 2 ^ k` with
`M < 2 ^ 53` then `float64 x <= M / 2 ^ k`. -/
theorem float64_le (x : ℚ) (hx : 0 ≤ x) (M k : ℕ) (hM : M < 2 ^ 53) (hk : k ≤ 1074)
    (h : x ≤ (M : ℚ) / 2 ^ k) : float64 x ≤ (M : ℚ) / 2 ^ k := by
  by_cases hx0 : x = 0
  · rw [hx0, float64_zero]
    positivity
  have hxpos : 0 < x := lt_of_le_of_ne hx (Ne.symm hx0)
  have hulp : (0 : ℚ) < 2 ^ (float64Exponent x - 52) := zpow_pos (by norm_num) _
  have hek : float64Exponent x + k ≤ 52 := by
    rcases max_cases (Int.log 2 |x|) (-1022) with ⟨hmax, _⟩ | ⟨hmax, _⟩
    · have hle := float64Exponent_pow_le x hxpos hmax
      have hlt : (2 : ℚ) ^ float64Exponent x < 2 ^ ((53 : ℤ) - k) := by
        have hMq : (M : ℚ) < 2 ^ 53 := by exact_mod_cast hM
        have h2k : (0 : ℚ) < 2 ^ k := by positivity
        have hb : (M : ℚ) / 2 ^ k < 2 ^ ((53 : ℤ) - k) := by
          rw [zpow_sub₀ (by norm_num : (2 : ℚ) ≠ 0), zpow_natCast,
            show (53 : ℤ) = ((53 : ℕ) : ℤ) from rfl, zpow_natCast]
          exact div_lt_div_of_pos_right hMq h2k
        exact lt_of_le_of_lt (le_trans hle h) hb
      have := (zpow_lt_zpow_iff_right₀ (by norm_num : (1 : ℚ) < 2)).mp hlt
      omega
    · have : float64Exponent x = -1022 := hmax
      omega
  unfold float64
  rw [if_neg hx0, dyadic_eq_mul_ulp M k (float64Exponent x) hek]
  apply mul_le_mul_of_nonneg_right _ hulp.le
  have hq : x / 2 ^ (float64Exponent x - 52)
      ≤ ((M * 2 ^ (52 - float64Exponent x - k).toNat : ℕ) : ℤ) := by
    rw [div_le_iff₀ hulp]
    have := dyadic_eq_mul_ulp M k (float64Exponent x) hek
    push_cast at this ⊢
    rw [← this]
    exact h
  have := roundHalfEven_le _ _ hq
  exact_mod_cast this

/-- Rounding does not pass a binary64 number below: if `M / 2 ^ k <= x` with
`M < 2 ^ 53` then `M / 2 ^ k <= float64 x`. -/
theorem le_float64 (x : ℚ) (hx : 0 ≤ x) (M k : ℕ) (hM : M < 2 ^ 53) (hk : k ≤ 1074)
    (h : (M : ℚ) / 2 ^ k ≤ x) : (M : ℚ) / 2 ^ k ≤ float64 x := by
  by_cases hx0 : x = 0
  · rw [hx0, float64_zero]
    rw [hx0] at h
    exact h
  have hxpos : 0 < x := lt_of_le_of_ne hx (Ne.symm hx0)
  have hulp : (0 : ℚ) < 2 ^ (float64Exponent x - 52) := zpow_pos (by norm_num) _
  unfold float64
  rw [if_neg hx0]
  by_cases hek : float64Exponent x + k ≤ 52
  · rw [dyadic_eq_mul_ulp M k (float64Exponent x) hek]
    apply mul_le_mul_of_nonneg_right _ hulp.le
    have hq : (((M * 2 ^ (52 - float64Exponent x - k).toNat : ℕ) : ℤ) : ℚ)
        ≤ x / 2 ^ (float64Exponent x - 52) := by
      rw [le_div_iff₀ hulp]
      have := dyadic_eq_mul_ulp M k (float64Exponent x) hek
      push_cast at this ⊢
      rw [← this]
      exact h
    have := le_roundHalfEven _ _ hq
    exact_mod_cast this
  · have hlog : float64Exponent x = Int.log 2 |x| := by
      rcases max_cases (Int.log 2 |x|) (-1022) with ⟨hmax, _⟩ | ⟨hmax, _⟩
      · exact hmax
      · have : float64Exponent x = -1022 := hmax
        omega
    have hle := float64Exponent_pow_le x hxpos hlog
    have hbase : (2 : ℚ) ^ (52 : ℕ) * 2 ^ (float64Exponent x - 52) = 2 ^ float64Exponent x := by
      rw [← zpow_natCast, ← zpow_add₀ (by norm_num : (2 : ℚ) ≠ 0)]
      congr 1
      push_cast
      ring
    have hcast : (((2 : ℤ) ^ 52 : ℤ) : ℚ) = (2 : ℚ) ^ (52 : ℕ) := by norm_num
    have hm : (((2 : ℤ) ^ 52 : ℤ) : ℚ) ≤ x / 2 ^ (float64Exponent x - 52) := by
      rw [le_div_iff₀ hulp, hcast, hbase]
      exact hle
    have hr := le_roundHalfEven _ _ hm
    have hr' : ((2 : ℚ) ^ (52 : ℕ)) ≤ (roundHalfEven (x / 2 ^ (float64Exponent x - 52)) : ℚ) := by
      rw [← hcast]
      exact_mod_cast hr
    have hbig : (2 : ℚ) ^ float64Exponent x
        ≤ (roundHalfEven (x / 2 ^ (float64Exponent x - 52)) : ℚ)
          * 2 ^ (float64Exponent x - 52) := by
      rw [← hbase]
      exact mul_le_mul_of_nonneg_right hr' hulp.le
    have hsmall : (M : ℚ) / 2 ^ k ≤ 2 ^ float64Exponent x := by
      have hMq : (M : ℚ) ≤ 2 ^ 53 := by exact_mod_cast hM.le
      have h2k : (0 : ℚ) < 2 ^ k := by positivity
      have hb : (M : ℚ) / 2 ^ k ≤ 2 ^ ((53 : ℤ) - k) := by
        rw [zpow_sub₀ (by norm_num : (2 : ℚ) ≠ 0), zpow_natCast,
          show (53 : ℤ) = ((53 : ℕ) : ℤ) from rfl, zpow_natCast]
        exact div_le_div_of_nonneg_right hMq h2k.le
      refine le_trans hb ?_
      exact zpow_le_zpow_right₀ (by norm_num) (by omega)
    exact le_trans hsmall hbig

/-! ### `d.Seconds()` of a whole number of milliseconds -/

theorem float64_natCast (n : ℕ) (hn : n < 2 ^ 53) : float64 (n : ℚ) = n := by
  have hle := float64_le (n : ℚ) (by positivity) n 0 hn (by decide) (by simp)
  have hge := le_float64 (n : ℚ) (by positivity) n 0 hn (by decide) (by simp)
  simp only [pow_zero, div_one] at hle hge
  exact le_antisymm hle hge

/-- For `sec < 2 ^ 34` and a whole number of milliseconds `nsec` below one
second, `float64(sec) + float64(nsec)/1e9` lies in `[sec, sec + 1)`. -/
theorem seconds_bounds (sec nsec : ℕ) (hsec : sec < 2 ^ 34) (hnsec : nsec ≤ 999000000) :
    (sec : ℚ) ≤ float64 (float64 (sec : ℚ) + float64 (float64 (nsec : ℚ) / 1000000000)) ∧
      float64 (float64 (sec : ℚ) + float64 (float64 (nsec : ℚ) / 1000000000)) < sec + 1 := by
  have hs : float64 (sec : ℚ) = sec :=
    float64_natCast sec (lt_of_lt_of_le hsec (by norm_num))
  have hn : float64 (nsec : ℚ) = nsec :=
    float64_natCast nsec (lt_of_le_of_lt hnsec (by norm_num))
  rw [hs, hn]
  have hnq : (nsec : ℚ) ≤ 999000000 := by exact_mod_cast hnsec
  have hq0 : (0 : ℚ) ≤ (nsec : ℚ) / 1000000000 := by positivity
  have hq1 : (nsec : ℚ) / 1000000000 ≤ ((2047 : ℕ) : ℚ) / 2 ^ 11 := by
    rw [div_le_div_iff₀ (by norm_num) (by norm_num)]
    push_cast
    nlinarith
  have hf0 := float64_nonneg _ hq0
  have hf1 := float64_le _ hq0 2047 11 (by norm_num) (by norm_num) hq1
  set q := float64 ((nsec : ℚ) / 1000000000) with hq
  have hx0 : (0 : ℚ) ≤ (sec : ℚ) + q := by positivity
  have hlow : ((sec : ℕ) : ℚ) / 2 ^ 0 ≤ (sec : ℚ) + q := by
    simp only [pow_zero, div_one]
    linarith
  have hup : (sec : ℚ) + q ≤ ((2048 * sec + 2047 : ℕ) : ℚ) / 2 ^ 11 := by
    rw [le_div_iff₀ (by norm_num)]
    push_cast
    have : q * 2 ^ 11 ≤ 2047 := by
      have := (le_div_iff₀ (by norm_num : (0 : ℚ) < 2 ^ 11)).mp hf1
      push_cast at this
      exact this
    nlinarith
  have hM : 2048 * sec + 2047 < 2 ^ 53 := by
    have : sec < 17179869184 := by simpa using hsec
    omega
  have hge := le_float64 _ hx0 sec 0 (lt_of_lt_of_le hsec (by norm_num)) (by norm_num) hlow
  have hle := float64_le _ hx0 (2048 * sec + 2047) 11 hM (by norm_num) hup
  simp only [pow_zero, div_one] at hge
  refine ⟨hge, lt_of_le_of_lt hle ?_⟩
  rw [div_lt_iff₀ (by norm_num)]
  push_cast
  linarith

/-- For a non-negative `Duration` that is a whole number of milliseconds,
`int(d.Seconds())` is the whole seconds of `d`. -/
theorem truncToInt_seconds (d : Int) (h0 : 0 ≤ d) (hmax : d ≤ maxDuration)
    (hms : d % 1000000 = 0) : truncToInt (Duration.Seconds d) = d / 1000000000 := by
  have hS : (Second : Int) = 1000000000 := by decide
  have hsec0 : 0 ≤ d / 1000000000 := Int.ediv_nonneg h0 (by decide)
  have hnsec0 : 0 ≤ d % 1000000000 := Int.emod_nonneg _ (by decide)
  have hsec : (d / 1000000000).toNat < 2 ^ 34 := by
    unfold maxDuration at hmax
    omega
  have hnsec : (d % 1000000000).toNat ≤ 999000000 := by omega
  have hb := seconds_bounds (d / 1000000000).toNat (d % 1000000000).toNat hsec hnsec
  have c1 : (((d / 1000000000).toNat : ℕ) : ℚ) = ((d / 1000000000 : Int) : ℚ) := by
    have := Int.toNat_of_nonneg hsec0
    exact_mod_cast this
  have c2 : (((d % 1000000000).toNat : ℕ) : ℚ) = ((d % 1000000000 : Int) : ℚ) := by
    have := Int.toNat_of_nonneg hnsec0
    exact_mod_cast this
  rw [c1, c2] at hb
  unfold Duration.Seconds
  rw [hS, Int.tdiv_eq_ediv h0 (by decide), Int.tmod_eq_emod h0 (by decide)]
  obtain ⟨hlo, hhi⟩ := hb
  have hnn : (0 : ℚ) ≤ float64 (float64 ((d / 1000000000 : Int) : ℚ)
      + float64 (float64 ((d % 1000000000 : Int) : ℚ) / 1000000000)) := by
    have : (0 : ℚ) ≤ ((d / 1000000000 : Int) : ℚ) := by exact_mod_cast hsec0
    linarith
  unfold truncToInt
  rw [if_pos hnn]
  exact Int.floor_eq_iff.mpr ⟨hlo, hhi⟩

/-! ### The digits written by `formatDuration` and read by `time.Parse` -/

theorem fmtZeroPadded_natCast (width n : ℕ) :
    fmtZeroPadded width (n : ℤ) =
      List.replicate (width - (Nat.toDigits 10 n).length) '0' ++ Nat.toDigits 10 n := by
  unfold fmtZeroPadded
  rw [if_neg (by omega)]
  rfl

set_option maxRecDepth 100000 in
theorem pad_twoDigits : ∀ n < 100,
    List.replicate (2 - (Nat.toDigits 10 n).length) '0' ++ Nat.toDigits 10 n = twoDigits n := by
  decide

set_option maxRecDepth 1000000 in
theorem pad_threeDigits : ∀ n < 1000,
    List.replicate (3 - (Nat.toDigits 10 n).length) '0' ++ Nat.toDigits 10 n
      = threeDigits n := by
  decide

theorem isDigit_digitChar : ∀ n < 10, isDigit (Nat.digitChar n) = true := by decide

theorem digitVal_digitChar : ∀ n < 10, digitVal (Nat.digitChar n) = n := by decide

/-- On a non-negative `Duration` of whole milliseconds `formatDuration` writes
the text of the specification. -/
theorem formatDuration_eq_clockText (d : Int) (h0 : 0 ≤ d) (hmax : d ≤ maxDuration)
    (hms : d % 1000000 = 0) : formatDuration d = clockText d.toNat := by
  have hT := truncToInt_seconds d h0 hmax hms
  have hT0 : 0 ≤ d / 1000000000 := Int.ediv_nonneg h0 (by decide)
  have hh : (d / 1000000000).tdiv 3600 = ((d.toNat / Hour : ℕ) : ℤ) := by
    rw [Int.tdiv_eq_ediv hT0 (by decide)]
    simp only [Hour, Minute, Second, Millisecond, Microsecond, Nanosecond]
    omega
  have hm : ((d / 1000000000).tmod 3600).tdiv 60 = ((d.toNat / Minute % 60 : ℕ) : ℤ) := by
    rw [Int.tmod_eq_emod hT0 (by decide),
      Int.tdiv_eq_ediv (Int.emod_nonneg _ (by decide)) (by decide)]
    simp only [Minute, Second, Millisecond, Microsecond, Nanosecond]
    omega
  have hs : (d / 1000000000).tmod 60 = ((d.toNat / Second % 60 : ℕ) : ℤ) := by
    rw [Int.tmod_eq_emod hT0 (by decide)]
    simp only [Second, Millisecond, Microsecond, Nanosecond]
    omega
  have hml : (Duration.Milliseconds d).tmod 1000
      = ((d.toNat / Millisecond % 1000 : ℕ) : ℤ) := by
    unfold Duration.Milliseconds
    rw [Int.tdiv_eq_ediv h0 (by decide),
      Int.tmod_eq_emod (Int.ediv_nonneg h0 (by decide)) (by decide)]
    simp only [Millisecond, Microsecond, Nanosecond]
    omega
  unfold formatDuration clockText
  rw [hT, hh, hm, hs, hml, fmtZeroPadded_natCast, fmtZeroPadded_natCast, fmtZeroPadded_natCast,
    fmtZeroPadded_natCast,
    pad_twoDigits (d.toNat / Minute % 60) (lt_trans (Nat.mod_lt _ (by decide)) (by decide)),
    pad_twoDigits (d.toNat / Second % 60) (lt_trans (Nat.mod_lt _ (by decide)) (by decide)),
    pad_threeDigits (d.toNat / Millisecond % 1000) (Nat.mod_lt _ (by decide))]

theorem getnum_twoDigits (n : ℕ) (hn : n < 100) (rest : List Char) ( fixed : Bool) :
    getnum (twoDigits n ++ rest) fixed = some (n, rest) := by
  have ha := isDigit_digitChar (n / 10) (by omega)
  have hb := isDigit_digitChar (n % 10) (by omega)
  have va := digitVal_digitChar (n / 10) (by omega)
  have vb := digitVal_digitChar (n % 10) (by omega)
  simp only [twoDigits, List.cons_append, List.nil_append, getnum, ha, hb, va, vb]
  simp only [Bool.not_true, Bool.false_eq_true, if_false, Option.some.injEq, Prod.mk.injEq,
    and_true]
  omega

theorem atoi_threeDigits (n : ℕ) (hn : n < 1000) : atoi (threeDigits n) = some (n : ℤ) := by
  have ha := isDigit_digitChar (n / 100) (by omega)
  have hb := isDigit_digitChar (n / 10 % 10) (by omega)
  have hc := isDigit_digitChar (n % 10) (by omega)
  have va := digitVal_digitChar (n / 100) (by omega)
  have vb := digitVal_digitChar (n / 10 % 10) (by omega)
  have vc := digitVal_digitChar (n % 10) (by omega)
  have hmin : Nat.digitChar (n / 100) ≠ '-' := by
    intro h; rw [h] at ha; exact Bool.noConfusion ha
  have hplus : Nat.digitChar (n / 100) ≠ '+' := by
    intro h; rw [h] at ha; exact Bool.noConfusion ha
  have hint : leadingInt (threeDigits n) 0 = some (n, []) := by
    unfold threeDigits
    rw [leadingInt_digit _ _ _ ha (by omega), leadingInt_digit _ _ _ hb (by omega),
      leadingInt_digit _ _ _ hc (by omega), va, vb, vc, leadingInt]
    simp only [Option.some.injEq, Prod.mk.injEq, and_true]
    omega
  unfold atoi
  simp only [threeDigits, if_neg hmin, if_neg hplus] at hint ⊢
  rw [hint]
  simp

/-- The text of a time of day is read back by `time.Parse`. -/
theorem parse_clock_digits (h m s ms : ℕ) (hh : h < 24) (hm : m < 60) (hs : s < 60)
    (hms : ms < 1000) :
    time.Parse (twoDigits h ++ [':'] ++ twoDigits m ++ [':'] ++ twoDigits s ++ ['.']
        ++ threeDigits ms) = some (time.Date0 h m s (ms * 1000000)) := by
  have e1 : twoDigits h ++ [':'] ++ twoDigits m ++ [':'] ++ twoDigits s ++ ['.']
      ++ threeDigits ms
      = twoDigits h ++ (':' :: (twoDigits m ++ (':' :: (twoDigits s
          ++ ('.' :: threeDigits ms))))) := by
    simp
  have hat := atoi_threeDigits ms hms
  unfold threeDigits at hat
  rw [e1]
  unfold time.Parse
  rw [getnum_twoDigits h (by omega)]
  simp only [if_neg (not_le.mpr hh)]
  rw [getnum_twoDigits m (by omega)]
  simp only [ne_eq, not_true_eq_false, if_false, if_neg (not_le.mpr hm)]
  rw [getnum_twoDigits s (by omega)]
  simp only [if_neg (not_le.mpr hs), threeDigits, hat]
  simp

/-! ### `sort.Slice` leaves the slice in order -/

/-! #### `Swap` and rearrangements of a part of the slice -/

section
variable {α : Type} [Inhabited α]

theorem sort.length_Swap (data : List α) (i j : Nat) :
    (sort.Swap data i j).length = data.length := by
  simp [sort.Swap]

theorem sort.index_Swap_other (data : List α) (i j k : Nat) (hi : k ≠ i) (hj : k ≠ j) :
    sort.index (sort.Swap data i j) k = sort.index data k := by
  simp [sort.Swap, sort.index, List.getD_eq_getElem?_getD, List.getElem?_set, Ne.symm hi,
    Ne.symm hj]

theorem sort.index_Swap_left (data : List α) (i j : Nat) (hi : i < data.length)
    (hj : j < data.length) : sort.index (sort.Swap data i j) i = sort.index data j := by
  by_cases h : i = j
  · simp [sort.Swap, sort.index, List.getD_eq_getElem?_getD, List.getElem?_set, h, hj]
  · simp [sort.Swap, sort.index, List.getD_eq_getElem?_getD, List.getElem?_set, h, hi, hj,
      Ne.symm h]

theorem sort.index_Swap_right (data : List α) (i j : Nat) (hi : i < data.length)
    (hj : j < data.length) : sort.index (sort.Swap data i j) j = sort.index data i := by
  simp [sort.Swap, sort.index, List.getD_eq_getElem?_getD, List.getElem?_set, hi, hj]

theorem sort.index_Swap (data : List α) (i j k : Nat) (hi : i < data.length)
    (hj : j < data.length) :
    sort.index (sort.Swap data i j) k =
      if k = i then sort.index data j else if k = j then sort.index data i
      else sort.index data k := by
  by_cases h1 : k = i
  · subst h1
    rw [if_pos rfl]
    exact sort.index_Swap_left data k j hi hj
  · rw [if_neg h1]
    by_cases h2 : k = j
    · subst h2
      rw [if_pos rfl]
      exact sort.index_Swap_right data i k hi hj
    · rw [if_neg h2]
      exact sort.index_Swap_other data i j k h1 h2

theorem sort.permOn_refl (data : List α) (a b : Nat) : sort.PermOn data data a b :=
  ⟨rfl, Equiv.refl Nat, fun _ _ => rfl, fun _ => rfl⟩

theorem sort.permOn_trans {data1 data2 data3 : List α} {a b : Nat}
    (h12 : sort.PermOn data1 data2 a b) (h23 : sort.PermOn data2 data3 a b) :
    sort.PermOn data1 data3 a b := by
  obtain ⟨hl1, σ1, hf1, hv1⟩ := h12
  obtain ⟨hl2, σ2, hf2, hv2⟩ := h23
  refine ⟨hl2.trans hl1, σ2.trans σ1, ?_, ?_⟩
  · intro k hk
    simp only [Equiv.trans_apply]
    rw [hf2 k hk, hf1 k hk]
  · intro k
    simp only [Equiv.trans_apply]
    rw [hv2, hv1]

theorem sort.permOn_mono {data1 data2 : List α} {a b a' b' : Nat}
    (h : sort.PermOn data1 data2 a b) (ha : a' ≤ a) (hb : b ≤ b') :
    sort.PermOn data1 data2 a' b' := by
  obtain ⟨hl, σ, hf, hv⟩ := h
  refine ⟨hl, σ, ?_, hv⟩
  intro k hk
  exact hf k (by omega)

theorem sort.permOn_Swap (data : List α) (a b i j : Nat) (hai : a ≤ i) (hib : i < b)
    (haj : a ≤ j) (hjb : j < b) (hb : b ≤ data.length) :
    sort.PermOn data (sort.Swap data i j) a b := by
  refine ⟨sort.length_Swap data i j, Equiv.swap i j, ?_, ?_⟩
  · intro k hk
    exact Equiv.swap_apply_of_ne_of_ne (by omega) (by omega)
  · intro k
    rw [sort.index_Swap data i j k (by omega) (by omega)]
    by_cases h1 : k = i
    · subst h1
      rw [if_pos rfl, Equiv.swap_apply_left]
    · by_cases h2 : k = j
      · subst h2
        rw [if_neg h1, if_pos rfl, Equiv.swap_apply_right]
      · rw [if_neg h1, if_neg h2, Equiv.swap_apply_of_ne_of_ne h1 h2]

theorem sort.permOn_outside {data1 data2 : List α} {a b : Nat}
    (h : sort.PermOn data1 data2 a b) (k : Nat) (hk : k < a ∨ b ≤ k) :
    sort.index data2 k = sort.index data1 k := by
  obtain ⟨_, σ, hf, hv⟩ := h
  rw [hv, hf k hk]

theorem sort.permOn_inside {data1 data2 : List α} {a b : Nat}
    (h : sort.PermOn data1 data2 a b) (k : Nat) (hak : a ≤ k) (hkb : k < b) :
    ∃ m, a ≤ m ∧ m < b ∧ sort.index data2 k = sort.index data1 m := by
  obtain ⟨_, σ, hf, hv⟩ := h
  refine ⟨σ k, ?_, ?_, hv k⟩
  · by_contra hlt
    have := hf (σ k) (Or.inl (by omega))
    have := σ.injective this
    omega
  · by_contra hlt
    have := hf (σ k) (Or.inr (by omega))
    have := σ.injective this
    omega

theorem sort.permOn_inside_inv {data1 data2 : List α} {a b : Nat}
    (h : sort.PermOn data1 data2 a b) (m : Nat) (ham : a ≤ m) (hmb : m < b) :
    ∃ k, a ≤ k ∧ k < b ∧ sort.index data2 k = sort.index data1 m := by
  obtain ⟨_, σ, hf, hv⟩ := h
  refine ⟨σ.symm m, ?_, ?_, by rw [hv, Equiv.apply_symm_apply]⟩
  · by_contra hlt
    have := hf (σ.symm m) (Or.inl (by omega))
    rw [Equiv.apply_symm_apply] at this
    omega
  · by_contra hlt
    have := hf (σ.symm m) (Or.inr (by omega))
    rw [Equiv.apply_symm_apply] at this
    omega

theorem sort.permOn_length {data1 data2 : List α} {a b : Nat}
    (h : sort.PermOn data1 data2 a b) : data2.length = data1.length := h.1

end

/-! #### Strict weak orderings -/

section
variable {α : Type}

theorem sort.IsOrder.refl {less : α → α → Bool} (ho : sort.IsOrder less) (x : α) :
    less x x = false := by
  cases ho.1 x x <;> assumption

theorem sort.IsOrder.le_of_lt {less : α → α → Bool} (ho : sort.IsOrder less) {x y : α}
    (h : less x y = true) : less y x = false := by
  cases ho.1 x y with
  | inl h1 => exact h1
  | inr h1 => rw [h] at h1; cases h1

theorem sort.IsOrder.trans {less : α → α → Bool} (ho : sort.IsOrder less) {x y z : α}
    (h1 : less y x = false) (h2 : less z y = false) : less z x = false :=
  ho.2 x y z h1 h2

theorem sort.IsOrder.lt_of_lt_of_le {less : α → α → Bool} (ho : sort.IsOrder less) {x y z : α}
    (h1 : less x y = true) (h2 : less z y = false) : less x z = true := by
  cases h : less x z with
  | true => rfl
  | false =>
    have := ho.trans h2 h
    rw [h1] at this
    cases this

theorem sort.IsOrder.lt_of_le_of_lt {less : α → α → Bool} (ho : sort.IsOrder less) {x y z : α}
    (h1 : less y x = false) (h2 : less y z = true) : less x z = true := by
  cases h : less x z with
  | true => rfl
  | false =>
    have := ho.trans h h1
    rw [h2] at this
    cases this

end

/-! #### `insertionSort_func` -/

section
variable {α : Type} [Inhabited α]

theorem sort.sortedOn_mono {less : α → α → Bool} {data : List α} {a b a' b' : Nat}
    (h : sort.SortedOn less data a b) (ha : a ≤ a') (hb : b' ≤ b) :
    sort.SortedOn less data a' b' :=
  fun i j hi hij hj => h i j (by omega) hij (by omega)

theorem sort.insertionSort_inner_spec {less : α → α → Bool} (ho : sort.IsOrder less)
    (a i : Nat) :
    ∀ (j : Nat) (data : List α), a ≤ j → j ≤ i → i < data.length →
      (∀ p q, a ≤ p → p < q → q ≤ i → p ≠ j → q ≠ j →
        less (sort.index data q) (sort.index data p) = false) →
      (∀ q, j < q → q ≤ i → less (sort.index data q) (sort.index data j) = false) →
      sort.PermOn data (sort.insertionSort_inner less a j data) a (i + 1) ∧
        sort.SortedOn less (sort.insertionSort_inner less a j data) a (i + 1) := by
  intro j
  induction j with
  | zero =>
    intro data _ _ _ h1 h2
    refine ⟨sort.permOn_refl _ _ _, ?_⟩
    intro p q hp hpq hq
    show less (sort.index data q) (sort.index data p) = false
    by_cases hpq' : p = q
    · subst hpq'
      exact ho.refl _
    · by_cases hp0 : p = 0
      · subst hp0
        exact h2 q (by omega) (by omega)
      · exact h1 p q hp (by omega) (by omega) hp0 (by omega)
  | succ j ih =>
    intro data haj hji hlen h1 h2
    unfold sort.insertionSort_inner
    by_cases hc : a < j + 1 ∧ sort.Less less data (j + 1) j = true
    · rw [if_pos hc]
      have hlt : less (sort.index data (j + 1)) (sort.index data j) = true := hc.2
      have hsw : ∀ k, sort.index (sort.Swap data (j + 1) j) k =
          if k = j + 1 then sort.index data j else if k = j then sort.index data (j + 1)
          else sort.index data k :=
        fun k => sort.index_Swap data (j + 1) j k (by omega) (by omega)
      have hih := ih (sort.Swap data (j + 1) j) (by omega) (by omega)
        (by rw [sort.length_Swap]; exact hlen) ?_ ?_
      · exact ⟨sort.permOn_trans
          (sort.permOn_Swap data a (i + 1) (j + 1) j (by omega) (by omega) (by omega) (by omega)
            (by omega)) hih.1, hih.2⟩
      · intro p q hp hpq hq hpj hqj
        rw [hsw p, hsw q, if_neg hpj, if_neg hqj]
        by_cases hp1 : p = j + 1
        · rw [if_pos hp1, if_neg (show ¬q = j + 1 by omega)]
          exact h1 j q (by omega) (by omega) hq (by omega) (by omega)
        · rw [if_neg hp1]
          by_cases hq1 : q = j + 1
          · rw [if_pos hq1]
            exact h1 p j hp (by omega) (by omega) hp1 (by omega)
          · rw [if_neg hq1]
            exact h1 p q hp hpq hq hp1 hq1
      · intro q hjq hq
        rw [hsw q, hsw j, if_neg (show ¬j = j + 1 by omega), if_pos rfl]
        by_cases hq1 : q = j + 1
        · rw [if_pos hq1]
          exact ho.le_of_lt hlt
        · rw [if_neg hq1, if_neg (show ¬q = j by omega)]
          exact h2 q (by omega) hq
    · rw [if_neg hc]
      refine ⟨sort.permOn_refl _ _ _, ?_⟩
      intro p q hp hpq hq
      show less (sort.index data q) (sort.index data p) = false
      by_cases hpq' : p = q
      · subst hpq'
        exact ho.refl _
      · by_cases hp1 : p = j + 1
        · subst hp1
          exact h2 q (by omega) (by omega)
        · by_cases hq1 : q = j + 1
          · subst hq1
            have hle : less (sort.index data (j + 1)) (sort.index data j) = false := by
              cases hl : sort.Less less data (j + 1) j with
              | false => exact hl
              | true => exact absurd ⟨by omega, hl⟩ hc
            by_cases hpj : p = j
            · subst hpj
              exact hle
            · exact ho.trans (h1 p j hp (by omega) (by omega) hp1 (by omega)) hle
          · exact h1 p q hp (by omega) (by omega) hp1 hq1

theorem sort.insertionSort_outer_spec {less : α → α → Bool} (ho : sort.IsOrder less) (a : Nat) :
    ∀ (n i : Nat) (data : List α), a ≤ i → i + n ≤ data.length → 
      sort.SortedOn less data a i →
      sort.PermOn data (sort.insertionSort_outer less a n i data) a (i + n) ∧
        sort.SortedOn less (sort.insertionSort_outer less a n i data) a (i + n) := by
  intro n
  induction n with
  | zero =>
    intro i data _ _ hs
    exact ⟨sort.permOn_refl _ _ _, hs⟩
  | succ n ih =>
    intro i data hai hlen hs
    unfold sort.insertionSort_outer
    have hin := sort.insertionSort_inner_spec ho a i i data hai (le_refl i) (by omega)
      (fun p q hp hpq hq _ hqi => hs p q hp (by omega) (by omega))
      (fun q hq1 hq2 => by omega)
    have hl := hin.1.1
    have hrec := ih (i + 1) (sort.insertionSort_inner less a i data) (by omega)
      (by rw [hl]; omega) hin.2
    have e : i + 1 + n = i + (n + 1) := by omega
    rw [e] at hrec
    exact ⟨sort.permOn_trans (sort.permOn_mono hin.1 (le_refl a) (by omega)) hrec.1, hrec.2⟩

/-- `insertionSort_func(data, a, b)` rearranges `data[a:b]` into order. -/
theorem sort.insertionSort_func_spec {less : α → α → Bool} (ho : sort.IsOrder less)
    (data : List α) (a b : Nat) (hb : b ≤ data.length) :
    sort.PermOn data (sort.insertionSort_func less data a b) a b ∧
      sort.SortedOn less (sort.insertionSort_func less data a b) a b := by
  unfold sort.insertionSort_func
  by_cases hab : a + 1 ≤ b
  · have h := sort.insertionSort_outer_spec ho a (b - (a + 1)) (a + 1) data (by omega)
      (by omega) (fun i j hi hij hj => by
        have : i = j := by omega
        subst this
        exact ho.refl _)
    have e : a + 1 + (b - (a + 1)) = b := by omega
    rw [e] at h
    exact h
  · have e : b - (a + 1) = 0 := by omega
    rw [e]
    exact ⟨sort.permOn_refl _ _ _, fun i j hi hij hj => by omega⟩

end

/-! #### `partition_func` -/

section
variable {α : Type} [Inhabited α]

theorem sort.partition_up_spec (less : α → α → Bool) (data : List α) (a j : Nat) :
    ∀ (fuel i0 : Nat), j + 1 - i0 ≤ fuel →
      i0 ≤ sort.partition_up less data a j fuel i0 ∧
      (i0 ≤ j + 1 → sort.partition_up less data a j fuel i0 ≤ j + 1) ∧
      (∀ k, i0 ≤ k → k < sort.partition_up less data a j fuel i0 →
        less (sort.index data k) (sort.index data a) = true) ∧
      (sort.partition_up less data a j fuel i0 ≤ j →
        less (sort.index data (sort.partition_up less data a j fuel i0)) (sort.index data a)
          = false) := by
  intro fuel
  induction fuel with
  | zero =>
    intro i0 hf
    unfold sort.partition_up
    exact ⟨le_refl _, fun h => h, fun k h1 h2 => by omega, fun h => by omega⟩
  | succ fuel ih =>
    intro i0 hf
    unfold sort.partition_up
    by_cases hc : i0 ≤ j ∧ sort.Less less data i0 a = true
    · rw [if_pos hc]
      obtain ⟨h1, h2, h3, h4⟩ := ih (i0 + 1) (by omega)
      refine ⟨by omega, fun _ => h2 (by omega), ?_, h4⟩
      intro k hk1 hk2
      by_cases hk : k = i0
      · subst hk
        exact hc.2
      · exact h3 k (by omega) hk2
    · rw [if_neg hc]
      refine ⟨le_refl _, fun h => h, fun k h1 h2 => by omega, ?_⟩
      intro hle
      cases hl : sort.Less less data i0 a with
      | false => exact hl
      | true => exact absurd ⟨hle, hl⟩ hc

theorem sort.partition_down_spec (less : α → α → Bool) (data : List α) (a i : Nat)
    (hi : 1 ≤ i) :
    ∀ (j0 : Nat),
      sort.partition_down less data a i j0 ≤ j0 ∧
      (i ≤ j0 + 1 → i ≤ sort.partition_down less data a i j0 + 1) ∧
      (∀ k, sort.partition_down less data a i j0 < k → k ≤ j0 →
        less (sort.index data k) (sort.index data a) = false) ∧
      (i ≤ sort.partition_down less data a i j0 →
        less (sort.index data (sort.partition_down less data a i j0)) (sort.index data a)
          = true) := by
  intro j0
  induction j0 with
  | zero =>
    unfold sort.partition_down
    exact ⟨le_refl _, fun h => h, fun k h1 h2 => by omega, fun h => by omega⟩
  | succ j ih =>
    unfold sort.partition_down
    by_cases hc : i ≤ j + 1 ∧ sort.Less less data (j + 1) a = false
    · rw [if_pos hc]
      obtain ⟨h1, h2, h3, h4⟩ := ih
      refine ⟨by omega, fun _ => h2 (by omega), ?_, h4⟩
      intro k hk1 hk2
      by_cases hk : k = j + 1
      · subst hk
        exact hc.2
      · exact h3 k hk1 (by omega)
    · rw [if_neg hc]
      refine ⟨le_refl _, fun h => h, fun k h1 h2 => by omega, ?_⟩
      intro hle
      cases hl : sort.Less less data (j + 1) a with
      | true => exact hl
      | false => exact absurd ⟨hle, hl⟩ hc

theorem sort.partition_loop_spec (less : α → α → Bool) (a b : Nat) :
    ∀ (fuel i0 j0 : Nat) (data : List α), j0 + 1 - i0 ≤ fuel →
      a + 1 ≤ i0 → i0 ≤ j0 + 1 → j0 < b → b ≤ data.length →
      (∀ k, a + 1 ≤ k → k < i0 → less (sort.index data k) (sort.index data a) = true) →
      (∀ k, j0 < k → k < b → less (sort.index data k) (sort.index data a) = false) →
      sort.PermOn data (sort.partition_loop less a fuel i0 j0 data).1 (a + 1) b ∧
      a ≤ (sort.partition_loop less a fuel i0 j0 data).2 ∧
      (sort.partition_loop less a fuel i0 j0 data).2 < b ∧
      (∀ k, a + 1 ≤ k → k ≤ (sort.partition_loop less a fuel i0 j0 data).2 →
        less (sort.index (sort.partition_loop less a fuel i0 j0 data).1 k)
          (sort.index data a) = true) ∧
      (∀ k, (sort.partition_loop less a fuel i0 j0 data).2 < k → k < b →
        less (sort.index (sort.partition_loop less a fuel i0 j0 data).1 k)
          (sort.index data a) = false) := by
  intro fuel
  induction fuel with
  | zero =>
    intro i0 j0 data hf hi0 hij hjb hb hlo hhi
    unfold sort.partition_loop
    exact ⟨sort.permOn_refl _ _ _, by omega, hjb, fun k h1 h2 => hlo k h1 (by omega), hhi⟩
  | succ fuel ih =>
    intro i0 j0 data hf hi0 hij hjb hb hlo hhi
    unfold sort.partition_loop
    simp only []
    obtain ⟨u1, u2, u3, u4⟩ := sort.partition_up_spec less data a j0 (j0 + 1 - i0) i0 (le_refl _)
    generalize sort.partition_up less data a j0 (j0 + 1 - i0) i0 = i at u1 u2 u3 u4 ⊢
    obtain ⟨d1, d2, d3, d4⟩ := sort.partition_down_spec less data a i (by omega) j0
    generalize sort.partition_down less data a i j0 = j at d1 d2 d3 d4 ⊢
    have u2' := u2 hij
    have d2' := d2 u2'
    by_cases hji : j < i
    · rw [if_pos hji]
      refine ⟨sort.permOn_refl _ _ _, by omega, by omega, ?_, ?_⟩
      · intro k h1 h2
        by_cases hk : k < i0
        · exact hlo k h1 hk
        · exact u3 k (by omega) (by omega)
      · intro k h1 h2
        by_cases hk : k ≤ j0
        · exact d3 k h1 hk
        · exact hhi k (by omega) h2
    · rw [if_neg hji]
      have hli : less (sort.index data i) (sort.index data a) = false := u4 (by omega)
      have hlj : less (sort.index data j) (sort.index data a) = true := d4 (by omega)
      have hne : i ≠ j := by
        intro h
        rw [h, hlj] at hli
        cases hli
      have hsw : ∀ k, sort.index (sort.Swap data i j) k =
          if k = i then sort.index data j else if k = j then sort.index data i
          else sort.index data k :=
        fun k => sort.index_Swap data i j k (by omega) (by omega)
      have hsa : sort.index (sort.Swap data i j) a = sort.index data a := by
        rw [hsw a, if_neg (show ¬a = i by omega), if_neg (show ¬a = j by omega)]
      obtain ⟨r1, r2, r3, r4, r5⟩ := ih (i + 1) (j - 1) (sort.Swap data i j) (by omega)
        (by omega) (by omega) (by omega) (by rw [sort.length_Swap]; exact hb)
        (by
          intro k h1 h2
          rw [hsa, hsw k]
          by_cases hk : k = i
          · rw [if_pos hk]
            exact hlj
          · rw [if_neg hk, if_neg (show ¬k = j by omega)]
            by_cases hk0 : k < i0
            · exact hlo k h1 hk0
            · exact u3 k (by omega) (by omega))
        (by
          intro k h1 h2
          rw [hsa, hsw k, if_neg (show ¬k = i by omega)]
          by_cases hk : k = j
          · rw [if_pos hk]
            exact hli
          · rw [if_neg hk]
            by_cases hk0 : k ≤ j0
            · exact d3 k (by omega) hk0
            · exact hhi k (by omega) h2)
      rw [hsa] at r4 r5
      exact ⟨sort.permOn_trans
        (sort.permOn_Swap data (a + 1) b i j (by omega) (by omega) (by omega) (by omega) hb) r1,
        r2, r3, r4, r5⟩

theorem sort.partition_func_eq (less : α → α → Bool) (data : List α) (a b pivot : Nat) :
    (sort.partition_func less data a b pivot).1 =
        sort.Swap
          (sort.partition_loop less a (b - a + 1) (a + 1) (b - 1) (sort.Swap data a pivot)).1
          (sort.partition_loop less a (b - a + 1) (a + 1) (b - 1) (sort.Swap data a pivot)).2 a ∧
      (sort.partition_func less data a b pivot).2.1 =
        (sort.partition_loop less a (b - a + 1) (a + 1) (b - 1) (sort.Swap data a pivot)).2 := by
  unfold sort.partition_func
  rw [sort.partition_loop]
  simp only []
  split_ifs <;> exact ⟨rfl, rfl⟩

/-- `partition_func(data, a, b, pivot)` rearranges `data[a:b]` around the new
index `mid` of the pivot: the elements before it are less than the pivot and
those after it are not. -/
theorem sort.partition_func_spec (less : α → α → Bool)
    (data : List α) (a b pivot : Nat) (hap : a ≤ pivot) (hpb : pivot < b)
    (hb : b ≤ data.length) :
    sort.PermOn data (sort.partition_func less data a b pivot).1 a b ∧
      a ≤ (sort.partition_func less data a b pivot).2.1 ∧
      (sort.partition_func less data a b pivot).2.1 < b ∧
      (∀ k, a ≤ k → k < (sort.partition_func less data a b pivot).2.1 →
        less (sort.index (sort.partition_func less data a b pivot).1 k)
          (sort.index (sort.partition_func less data a b pivot).1
            (sort.partition_func less data a b pivot).2.1) = true) ∧
      (∀ k, (sort.partition_func less data a b pivot).2.1 < k → k < b →
        less (sort.index (sort.partition_func less data a b pivot).1 k)
          (sort.index (sort.partition_func less data a b pivot).1
            (sort.partition_func less data a b pivot).2.1) = false) := by
  obtain ⟨e1, e2⟩ := sort.partition_func_eq less data a b pivot
  rw [e1, e2]
  have hl1 : (sort.Swap data a pivot).length = data.length := sort.length_Swap _ _ _
  obtain ⟨r1, r2, r3, r4, r5⟩ := sort.partition_loop_spec less a b (b - a + 1) (a + 1) (b - 1)
    (sort.Swap data a pivot) (by omega) (le_refl _) (by omega) (by omega) (by omega)
    (fun k h1 h2 => by omega) (fun k h1 h2 => by omega)
  generalize sort.partition_loop less a (b - a + 1) (a + 1) (b - 1) (sort.Swap data a pivot)
    = r at r1 r2 r3 r4 r5 ⊢
  have hlr : r.1.length = data.length := r1.1.trans hl1
  have hra : sort.index r.1 a = sort.index (sort.Swap data a pivot) a :=
    sort.permOn_outside r1 a (Or.inl (by omega))
  have hsw : ∀ k, sort.index (sort.Swap r.1 r.2 a) k =
      if k = r.2 then sort.index r.1 a else if k = a then sort.index r.1 r.2
      else sort.index r.1 k :=
    fun k => sort.index_Swap r.1 r.2 a k (by omega) (by omega)
  refine ⟨?_, r2, r3, ?_, ?_⟩
  · exact sort.permOn_trans
      (sort.permOn_Swap data a b a pivot (le_refl _) (by omega) hap hpb hb)
      (sort.permOn_trans (sort.permOn_mono r1 (by omega) (le_refl _))
        (sort.permOn_Swap r.1 a b r.2 a r2 r3 (le_refl _) (by omega) (by omega)))
  · intro k h1 h2
    rw [hsw k, hsw r.2, if_pos rfl, if_neg (show ¬k = r.2 by omega), hra]
    by_cases hk : k = a
    · rw [if_pos hk]
      exact r4 r.2 (by omega) (le_refl _)
    · rw [if_neg hk]
      exact r4 k (by omega) (by omega)
  · intro k h1 h2
    rw [hsw k, hsw r.2, if_pos rfl, if_neg (show ¬k = r.2 by omega),
      if_neg (show ¬k = a by omega), hra]
    exact r5 k h1 h2

end

/-! #### `partitionEqual_func` -/

section
variable {α : Type} [Inhabited α]

theorem sort.partitionEqual_up_spec (less : α → α → Bool) (data : List α) (a j : Nat) :
    ∀ (fuel i0 : Nat), j + 1 - i0 ≤ fuel →
      i0 ≤ sort.partitionEqual_up less data a j fuel i0 ∧
      (i0 ≤ j + 1 → sort.partitionEqual_up less data a j fuel i0 ≤ j + 1) ∧
      (∀ k, i0 ≤ k → k < sort.partitionEqual_up less data a j fuel i0 →
        less (sort.index data a) (sort.index data k) = false) ∧
      (sort.partitionEqual_up less data a j fuel i0 ≤ j →
        less (sort.index data a) (sort.index data (sort.partitionEqual_up less data a j fuel i0))
          = true) := by
  intro fuel
  induction fuel with
  | zero =>
    intro i0 hf
    unfold sort.partitionEqual_up
    exact ⟨le_refl _, fun h => h, fun k h1 h2 => by omega, fun h => by omega⟩
  | succ fuel ih =>
    intro i0 hf
    unfold sort.partitionEqual_up
    by_cases hc : i0 ≤ j ∧ sort.Less less data a i0 = false
    · rw [if_pos hc]
      obtain ⟨h1, h2, h3, h4⟩ := ih (i0 + 1) (by omega)
      refine ⟨by omega, fun _ => h2 (by omega), ?_, h4⟩
      intro k hk1 hk2
      by_cases hk : k = i0
      · subst hk
        exact hc.2
      · exact h3 k (by omega) hk2
    · rw [if_neg hc]
      refine ⟨le_refl _, fun h => h, fun k h1 h2 => by omega, ?_⟩
      intro hle
      cases hl : sort.Less less data a i0 with
      | true => exact hl
      | false => exact absurd ⟨hle, hl⟩ hc

theorem sort.partitionEqual_down_spec (less : α → α → Bool) (data : List α) (a i : Nat)
    (hi : 1 ≤ i) :
    ∀ (j0 : Nat),
      sort.partitionEqual_down less data a i j0 ≤ j0 ∧
      (i ≤ j0 + 1 → i ≤ sort.partitionEqual_down less data a i j0 + 1) ∧
      (∀ k, sort.partitionEqual_down less data a i j0 < k → k ≤ j0 →
        less (sort.index data a) (sort.index data k) = true) ∧
      (i ≤ sort.partitionEqual_down less data a i j0 →
        less (sort.index data a) (sort.index data (sort.partitionEqual_down less data a i j0))
          = false) := by
  intro j0
  induction j0 with
  | zero =>
    unfold sort.partitionEqual_down
    exact ⟨le_refl _, fun h => h, fun k h1 h2 => by omega, fun h => by omega⟩
  | succ j ih =>
    unfold sort.partitionEqual_down
    by_cases hc : i ≤ j + 1 ∧ sort.Less less data a (j + 1) = true
    · rw [if_pos hc]
      obtain ⟨h1, h2, h3, h4⟩ := ih
      refine ⟨by omega, fun _ => h2 (by omega), ?_, h4⟩
      intro k hk1 hk2
      by_cases hk : k = j + 1
      · subst hk
        exact hc.2
      · exact h3 k hk1 (by omega)
    · rw [if_neg hc]
      refine ⟨le_refl _, fun h => h, fun k h1 h2 => by omega, ?_⟩
      intro hle
      cases hl : sort.Less less data a (j + 1) with
      | false => exact hl
      | true => exact absurd ⟨hle, hl⟩ hc

theorem sort.partitionEqual_loop_spec (less : α → α → Bool) (a b : Nat) :
    ∀ (fuel i0 j0 : Nat) (data : List α), j0 + 1 - i0 ≤ fuel →
      a + 1 ≤ i0 → i0 ≤ j0 + 1 → j0 < b → b ≤ data.length →
      (∀ k, a + 1 ≤ k → k < i0 → less (sort.index data a) (sort.index data k) = false) →
      (∀ k, j0 < k → k < b → less (sort.index data a) (sort.index data k) = true) →
      sort.PermOn data (sort.partitionEqual_loop less a fuel i0 j0 data).1 (a + 1) b ∧
      a + 1 ≤ (sort.partitionEqual_loop less a fuel i0 j0 data).2 ∧
      (sort.partitionEqual_loop less a fuel i0 j0 data).2 ≤ b ∧
      (∀ k, a + 1 ≤ k → k < (sort.partitionEqual_loop less a fuel i0 j0 data).2 →
        less (sort.index data a)
          (sort.index (sort.partitionEqual_loop less a fuel i0 j0 data).1 k) = false) ∧
      (∀ k, (sort.partitionEqual_loop less a fuel i0 j0 data).2 ≤ k → k < b →
        less (sort.index data a)
          (sort.index (sort.partitionEqual_loop less a fuel i0 j0 data).1 k) = true) := by
  intro fuel
  induction fuel with
  | zero =>
    intro i0 j0 data hf hi0 hij hjb hb hlo hhi
    unfold sort.partitionEqual_loop
    exact ⟨sort.permOn_refl _ _ _, hi0, by omega, hlo, fun k h1 h2 => hhi k (by omega) h2⟩
  | succ fuel ih =>
    intro i0 j0 data hf hi0 hij hjb hb hlo hhi
    unfold sort.partitionEqual_loop
    simp only []
    obtain ⟨u1, u2, u3, u4⟩ :=
      sort.partitionEqual_up_spec less data a j0 (j0 + 1 - i0) i0 (le_refl _)
    generalize sort.partitionEqual_up less data a j0 (j0 + 1 - i0) i0 = i at u1 u2 u3 u4 ⊢
    obtain ⟨d1, d2, d3, d4⟩ := sort.partitionEqual_down_spec less data a i (by omega) j0
    generalize sort.partitionEqual_down less data a i j0 = j at d1 d2 d3 d4 ⊢
    have u2' := u2 hij
    have d2' := d2 u2'
    by_cases hji : j < i
    · rw [if_pos hji]
      refine ⟨sort.permOn_refl _ _ _, by omega, by omega, ?_, ?_⟩
      · intro k h1 h2
        by_cases hk : k < i0
        · exact hlo k h1 hk
        · exact u3 k (by omega) (by omega)
      · intro k h1 h2
        by_cases hk : k ≤ j0
        · exact d3 k (by omega) hk
        · exact hhi k (by omega) h2
    · rw [if_neg hji]
      have hli : less (sort.index data a) (sort.index data i) = true := u4 (by omega)
      have hlj : less (sort.index data a) (sort.index data j) = false := d4 (by omega)
      have hne : i ≠ j := by
        intro h
        rw [h, hlj] at hli
        cases hli
      have hsw : ∀ k, sort.index (sort.Swap data i j) k =
          if k = i then sort.index data j else if k = j then sort.index data i
          else sort.index data k :=
        fun k => sort.index_Swap data i j k (by omega) (by omega)
      have hsa : sort.index (sort.Swap data i j) a = sort.index data a := by
        rw [hsw a, if_neg (show ¬a = i by omega), if_neg (show ¬a = j by omega)]
      obtain ⟨r1, r2, r3, r4, r5⟩ := ih (i + 1) (j - 1) (sort.Swap data i j) (by omega)
        (by omega) (by omega) (by omega) (by rw [sort.length_Swap]; exact hb)
        (by
          intro k h1 h2
          rw [hsa, hsw k]
          by_cases hk : k = i
          · rw [if_pos hk]
            exact hlj
          · rw [if_neg hk, if_neg (show ¬k = j by omega)]
            by_cases hk0 : k < i0
            · exact hlo k h1 hk0
            · exact u3 k (by omega) (by omega))
        (by
          intro k h1 h2
          rw [hsa, hsw k, if_neg (show ¬k = i by omega)]
          by_cases hk : k = j
          · rw [if_pos hk]
            exact hli
          · rw [if_neg hk]
            by_cases hk0 : k ≤ j0
            · exact d3 k (by omega) hk0
            · exact hhi k (by omega) h2)
      rw [hsa] at r4 r5
      exact ⟨sort.permOn_trans
        (sort.permOn_Swap data (a + 1) b i j (by omega) (by omega) (by omega) (by omega) hb) r1,
        r2, r3, r4, r5⟩

/-- `partitionEqual_func(data, a, b, pivot)` rearranges `data[a:b]`: up to the
index `mid` it returns no element is greater than the pivot, which stands at
`a`, and from `mid` on every element is greater. -/
theorem sort.partitionEqual_func_spec {less : α → α → Bool} (ho : sort.IsOrder less)
    (data : List α) (a b pivot : Nat) (hap : a ≤ pivot) (hpb : pivot < b)
    (hb : b ≤ data.length) :
    sort.PermOn data (sort.partitionEqual_func less data a b pivot).1 a b ∧
      a + 1 ≤ (sort.partitionEqual_func less data a b pivot).2 ∧
      (sort.partitionEqual_func less data a b pivot).2 ≤ b ∧
      sort.index (sort.partitionEqual_func less data a b pivot).1 a = sort.index data pivot ∧
      (∀ k, a ≤ k → k < (sort.partitionEqual_func less data a b pivot).2 →
        less (sort.index data pivot)
          (sort.index (sort.partitionEqual_func less data a b pivot).1 k) = false) ∧
      (∀ k, (sort.partitionEqual_func less data a b pivot).2 ≤ k → k < b →
        less (sort.index data pivot)
          (sort.index (sort.partitionEqual_func less data a b pivot).1 k) = true) := by
  unfold sort.partitionEqual_func
  have hl1 : (sort.Swap data a pivot).length = data.length := sort.length_Swap _ _ _
  have hsa : sort.index (sort.Swap data a pivot) a = sort.index data pivot :=
    sort.index_Swap_left data a pivot (by omega) (by omega)
  obtain ⟨r1, r2, r3, r4, r5⟩ := sort.partitionEqual_loop_spec less a b (b - a) (a + 1) (b - 1)
    (sort.Swap data a pivot) (by omega) (le_refl _) (by omega) (by omega) (by omega)
    (fun k h1 h2 => by omega) (fun k h1 h2 => by omega)
  generalize sort.partitionEqual_loop less a (b - a) (a + 1) (b - 1) (sort.Swap data a pivot)
    = r at r1 r2 r3 r4 r5 ⊢
  have hra : sort.index r.1 a = sort.index (sort.Swap data a pivot) a :=
    sort.permOn_outside r1 a (Or.inl (by omega))
  rw [hsa] at r4 r5 hra
  refine ⟨?_, r2, r3, hra, ?_, r5⟩
  · exact sort.permOn_trans
      (sort.permOn_Swap data a b a pivot (le_refl _) (by omega) hap hpb hb)
      (sort.permOn_mono r1 (by omega) (le_refl _))
  · intro k h1 h2
    by_cases hk : k = a
    · rw [hk, hra]
      exact ho.refl _
    · exact r4 k (by omega) h2

end

/-! #### `reverseRange_func`, `breakPatterns_func` and `choosePivot_func` -/

section
variable {α : Type} [Inhabited α]

theorem sort.reverseRange_loop_spec (a b : Nat) :
    ∀ (fuel i j : Nat) (data : List α), a ≤ i → j < b → b ≤ data.length →
      sort.PermOn data (sort.reverseRange_loop fuel i j data) a b := by
  intro fuel
  induction fuel with
  | zero =>
    intro i j data _ _ _
    exact sort.permOn_refl _ _ _
  | succ fuel ih =>
    intro i j data hi hj hb
    unfold sort.reverseRange_loop
    by_cases hij : i < j
    · rw [if_pos hij]
      exact sort.permOn_trans
        (sort.permOn_Swap data a b i j hi (by omega) (by omega) hj hb)
        (ih (i + 1) (j - 1) (sort.Swap data i j) (by omega) (by omega)
          (by rw [sort.length_Swap]; exact hb))
    · rw [if_neg hij]
      exact sort.permOn_refl _ _ _

/-- `reverseRange_func(data, a, b)` rearranges `data[a:b]`. -/
theorem sort.reverseRange_func_spec (data : List α) (a b : Nat) (hab : a < b)
    (hb : b ≤ data.length) : sort.PermOn data (sort.reverseRange_func data a b) a b :=
  sort.reverseRange_loop_spec a b (b - a) a (b - 1) data (le_refl _) (by omega) hb

theorem sort.nextPowerOfTwo_le (length : Nat) (h : 0 < length) :
    sort.nextPowerOfTwo length ≤ 2 * length := by
  unfold sort.nextPowerOfTwo bits.Len
  rw [if_neg (by omega), Nat.one_shiftLeft, pow_succ]
  have := Nat.log2_self_le (show length ≠ 0 by omega)
  omega

theorem sort.breakPatterns_loop_spec (next : Nat → Nat) (a b length modulus idx : Nat) (hlen : 0 < length)
    (hab : a + length ≤ b) (hmod : modulus ≤ 2 * length)
    (hidx : ∀ t, t < 3 → a ≤ idx - 1 + t ∧ idx - 1 + t < b) :
    ∀ (n i random : Nat) (data : List α), i + n ≤ 3 → b ≤ data.length →
      sort.PermOn data (sort.breakPatterns_loop next a length modulus idx n i random data) a b := by
  intro n
  induction n with
  | zero =>
    intro i random data _ _
    exact sort.permOn_refl _ _ _
  | succ n ih =>
    intro i random data hin hb
    unfold sort.breakPatterns_loop
    simp only []
    have hand : next random &&& (modulus - 1) ≤ modulus - 1 := Nat.and_le_right
    generalize next random &&& (modulus - 1) = other0 at hand ⊢
    have hother : (if length ≤ other0 then other0 - length else other0) < length := by
      split_ifs <;> omega
    generalize (if length ≤ other0 then other0 - length else other0) = other at hother ⊢
    obtain ⟨h1, h2⟩ := hidx i (by omega)
    exact sort.permOn_trans
      (sort.permOn_Swap data a b (idx - 1 + i) (a + other) h1 h2 (by omega) (by omega) hb)
      (ih (i + 1) _ _ (by omega) (by rw [sort.length_Swap]; exact hb))

/-- `breakPatterns_func(data, a, b)` rearranges `data[a:b]`. -/
theorem sort.breakPatterns_func_spec (next : Nat → Nat) (data : List α) (a b : Nat)
    (hb : b ≤ data.length) : sort.PermOn data (sort.breakPatterns_func next data a b) a b := by
  unfold sort.breakPatterns_func
  simp only []
  by_cases h8 : 8 ≤ b - a
  · rw [if_pos h8]
    refine sort.breakPatterns_loop_spec next a b (b - a) _ _ (by omega) (by omega)
      (sort.nextPowerOfTwo_le _ (by omega)) ?_ 3 0 (b - a) data (by omega) hb
    intro t ht
    have := Nat.div_mul_le_self (b - a) 4
    have h2 : 2 ≤ (b - a) / 4 := by omega
    constructor <;> omega
  · rw [if_neg h8]
    exact sort.permOn_refl _ _ _

theorem sort.order2_func_mem (less : α → α → Bool) (data : List α) (a b swaps : Nat) :
    ((sort.order2_func less data a b swaps).1 = a ∧
        (sort.order2_func less data a b swaps).2.1 = b) ∨
      ((sort.order2_func less data a b swaps).1 = b ∧
        (sort.order2_func less data a b swaps).2.1 = a) := by
  unfold sort.order2_func
  split_ifs
  · exact Or.inr ⟨rfl, rfl⟩
  · exact Or.inl ⟨rfl, rfl⟩

theorem sort.median_func_mem (less : α → α → Bool) (data : List α) (a b c swaps : Nat) :
    (sort.median_func less data a b c swaps).1 = a ∨
      (sort.median_func less data a b c swaps).1 = b ∨
      (sort.median_func less data a b c swaps).1 = c := by
  unfold sort.median_func
  simp only []
  have h1 := sort.order2_func_mem less data a b swaps
  generalize sort.order2_func less data a b swaps = r1 at h1 ⊢
  have h2 := sort.order2_func_mem less data r1.2.1 c r1.2.2
  generalize sort.order2_func less data r1.2.1 c r1.2.2 = r2 at h2 ⊢
  have h3 := sort.order2_func_mem less data r1.1 r2.1 r2.2.2
  generalize sort.order2_func less data r1.1 r2.1 r2.2.2 = r3 at h3 ⊢
  omega

theorem sort.medianAdjacent_func_mem (less : α → α → Bool) (data : List α) (a swaps : Nat) :
    (sort.medianAdjacent_func less data a swaps).1 = a - 1 ∨
      (sort.medianAdjacent_func less data a swaps).1 = a ∨
      (sort.medianAdjacent_func less data a swaps).1 = a + 1 :=
  sort.median_func_mem less data (a - 1) a (a + 1) swaps

/-- The pivot that `choosePivot_func(data, a, b)` chooses is an index of
`data[a:b]`. -/
theorem sort.choosePivot_func_spec (less : α → α → Bool) (data : List α) (a b : Nat)
    (hab : a < b) :
    a ≤ (sort.choosePivot_func less data a b).1 ∧ (sort.choosePivot_func less data a b).1 < b := by
  have hq := Nat.div_mul_le_self (b - a) 4
  have key : ∀ r : Nat × Nat, (a ≤ r.1 ∧ r.1 < b) →
      a ≤ (if r.2 = 0 then (r.1, sort.sortedHint.increasingHint)
        else if r.2 = 4 * 3 then (r.1, sort.sortedHint.decreasingHint)
        else (r.1, sort.sortedHint.unknownHint)).1 ∧
      (if r.2 = 0 then (r.1, sort.sortedHint.increasingHint)
        else if r.2 = 4 * 3 then (r.1, sort.sortedHint.decreasingHint)
        else (r.1, sort.sortedHint.unknownHint)).1 < b := by
    intro r hr
    split_ifs <;> exact hr
  unfold sort.choosePivot_func
  simp only []
  apply key
  by_cases h8 : 8 ≤ b - a
  · rw [if_pos h8]
    by_cases h50 : 50 ≤ b - a
    · rw [if_pos h50]
      have hi := sort.medianAdjacent_func_mem less data (a + (b - a) / 4 * 1) 0
      generalize sort.medianAdjacent_func less data (a + (b - a) / 4 * 1) 0 = ri at hi ⊢
      have hj := sort.medianAdjacent_func_mem less data (a + (b - a) / 4 * 2) ri.2
      generalize sort.medianAdjacent_func less data (a + (b - a) / 4 * 2) ri.2 = rj at hj ⊢
      have hk := sort.medianAdjacent_func_mem less data (a + (b - a) / 4 * 3) rj.2
      generalize sort.medianAdjacent_func less data (a + (b - a) / 4 * 3) rj.2 = rk at hk ⊢
      have hm := sort.median_func_mem less data ri.1 rj.1 rk.1 rk.2
      generalize sort.median_func less data ri.1 rj.1 rk.1 rk.2 = rm at hm ⊢
      have h12 : 12 ≤ (b - a) / 4 := by omega
      constructor <;> omega
    · rw [if_neg h50]
      have hm := sort.median_func_mem less data (a + (b - a) / 4 * 1) (a + (b - a) / 4 * 2)
        (a + (b - a) / 4 * 3) 0
      generalize sort.median_func less data (a + (b - a) / 4 * 1) (a + (b - a) / 4 * 2)
        (a + (b - a) / 4 * 3) 0 = rm at hm ⊢
      constructor <;> omega
  · rw [if_neg h8]
    constructor <;> simp only [] <;> omega

end

/-! #### `partialInsertionSort_func` -/

section
variable {α : Type} [Inhabited α]

theorem sort.lowerBound_permOn {less : α → α → Bool} {data1 data2 : List α} {a b : Nat}
    (h : sort.LowerBound less data1 a b) (hp : sort.PermOn data1 data2 a b) :
    sort.LowerBound less data2 a b := by
  rcases h with h | h
  · exact Or.inl h
  · by_cases ha : a = 0
    · exact Or.inl ha
    · refine Or.inr ?_
      intro k h1 h2
      obtain ⟨m, hm1, hm2, hm3⟩ := sort.permOn_inside hp k h1 h2
      rw [hm3, sort.permOn_outside hp (a - 1) (Or.inl (by omega))]
      exact h m hm1 hm2

theorem sort.lowerBound_mono {less : α → α → Bool} {data : List α} {a b b' : Nat}
    (h : sort.LowerBound less data a b) (hb : b' ≤ b) : sort.LowerBound less data a b' := by
  rcases h with h | h
  · exact Or.inl h
  · exact Or.inr fun k h1 h2 => h k h1 (by omega)

theorem sort.sortedOn_of_adjacent {less : α → α → Bool} (ho : sort.IsOrder less)
    (data : List α) (a b : Nat)
    (h : ∀ k, a < k → k < b → less (sort.index data k) (sort.index data (k - 1)) = false) :
    sort.SortedOn less data a b := by
  intro i j hi hij hj
  obtain ⟨d, rfl⟩ : ∃ d, j = i + d := ⟨j - i, by omega⟩
  induction d with
  | zero => exact ho.refl _
  | succ d ih =>
    have h1 := ih (by omega) (by omega)
    have h2 := h (i + (d + 1)) (by omega) hj
    have e : i + (d + 1) - 1 = i + d := by omega
    rw [e] at h2
    exact ho.trans h1 h2

theorem sort.partialInsertionSort_scan_spec (less : α → α → Bool) (data : List α) (b : Nat) :
    ∀ (fuel i0 : Nat), b - i0 ≤ fuel →
      i0 ≤ sort.partialInsertionSort_scan less data b fuel i0 ∧
      (i0 ≤ b → sort.partialInsertionSort_scan less data b fuel i0 ≤ b) ∧
      (∀ k, i0 ≤ k → k < sort.partialInsertionSort_scan less data b fuel i0 →
        less (sort.index data k) (sort.index data (k - 1)) = false) ∧
      (sort.partialInsertionSort_scan less data b fuel i0 < b →
        less (sort.index data (sort.partialInsertionSort_scan less data b fuel i0))
          (sort.index data (sort.partialInsertionSort_scan less data b fuel i0 - 1)) = true) := by
  intro fuel
  induction fuel with
  | zero =>
    intro i0 hf
    unfold sort.partialInsertionSort_scan
    exact ⟨le_refl _, fun h => h, fun k h1 h2 => by omega, fun h => by omega⟩
  | succ fuel ih =>
    intro i0 hf
    unfold sort.partialInsertionSort_scan
    by_cases hc : i0 < b ∧ sort.Less less data i0 (i0 - 1) = false
    · rw [if_pos hc]
      obtain ⟨h1, h2, h3, h4⟩ := ih (i0 + 1) (by omega)
      refine ⟨by omega, fun _ => h2 (by omega), ?_, h4⟩
      intro k hk1 hk2
      by_cases hk : k = i0
      · subst hk
        exact hc.2
      · exact h3 k (by omega) hk2
    · rw [if_neg hc]
      refine ⟨le_refl _, fun h => h, fun k h1 h2 => by omega, ?_⟩
      intro hlt
      cases hl : sort.Less less data i0 (i0 - 1) with
      | true => exact hl
      | false => exact absurd ⟨hlt, hl⟩ hc

theorem sort.partialInsertionSort_left_eq (less : α → α → Bool) (a b : Nat) :
    ∀ (j : Nat) (data : List α), a ≤ j → j < b → b ≤ data.length →
      sort.LowerBound less data a b →
      sort.partialInsertionSort_left less j data = sort.insertionSort_inner less a j data := by
  intro j
  induction j with
  | zero =>
    intro data _ _ _ _
    rfl
  | succ j ih =>
    intro data haj hjb hb hlow
    unfold sort.partialInsertionSort_left sort.insertionSort_inner
    by_cases hl : sort.Less less data (j + 1) j = true
    · by_cases ha : a < j + 1
      · rw [if_neg (by rw [hl]; exact Bool.noConfusion), if_pos ⟨ha, hl⟩]
        exact ih (sort.Swap data (j + 1) j) (by omega) (by omega)
          (by rw [sort.length_Swap]; exact hb)
          (sort.lowerBound_permOn hlow
            (sort.permOn_Swap data a b (j + 1) j (by omega) hjb (by omega) (by omega) hb))
      · exfalso
        have haj' : a = j + 1 := by omega
        rcases hlow with h0 | hall
        · omega
        · have := hall (j + 1) (by omega) hjb
          rw [haj'] at this
          have e : j + 1 - 1 = j := by omega
          rw [e] at this
          have hl' : less (sort.index data (j + 1)) (sort.index data j) = true := hl
          rw [hl'] at this
          cases this
    · have hl' : sort.Less less data (j + 1) j = false := by
        cases h : sort.Less less data (j + 1) j with
        | false => rfl
        | true => exact absurd h hl
      rw [if_pos hl', if_neg (fun h => hl h.2)]

theorem sort.partialInsertionSort_right_spec (less : α → α → Bool) (i b : Nat) :
    ∀ (fuel j : Nat) (data : List α), i + 1 ≤ j → b ≤ data.length →
      sort.PermOn data (sort.partialInsertionSort_right less b fuel j data) i b := by
  intro fuel
  induction fuel with
  | zero =>
    intro j data _ _
    exact sort.permOn_refl _ _ _
  | succ fuel ih =>
    intro j data hj hb
    unfold sort.partialInsertionSort_right
    by_cases hjb : j < b
    · rw [if_pos hjb]
      by_cases hl : sort.Less less data j (j - 1) = false
      · rw [if_pos hl]
        exact sort.permOn_refl _ _ _
      · rw [if_neg hl]
        exact sort.permOn_trans
          (sort.permOn_Swap data i b j (j - 1) (by omega) hjb (by omega) (by omega) hb)
          (ih (j + 1) (sort.Swap data j (j - 1)) (by omega)
            (by rw [sort.length_Swap]; exact hb))
    · rw [if_neg hjb]
      exact sort.permOn_refl _ _ _

theorem sort.sortedOn_permOn_above {less : α → α → Bool} {data1 data2 : List α} {a i b : Nat}
    (hs : sort.SortedOn less data1 a i) (hp : sort.PermOn data1 data2 i b) :
    sort.SortedOn less data2 a i := by
  intro p q hp1 hpq hq
  rw [sort.permOn_outside hp p (Or.inl (by omega)), sort.permOn_outside hp q (Or.inl (by omega))]
  exact hs p q hp1 hpq hq

theorem sort.partialInsertionSort_loop_spec {less : α → α → Bool} (ho : sort.IsOrder less)
    (a b : Nat) :
    ∀ (steps i0 : Nat) (data : List α), a + 1 ≤ i0 → i0 ≤ b → b ≤ data.length →
      sort.LowerBound less data a b → sort.SortedOn less data a i0 →
      sort.PermOn data (sort.partialInsertionSort_loop less a b steps i0 data).1 a b ∧
        ((sort.partialInsertionSort_loop less a b steps i0 data).2 = true →
          sort.SortedOn less (sort.partialInsertionSort_loop less a b steps i0 data).1 a b) := by
  intro steps
  induction steps with
  | zero =>
    intro i0 data _ _ _ _ _
    unfold sort.partialInsertionSort_loop
    exact ⟨sort.permOn_refl _ _ _, fun h => Bool.noConfusion h⟩
  | succ steps ih =>
    intro i0 data hi0 hi0b hb hlow hs
    unfold sort.partialInsertionSort_loop
    simp only []
    obtain ⟨s1, s2, s3, s4⟩ := sort.partialInsertionSort_scan_spec less data b (b - i0) i0
      (le_refl _)
    generalize sort.partialInsertionSort_scan less data b (b - i0) i0 = i at s1 s2 s3 s4 ⊢
    have s2' := s2 hi0b
    have hsi : sort.SortedOn less data a i := by
      apply sort.sortedOn_of_adjacent ho
      intro k h1 h2
      by_cases hk : k < i0
      · exact hs (k - 1) k (by omega) (by omega) hk
      · exact s3 k (by omega) h2
    by_cases hib : i = b
    · rw [if_pos hib]
      refine ⟨sort.permOn_refl _ _ _, fun _ => ?_⟩
      rw [← hib]
      exact hsi
    · rw [if_neg hib]
      by_cases hshort : b - a < 50
      · rw [if_pos hshort]
        exact ⟨sort.permOn_refl _ _ _, fun h => Bool.noConfusion h⟩
      · rw [if_neg hshort]
        have hilt : i < b := by omega
        have hp1 : sort.PermOn data (sort.Swap data i (i - 1)) a b :=
          sort.permOn_Swap data a b i (i - 1) (by omega) hilt (by omega) (by omega) hb
        have hl1 : (sort.Swap data i (i - 1)).length = data.length := sort.length_Swap _ _ _
        have hlow1 := sort.lowerBound_permOn hlow hp1
        have hsw : ∀ k, sort.index (sort.Swap data i (i - 1)) k =
            if k = i then sort.index data (i - 1) else if k = i - 1 then sort.index data i
            else sort.index data k :=
          fun k => sort.index_Swap data i (i - 1) k (by omega) (by omega)
        -- the prefix after the shift to the left
        have hleft : sort.PermOn (sort.Swap data i (i - 1))
              (if 2 ≤ i - a then sort.partialInsertionSort_left less (i - 1)
                (sort.Swap data i (i - 1)) else sort.Swap data i (i - 1)) a b ∧
            sort.SortedOn less
              (if 2 ≤ i - a then sort.partialInsertionSort_left less (i - 1)
                (sort.Swap data i (i - 1)) else sort.Swap data i (i - 1)) a i := by
          by_cases h2 : 2 ≤ i - a
          · rw [if_pos h2, sort.partialInsertionSort_left_eq less a b (i - 1) _ (by omega)
              (by omega) (by omega) hlow1]
            have hin := sort.insertionSort_inner_spec ho a (i - 1) (i - 1)
              (sort.Swap data i (i - 1)) (by omega) (le_refl _) (by omega)
              (by
                intro p q hp hpq hq hpj hqj
                rw [hsw p, hsw q, if_neg (show ¬p = i by omega), if_neg hpj,
                  if_neg (show ¬q = i by omega), if_neg hqj]
                exact hsi p q hp (by omega) (by omega))
              (fun q h1 h2 => by omega)
            have e : i - 1 + 1 = i := by omega
            rw [e] at hin
            exact ⟨sort.permOn_mono hin.1 (le_refl _) (by omega), hin.2⟩
          · rw [if_neg h2]
            refine ⟨sort.permOn_refl _ _ _, ?_⟩
            intro p q hp hpq hq
            have hpq' : p = q := by omega
            subst hpq'
            exact ho.refl _
        generalize (if 2 ≤ i - a then sort.partialInsertionSort_left less (i - 1)
          (sort.Swap data i (i - 1)) else sort.Swap data i (i - 1)) = data2 at hleft ⊢
        obtain ⟨hp2, hs2⟩ := hleft
        have hl2 : data2.length = data.length := hp2.1.trans hl1
        have hright : sort.PermOn data2
            (if 2 ≤ b - i then sort.partialInsertionSort_right less b (b - (i + 1)) (i + 1) data2
              else data2) i b := by
          by_cases h2 : 2 ≤ b - i
          · rw [if_pos h2]
            exact sort.partialInsertionSort_right_spec less i b _ _ _ (le_refl _) (by omega)
          · rw [if_neg h2]
            exact sort.permOn_refl _ _ _
        generalize (if 2 ≤ b - i then
          sort.partialInsertionSort_right less b (b - (i + 1)) (i + 1) data2 else data2)
          = data3 at hright ⊢
        have hp3 : sort.PermOn data data3 a b :=
          sort.permOn_trans hp1 (sort.permOn_trans hp2
            (sort.permOn_mono hright (by omega) (le_refl _)))
        obtain ⟨r1, r2⟩ := ih i data3 (by omega) (by omega) (by rw [hp3.1]; exact hb)
          (sort.lowerBound_permOn hlow hp3) (sort.sortedOn_permOn_above hs2 hright)
        exact ⟨sort.permOn_trans hp3 r1, r2⟩

/-- `partialInsertionSort_func(data, a, b)` rearranges `data[a:b]`, and into
order when it returns true. -/
theorem sort.partialInsertionSort_func_spec {less : α → α → Bool} (ho : sort.IsOrder less)
    (data : List α) (a b : Nat) (hab : a < b) (hb : b ≤ data.length)
    (hlow : sort.LowerBound less data a b) :
    sort.PermOn data (sort.partialInsertionSort_func less data a b).1 a b ∧
      ((sort.partialInsertionSort_func less data a b).2 = true →
        sort.SortedOn less (sort.partialInsertionSort_func less data a b).1 a b) := by
  unfold sort.partialInsertionSort_func
  refine sort.partialInsertionSort_loop_spec ho a b 5 (a + 1) data (le_refl _) (by omega) hb
    hlow ?_
  intro p q hp hpq hq
  have hpq' : p = q := by omega
  subst hpq'
  exact ho.refl _

end

/-! #### `heapSort_func` -/

section
variable {α : Type} [Inhabited α]

theorem sort.siftDown_loop_spec {less : α → α → Bool} (ho : sort.IsOrder less)
    (lo hi first : Nat) :
    ∀ (fuel root : Nat) (data : List α), hi - root ≤ fuel → lo ≤ root →
      first + hi ≤ data.length →
      (∀ r c, lo ≤ r → r ≠ root → (c = 2 * r + 1 ∨ c = 2 * r + 2) → c < hi →
        less (sort.index data (first + r)) (sort.index data (first + c)) = false) →
      (∀ p c, lo ≤ p → (root = 2 * p + 1 ∨ root = 2 * p + 2) →
        (c = 2 * root + 1 ∨ c = 2 * root + 2) → c < hi →
        less (sort.index data (first + p)) (sort.index data (first + c)) = false) →
      sort.PermOn data (sort.siftDown_loop less hi first fuel root data) (first + lo)
          (first + hi) ∧
        sort.HeapFrom less (sort.siftDown_loop less hi first fuel root data) first lo hi := by
  intro fuel
  induction fuel with
  | zero =>
    intro root data hf hlo hlen h1 h2
    unfold sort.siftDown_loop
    refine ⟨sort.permOn_refl _ _ _, ?_⟩
    intro r c hr hc hch
    by_cases hrr : r = root
    · omega
    · exact h1 r c hr hrr hc hch
  | succ fuel ih =>
    intro root data hf hlo hlen h1 h2
    unfold sort.siftDown_loop
    by_cases hnc : hi ≤ 2 * root + 1
    · rw [if_pos hnc]
      refine ⟨sort.permOn_refl _ _ _, ?_⟩
      intro r c hr hc hch
      by_cases hrr : r = root
      · omega
      · exact h1 r c hr hrr hc hch
    · rw [if_neg hnc]
      simp only []
      have hchild : ∃ child, child =
            (if 2 * root + 1 + 1 < hi ∧
                sort.Less less data (first + (2 * root + 1)) (first + (2 * root + 1) + 1) = true
              then 2 * root + 1 + 1 else 2 * root + 1) ∧
          (child = 2 * root + 1 ∨ child = 2 * root + 2) ∧ child < hi ∧
          ∀ c, (c = 2 * root + 1 ∨ c = 2 * root + 2) → c < hi →
            less (sort.index data (first + child)) (sort.index data (first + c)) = false := by
        by_cases hc2 : 2 * root + 1 + 1 < hi ∧
            sort.Less less data (first + (2 * root + 1)) (first + (2 * root + 1) + 1) = true
        · refine ⟨2 * root + 1 + 1, by rw [if_pos hc2], Or.inr rfl, hc2.1, ?_⟩
          intro c hc hch
          rcases hc with hc | hc
          · subst hc
            have hl : less (sort.index data (first + (2 * root + 1)))
                (sort.index data (first + (2 * root + 1) + 1)) = true := hc2.2
            have := ho.le_of_lt hl
            have e : first + (2 * root + 1) + 1 = first + (2 * root + 1 + 1) := by omega
            rw [e] at this
            exact this
          · subst hc
            exact ho.refl _
        · refine ⟨2 * root + 1, by rw [if_neg hc2], Or.inl rfl, by omega, ?_⟩
          intro c hc hch
          rcases hc with hc | hc
          · subst hc
            exact ho.refl _
          · subst hc
            cases hl : sort.Less less data (first + (2 * root + 1)) (first + (2 * root + 1) + 1) with
            | true => exact absurd ⟨by omega, hl⟩ hc2
            | false =>
              have e : first + (2 * root + 1) + 1 = first + (2 * root + 2) := by omega
              have hl' : less (sort.index data (first + (2 * root + 1)))
                  (sort.index data (first + (2 * root + 1) + 1)) = false := hl
              rw [e] at hl'
              exact hl'
      obtain ⟨child, hce, hc12, hclt, hcmax⟩ := hchild
      rw [← hce]
      by_cases hstop : sort.Less less data (first + root) (first + child) = false
      · rw [if_pos hstop]
        refine ⟨sort.permOn_refl _ _ _, ?_⟩
        intro r c hr hc hch
        by_cases hrr : r = root
        · subst hrr
          exact ho.trans (hcmax c hc hch) hstop
        · exact h1 r c hr hrr hc hch
      · rw [if_neg hstop]
        have hlt : less (sort.index data (first + root)) (sort.index data (first + child))
            = true := by
          cases hl : sort.Less less data (first + root) (first + child) with
          | true => exact hl
          | false => exact absurd hl hstop
        have hsw : ∀ k, sort.index (sort.Swap data (first + root) (first + child)) (first + k) =
            if k = root then sort.index data (first + child)
            else if k = child then sort.index data (first + root)
            else sort.index data (first + k) := by
          intro k
          rw [sort.index_Swap data (first + root) (first + child) (first + k) (by omega)
            (by omega)]
          by_cases hk1 : k = root
          · rw [if_pos (by omega), if_pos hk1]
          · rw [if_neg (by omega), if_neg hk1]
            by_cases hk2 : k = child
            · rw [if_pos (by omega), if_pos hk2]
            · rw [if_neg (by omega), if_neg hk2]
        obtain ⟨r1, r2⟩ := ih child (sort.Swap data (first + root) (first + child)) (by omega)
          (by omega) (by rw [sort.length_Swap]; exact hlen)
          (by
            intro r c hr hrc hc hch
            rw [hsw r, hsw c]
            by_cases hrr : r = root
            · subst hrr
              rw [if_pos rfl, if_neg (show ¬c = r by omega)]
              by_cases hcc : c = child
              · rw [if_pos hcc]
                exact ho.le_of_lt hlt
              · rw [if_neg hcc]
                exact hcmax c hc hch
            · rw [if_neg hrr, if_neg hrc, if_neg (show ¬c = child by omega)]
              by_cases hcr : c = root
              · rw [if_pos hcr]
                exact h2 r child hr (by omega) hc12 hclt
              · rw [if_neg hcr]
                exact h1 r c hr hrr hc hch)
          (by
            intro p c hp hpc hc hch
            have hpr : p = root := by omega
            subst hpr
            rw [hsw p, hsw c, if_pos rfl, if_neg (show ¬c = p by omega),
              if_neg (show ¬c = child by omega)]
            exact h1 child c (by omega) (by omega) hc hch)
        exact ⟨sort.permOn_trans
          (sort.permOn_Swap data (first + lo) (first + hi) (first + root) (first + child)
            (by omega) (by omega) (by omega) (by omega) hlen) r1, r2⟩

/-- `siftDown_func(data, lo, hi, first)` puts the node `lo` in heap order,
when the nodes after it are. -/
theorem sort.siftDown_func_spec {less : α → α → Bool} (ho : sort.IsOrder less)
    (data : List α) (lo hi first : Nat) (hlen : first + hi ≤ data.length)
    (h : sort.HeapFrom less data first (lo + 1) hi) :
    sort.PermOn data (sort.siftDown_func less data lo hi first) (first + lo) (first + hi) ∧
      sort.HeapFrom less (sort.siftDown_func less data lo hi first) first lo hi := by
  unfold sort.siftDown_func
  exact sort.siftDown_loop_spec ho lo hi first hi lo data (by omega) (le_refl _) hlen
    (fun r c hr hrr hc hch => h r c (by omega) hc hch)
    (fun p c hp hpc hc hch => by omega)

theorem sort.heapSort_build_spec {less : α → α → Bool} (ho : sort.IsOrder less)
    (hi first : Nat) :
    ∀ (i : Nat) (data : List α), first + hi ≤ data.length →
      sort.HeapFrom less data first (i + 1) hi →
      sort.PermOn data (sort.heapSort_build less hi first i data) first (first + hi) ∧
        sort.HeapFrom less (sort.heapSort_build less hi first i data) first 0 hi := by
  intro i
  induction i with
  | zero =>
    intro data hlen h
    unfold sort.heapSort_build
    have := sort.siftDown_func_spec ho data 0 hi first hlen h
    exact ⟨sort.permOn_mono this.1 (by omega) (le_refl _), this.2⟩
  | succ i ih =>
    intro data hlen h
    unfold sort.heapSort_build
    obtain ⟨s1, s2⟩ := sort.siftDown_func_spec ho data (i + 1) hi first hlen h
    obtain ⟨r1, r2⟩ := ih (sort.siftDown_func less data (i + 1) hi first)
      (by rw [s1.1]; exact hlen) s2
    exact ⟨sort.permOn_trans (sort.permOn_mono s1 (by omega) (le_refl _)) r1, r2⟩

theorem sort.heapFrom_root_max {less : α → α → Bool} (ho : sort.IsOrder less)
    (data : List α) (first n : Nat) (h : sort.HeapFrom less data first 0 n) :
    ∀ k, k < n → less (sort.index data (first + 0)) (sort.index data (first + k)) = false := by
  intro k
  induction k using Nat.strong_induction_on with
  | _ k ih =>
    intro hk
    by_cases hk0 : k = 0
    · subst hk0
      exact ho.refl _
    · have h1 := h ((k - 1) / 2) k (by omega) (by omega) hk
      have h2 := ih ((k - 1) / 2) (by omega) (by omega)
      exact ho.trans h1 h2

theorem sort.heapSort_pop_spec {less : α → α → Bool} (ho : sort.IsOrder less)
    (hi first : Nat) :
    ∀ (i : Nat) (data : List α), i ≤ hi → first + hi ≤ data.length →
      sort.HeapFrom less data first 0 i →
      sort.SortedOn less data (first + i) (first + hi) →
      (∀ k m, k < i → i ≤ m → m < hi →
        less (sort.index data (first + m)) (sort.index data (first + k)) = false) →
      sort.PermOn data (sort.heapSort_pop less first i data) first (first + hi) ∧
        sort.SortedOn less (sort.heapSort_pop less first i data) first (first + hi) := by
  intro i
  induction i with
  | zero =>
    intro data _ _ _ hs _
    unfold sort.heapSort_pop
    exact ⟨sort.permOn_refl _ _ _, by simpa using hs⟩
  | succ i ih =>
    intro data hi1 hlen hheap hs hle
    unfold sort.heapSort_pop
    have hmax : ∀ k, k < i + 1 →
        less (sort.index data first) (sort.index data (first + k)) = false := by
      simpa using sort.heapFrom_root_max ho data first (i + 1) hheap
    have hsw : ∀ k, sort.index (sort.Swap data first (first + i)) (first + k) =
        if k = 0 then sort.index data (first + i)
        else if k = i then sort.index data first
        else sort.index data (first + k) := by
      intro k
      rw [sort.index_Swap data first (first + i) (first + k) (by omega) (by omega)]
      by_cases hk1 : k = 0
      · rw [if_pos (by omega), if_pos hk1]
      · rw [if_neg (by omega), if_neg hk1]
        by_cases hk2 : k = i
        · rw [if_pos (by omega), if_pos hk2]
        · rw [if_neg (by omega), if_neg hk2]
    have hp1 : sort.PermOn data (sort.Swap data first (first + i)) first (first + hi) :=
      sort.permOn_Swap data first (first + hi) first (first + i) (le_refl _) (by omega)
        (by omega) (by omega) hlen
    have hl1 : (sort.Swap data first (first + i)).length = data.length := sort.length_Swap _ _ _
    -- the heap of `i` nodes after the swap, away from its root
    have hheap1 : sort.HeapFrom less (sort.Swap data first (first + i)) first (0 + 1) i := by
      intro r c hr hc hch
      rw [hsw r, hsw c, if_neg (show ¬r = 0 by omega), if_neg (show ¬r = i by omega),
        if_neg (show ¬c = 0 by omega), if_neg (show ¬c = i by omega)]
      exact hheap r c (by omega) hc (by omega)
    obtain ⟨s1, s2⟩ := sort.siftDown_func_spec ho (sort.Swap data first (first + i)) 0 i first
      (by rw [hl1]; omega) hheap1
    have hs1' : sort.PermOn (sort.Swap data first (first + i))
        (sort.siftDown_func less (sort.Swap data first (first + i)) 0 i first) first
        (first + i) := by
      simpa using s1
    generalize sort.siftDown_func less (sort.Swap data first (first + i)) 0 i first = data2
      at s2 hs1' ⊢
    -- every element of the heap of `i` nodes after the swap is an element of the old heap
    have hold : ∀ k, k < i → ∃ k', k' < i + 1 ∧
        sort.index data2 (first + k) = sort.index data (first + k') := by
      intro k hk
      obtain ⟨m, hm1, hm2, hm3⟩ := sort.permOn_inside hs1' (first + k) (by omega) (by omega)
      obtain ⟨m', rfl⟩ : ∃ m', m = first + m' := ⟨m - first, by omega⟩
      rw [hm3, hsw m']
      by_cases hm0 : m' = 0
      · exact ⟨i, by omega, by rw [if_pos hm0]⟩
      · exact ⟨m', by omega, by
          rw [if_neg hm0, if_neg (show ¬m' = i by omega)]⟩
    -- the old root is now at node `i`, the nodes after it are as they were
    have htail : ∀ m, i ≤ m → m < hi →
        sort.index data2 (first + m) =
        if m = i then sort.index data first else sort.index data (first + m) := by
      intro m hm1 hm2
      rw [sort.permOn_outside hs1' (first + m) (Or.inr (by omega)), hsw m]
      by_cases hmi : m = i
      · subst hmi
        by_cases hm0 : m = 0
        · subst hm0
          simp
        · simp [hm0]
      · simp [hmi, show ¬m = 0 by omega]
    obtain ⟨r1, r2⟩ := ih data2 (by omega) (by rw [hs1'.1, hl1]; exact hlen) s2
      (by
        intro p q hp hpq hq
        obtain ⟨p', rfl⟩ : ∃ p', p = first + p' := ⟨p - first, by omega⟩
        obtain ⟨q', rfl⟩ : ∃ q', q = first + q' := ⟨q - first, by omega⟩
        rw [htail p' (by omega) (by omega), htail q' (by omega) (by omega)]
        by_cases hpi : p' = i
        · rw [if_pos hpi]
          by_cases hqi : q' = i
          · rw [if_pos hqi]
            exact ho.refl _
          · rw [if_neg hqi]
            have := hle 0 q' (by omega) (by omega) (by omega)
            simpa using this
        · rw [if_neg hpi, if_neg (show ¬q' = i by omega)]
          exact hs (first + p') (first + q') (by omega) (by omega) (by omega))
      (by
        intro k m hk hm1 hm2
        obtain ⟨k', hk1, hk2⟩ := hold k hk
        rw [hk2, htail m hm1 hm2]
        by_cases hmi : m = i
        · rw [if_pos hmi]
          exact hmax k' hk1
        · rw [if_neg hmi]
          exact hle k' m hk1 (by omega) hm2)
    exact ⟨sort.permOn_trans hp1
      (sort.permOn_trans (sort.permOn_mono hs1' (le_refl _) (by omega)) r1), r2⟩

/-- `heapSort_func(data, a, b)` rearranges `data[a:b]` into order. -/
theorem sort.heapSort_func_spec {less : α → α → Bool} (ho : sort.IsOrder less)
    (data : List α) (a b : Nat) (hab : a ≤ b) (hb : b ≤ data.length) :
    sort.PermOn data (sort.heapSort_func less data a b) a b ∧
      sort.SortedOn less (sort.heapSort_func less data a b) a b := by
  unfold sort.heapSort_func
  obtain ⟨b1, b2⟩ := sort.heapSort_build_spec ho (b - a) a ((b - a - 1) / 2) data (by omega)
    (fun r c hr hc hch => by omega)
  obtain ⟨p1, p2⟩ := sort.heapSort_pop_spec ho (b - a) a (b - a)
    (sort.heapSort_build less (b - a) a ((b - a - 1) / 2) data) (le_refl _)
    (by rw [b1.1]; omega) b2 (fun i j hi hij hj => by omega)
    (fun k m hk hm1 hm2 => by omega)
  have e : a + (b - a) = b := by omega
  rw [e] at b1 p1 p2
  exact ⟨sort.permOn_trans b1 p1, p2⟩

end

/-! #### `pdqsort_func` -/

section
variable {α : Type} [Inhabited α]

theorem sort.sortedOn_of_split {less : α → α → Bool} (ho : sort.IsOrder less) (data : List α)
    (a mid b : Nat) (h1 : sort.SortedOn less data a mid)
    (h2 : sort.SortedOn less data (mid + 1) b)
    (h3 : ∀ k, a ≤ k → k < mid → less (sort.index data mid) (sort.index data k) = false)
    (h4 : ∀ k, mid < k → k < b → less (sort.index data k) (sort.index data mid) = false) :
    sort.SortedOn less data a b := by
  intro i j hi hij hj
  by_cases hjm : j < mid
  · exact h1 i j hi hij hjm
  · by_cases him : mid < i
    · exact h2 i j (by omega) hij hj
    · by_cases hjm' : j = mid
      · subst hjm'
        by_cases him' : i = j
        · subst him'
          exact ho.refl _
        · exact h3 i hi (by omega)
      · by_cases him' : i = mid
        · subst him'
          exact h4 j (by omega) hj
        · exact ho.trans (h3 i hi (by omega)) (h4 j (by omega) hj)

theorem sort.sortedOn_of_concat {less : α → α → Bool} (data : List α)
    (a mid b : Nat) (h1 : sort.SortedOn less data a mid)
    (h2 : sort.SortedOn less data mid b)
    (h3 : ∀ k m, a ≤ k → k < mid → mid ≤ m → m < b →
      less (sort.index data m) (sort.index data k) = false) :
    sort.SortedOn less data a b := by
  intro i j hi hij hj
  by_cases hjm : j < mid
  · exact h1 i j hi hij hjm
  · by_cases him : mid ≤ i
    · exact h2 i j him hij hj
    · exact h3 i j hi (by omega) (by omega) hj

theorem sort.sortedOn_permOn_below {less : α → α → Bool} {data1 data2 : List α} {a i b : Nat}
    (hs : sort.SortedOn less data1 i b) (hp : sort.PermOn data1 data2 a i) :
    sort.SortedOn less data2 i b := by
  intro p q hp1 hpq hq
  rw [sort.permOn_outside hp p (Or.inr (by omega)), sort.permOn_outside hp q (Or.inr (by omega))]
  exact hs p q hp1 hpq hq

/-- What one turn of the loop of `pdqsort_func` leaves. -/
theorem sort.pdqsort_turn_spec (next : Nat → Nat) {less : α → α → Bool}
    (ho : sort.IsOrder less) (data : List α) (a b limit : Nat) (wasBalanced wasPartitioned : Bool)
    (hab : a ≤ b) (hb : b ≤ data.length) (hlow : sort.LowerBound less data a b) :
    (∀ d, sort.pdqsort_turn next less data a b limit wasBalanced wasPartitioned
        = sort.pdqsortTurn.done d →
      sort.PermOn data d a b ∧ sort.SortedOn less d a b) ∧
    (∀ d mid, sort.pdqsort_turn next less data a b limit wasBalanced wasPartitioned
        = sort.pdqsortTurn.equal d mid →
      sort.PermOn data d a b ∧ a + 1 ≤ mid ∧ mid ≤ b ∧ sort.SortedOn less d a mid ∧
        (∀ k m, a ≤ k → k < mid → mid ≤ m → m < b →
          less (sort.index d m) (sort.index d k) = false)) ∧
    (∀ d mid alreadyPartitioned,
      sort.pdqsort_turn next less data a b limit wasBalanced wasPartitioned
        = sort.pdqsortTurn.split d mid alreadyPartitioned →
      sort.PermOn data d a b ∧ a ≤ mid ∧ mid < b ∧
        (∀ k, a ≤ k → k < mid → less (sort.index d k) (sort.index d mid) = true) ∧
        (∀ k, mid < k → k < b → less (sort.index d k) (sort.index d mid) = false)) := by
  unfold sort.pdqsort_turn
  by_cases h12 : b - a ≤ 12
  · rw [if_pos h12]
    refine ⟨fun d h => ?_, (fun d mid h => by cases h), (fun d mid alr h => by cases h)⟩
    cases h
    exact sort.insertionSort_func_spec ho data a b hb
  rw [if_neg h12]
  by_cases hlim : limit = 0
  · rw [if_pos hlim]
    refine ⟨fun d h => ?_, (fun d mid h => by cases h), (fun d mid alr h => by cases h)⟩
    cases h
    exact sort.heapSort_func_spec ho data a b hab hb
  rw [if_neg hlim]
  simp only []
  -- breakPatterns
  have hp1 : sort.PermOn data
      (if wasBalanced = false then sort.breakPatterns_func next data a b else data) a b := by
    split_ifs
    · exact sort.breakPatterns_func_spec next data a b hb
    · exact sort.permOn_refl _ _ _
  generalize (if wasBalanced = false then sort.breakPatterns_func next data a b else data) = data1
    at hp1 ⊢
  have hb1 : b ≤ data1.length := by rw [hp1.1]; exact hb
  -- choosePivot
  obtain ⟨hc1, hc2⟩ := sort.choosePivot_func_spec less data1 a b (by omega)
  generalize sort.choosePivot_func less data1 a b = c at hc1 hc2 ⊢
  have hp2 : sort.PermOn data1
      (if c.2 = sort.sortedHint.decreasingHint then sort.reverseRange_func data1 a b
        else data1) a b := by
    split_ifs
    · exact sort.reverseRange_func_spec data1 a b (by omega) hb1
    · exact sort.permOn_refl _ _ _
  generalize (if c.2 = sort.sortedHint.decreasingHint then sort.reverseRange_func data1 a b
    else data1) = data2 at hp2 ⊢
  have hb2 : b ≤ data2.length := by rw [hp2.1]; exact hb1
  have hpiv : a ≤ (if c.2 = sort.sortedHint.decreasingHint then (b - 1) - (c.1 - a) else c.1) ∧
      (if c.2 = sort.sortedHint.decreasingHint then (b - 1) - (c.1 - a) else c.1) < b := by
    split_ifs <;> constructor <;> omega
  generalize (if c.2 = sort.sortedHint.decreasingHint then (b - 1) - (c.1 - a) else c.1) = pivot
    at hpiv ⊢
  generalize (if c.2 = sort.sortedHint.decreasingHint then sort.sortedHint.increasingHint
    else c.2) = hint
  have hlow2 : sort.LowerBound less data2 a b :=
    sort.lowerBound_permOn hlow (sort.permOn_trans hp1 hp2)
  -- partialInsertionSort
  have hp3 : sort.PermOn data2
        (if wasBalanced = true ∧ wasPartitioned = true ∧
            hint = sort.sortedHint.increasingHint
          then sort.partialInsertionSort_func less data2 a b else (data2, false)).1 a b ∧
      ((if wasBalanced = true ∧ wasPartitioned = true ∧
            hint = sort.sortedHint.increasingHint
          then sort.partialInsertionSort_func less data2 a b else (data2, false)).2 = true →
        sort.SortedOn less
          (if wasBalanced = true ∧ wasPartitioned = true ∧
              hint = sort.sortedHint.increasingHint
            then sort.partialInsertionSort_func less data2 a b else (data2, false)).1 a b) := by
    split_ifs
    · exact sort.partialInsertionSort_func_spec ho data2 a b (by omega) hb2 hlow2
    · exact ⟨sort.permOn_refl _ _ _, fun h => by simp at h⟩
  generalize (if wasBalanced = true ∧ wasPartitioned = true ∧
      hint = sort.sortedHint.increasingHint
    then sort.partialInsertionSort_func less data2 a b else (data2, false)) = p at hp3 ⊢
  obtain ⟨hp3, hs3⟩ := hp3
  have hp03 : sort.PermOn data p.1 a b := sort.permOn_trans hp1 (sort.permOn_trans hp2 hp3)
  have hb3 : b ≤ p.1.length := by rw [hp03.1]; exact hb
  have hlow3 : sort.LowerBound less p.1 a b := sort.lowerBound_permOn hlow hp03
  by_cases hdone : p.2 = true
  · rw [if_pos hdone]
    refine ⟨fun d h => ?_, (fun d mid h => by cases h), (fun d mid alr h => by cases h)⟩
    cases h
    exact ⟨hp03, hs3 hdone⟩
  rw [if_neg hdone]
  by_cases heq : 0 < a ∧ sort.Less less p.1 (a - 1) pivot = false
  · rw [if_pos heq]
    refine ⟨(fun d h => by cases h), fun d mid h => ?_, (fun d mid alr h => by cases h)⟩
    cases h
    obtain ⟨e1, e2, e3, e4, e5, e6⟩ :=
      sort.partitionEqual_func_spec ho p.1 a b pivot hpiv.1 hpiv.2 hb3
    generalize sort.partitionEqual_func less p.1 a b pivot = e at e1 e2 e3 e4 e5 e6 ⊢
    -- no element of the part is less than the pivot
    have hge : ∀ k, a ≤ k → k < b →
        less (sort.index e.1 k) (sort.index p.1 pivot) = false := by
      intro k h1 h2
      obtain ⟨m, hm1, hm2, hm3⟩ := sort.permOn_inside e1 k h1 h2
      rw [hm3]
      rcases hlow3 with h0 | hall
      · omega
      · exact ho.trans heq.2 (hall m hm1 hm2)
    refine ⟨sort.permOn_trans hp03 e1, e2, e3, ?_, ?_⟩
    · intro i j hi hij hj
      exact ho.trans (e5 i hi (by omega)) (hge j (by omega) (by omega))
    · intro k m hk1 hk2 hm1 hm2
      exact ho.trans (e5 k hk1 hk2) (ho.le_of_lt (e6 m hm1 hm2))
  · rw [if_neg heq]
    refine ⟨(fun d h => by cases h), (fun d mid h => by cases h), fun d mid alr h => ?_⟩
    cases h
    obtain ⟨q1, q2, q3, q4, q5⟩ := sort.partition_func_spec less p.1 a b pivot hpiv.1 hpiv.2 hb3
    exact ⟨sort.permOn_trans hp03 q1, q2, q3, q4, q5⟩

/-- `pdqsort_func(data, a, b, limit)` rearranges `data[a:b]` into order, when
no element of `data[a:b]` is less than the element before it. -/
theorem sort.pdqsort_func_spec (next : Nat → Nat) {less : α → α → Bool}
    (ho : sort.IsOrder less) :
    ∀ (fuel : Nat) (data : List α) (a b limit : Nat) (wasBalanced wasPartitioned : Bool),
      b - a < fuel → a ≤ b → b ≤ data.length → sort.LowerBound less data a b →
      sort.PermOn data
          (sort.pdqsort_func next less fuel data a b limit wasBalanced wasPartitioned) a b ∧
        sort.SortedOn less
          (sort.pdqsort_func next less fuel data a b limit wasBalanced wasPartitioned) a b := by
  intro fuel
  induction fuel with
  | zero =>
    intro data a b limit wasBalanced wasPartitioned hf
    omega
  | succ fuel ih =>
    intro data a b limit wasBalanced wasPartitioned hf hab hb hlow
    unfold sort.pdqsort_func
    obtain ⟨t1, t2, t3⟩ :=
      sort.pdqsort_turn_spec next ho data a b limit wasBalanced wasPartitioned hab hb hlow
    cases hturn : sort.pdqsort_turn next less data a b limit wasBalanced wasPartitioned with
    | done d =>
      simp only []
      exact t1 d hturn
    | equal d mid =>
      simp only []
      obtain ⟨e1, e2, e3, e4, e5⟩ := t2 d mid hturn
      have hlowm : sort.LowerBound less d mid b :=
        Or.inr fun k h1 h2 => e5 (mid - 1) k (by omega) (by omega) h1 h2
      obtain ⟨r1, r2⟩ := ih d mid b (if wasBalanced = false then limit - 1 else limit)
        wasBalanced wasPartitioned (by omega) e3 (by rw [e1.1]; exact hb) hlowm
      generalize sort.pdqsort_func next less fuel d mid b
        (if wasBalanced = false then limit - 1 else limit) wasBalanced wasPartitioned = d'
        at r1 r2 ⊢
      refine ⟨sort.permOn_trans e1 (sort.permOn_mono r1 (by omega) (le_refl _)), ?_⟩
      refine sort.sortedOn_of_concat d' a mid b (sort.sortedOn_permOn_above e4 r1) r2 ?_
      intro k m hk1 hk2 hm1 hm2
      obtain ⟨m', hm1', hm2', hm3'⟩ := sort.permOn_inside r1 m hm1 hm2
      rw [hm3', sort.permOn_outside r1 k (Or.inl hk2)]
      exact e5 k m' hk1 hk2 hm1' hm2'
    | split d mid alreadyPartitioned =>
      simp only []
      obtain ⟨s1, s2, s3, s4, s5⟩ := t3 d mid alreadyPartitioned hturn
      have hbd : b ≤ d.length := by rw [s1.1]; exact hb
      have hlowd : sort.LowerBound less d a b := sort.lowerBound_permOn hlow s1
      generalize (if wasBalanced = false then limit - 1 else limit) = limit1
      by_cases hside : mid - a < b - mid
      · rw [if_pos hside]
        obtain ⟨l1, l2⟩ := ih d a mid limit1 true true (by omega) s2 (by omega)
          (sort.lowerBound_mono hlowd (by omega))
        generalize sort.pdqsort_func next less fuel d a mid limit1 true true = dl at l1 l2 ⊢
        have hmid1 : sort.index dl mid = sort.index d mid :=
          sort.permOn_outside l1 mid (Or.inr (le_refl _))
        have hright1 : ∀ k, mid < k → k < b →
            less (sort.index dl k) (sort.index dl mid) = false := by
          intro k h1 h2
          rw [hmid1, sort.permOn_outside l1 k (Or.inr (by omega))]
          exact s5 k h1 h2
        obtain ⟨r1, r2⟩ := ih dl (mid + 1) b limit1 (decide ((b - a) / 8 ≤ mid - a))
          alreadyPartitioned (by omega) (by omega) (by rw [l1.1]; exact hbd)
          (Or.inr fun k h1 h2 => by
            have e : mid + 1 - 1 = mid := by omega
            rw [e]
            exact hright1 k (by omega) h2)
        generalize sort.pdqsort_func next less fuel dl (mid + 1) b limit1
          (decide ((b - a) / 8 ≤ mid - a)) alreadyPartitioned = dr at r1 r2 ⊢
        have hmid2 : sort.index dr mid = sort.index d mid := by
          rw [sort.permOn_outside r1 mid (Or.inl (by omega)), hmid1]
        refine ⟨sort.permOn_trans s1 (sort.permOn_trans
          (sort.permOn_mono l1 (le_refl _) (by omega))
          (sort.permOn_mono r1 (by omega) (le_refl _))), ?_⟩
        refine sort.sortedOn_of_split ho dr a mid b
          (sort.sortedOn_permOn_above l2 (sort.permOn_mono r1 (by omega) (le_refl _)))
          r2 ?_ ?_
        · intro k h1 h2
          rw [hmid2, sort.permOn_outside r1 k (Or.inl (by omega))]
          obtain ⟨m, hm1, hm2, hm3⟩ := sort.permOn_inside l1 k h1 h2
          rw [hm3]
          exact ho.le_of_lt (s4 m hm1 hm2)
        · intro k h1 h2
          obtain ⟨m, hm1, hm2, hm3⟩ := sort.permOn_inside r1 k (by omega) h2
          rw [hm3, hmid2, ← hmid1]
          exact hright1 m (by omega) hm2
      · rw [if_neg hside]
        obtain ⟨r1, r2⟩ := ih d (mid + 1) b limit1 true true (by omega) (by omega) hbd
          (Or.inr fun k h1 h2 => by
            have e : mid + 1 - 1 = mid := by omega
            rw [e]
            exact s5 k (by omega) h2)
        generalize sort.pdqsort_func next less fuel d (mid + 1) b limit1 true true = dr at r1 r2 ⊢
        have hmid1 : sort.index dr mid = sort.index d mid :=
          sort.permOn_outside r1 mid (Or.inl (by omega))
        have hlowr : sort.LowerBound less dr a mid :=
          sort.lowerBound_mono
            (sort.lowerBound_permOn hlowd (sort.permOn_mono r1 (by omega) (le_refl _)))
            (by omega)
        obtain ⟨l1, l2⟩ := ih dr a mid limit1 (decide ((b - a) / 8 ≤ b - mid))
          alreadyPartitioned (by omega) s2 (by rw [r1.1]; omega) hlowr
        generalize sort.pdqsort_func next less fuel dr a mid limit1
          (decide ((b - a) / 8 ≤ b - mid)) alreadyPartitioned = dl at l1 l2 ⊢
        have hmid2 : sort.index dl mid = sort.index d mid := by
          rw [sort.permOn_outside l1 mid (Or.inr (le_refl _)), hmid1]
        refine ⟨sort.permOn_trans s1 (sort.permOn_trans
          (sort.permOn_mono r1 (by omega) (le_refl _))
          (sort.permOn_mono l1 (le_refl _) (by omega))), ?_⟩
        refine sort.sortedOn_of_split ho dl a mid b l2
          (sort.sortedOn_permOn_below r2 (sort.permOn_mono l1 (le_refl _) (by omega))) ?_ ?_
        · intro k h1 h2
          obtain ⟨m, hm1, hm2, hm3⟩ := sort.permOn_inside l1 k h1 h2
          rw [hm3, hmid2, sort.permOn_outside r1 m (Or.inl (by omega))]
          exact ho.le_of_lt (s4 m hm1 hm2)
        · intro k h1 h2
          rw [hmid2, sort.permOn_outside l1 k (Or.inr (by omega))]
          obtain ⟨m, hm1, hm2, hm3⟩ := sort.permOn_inside r1 k (by omega) h2
          rw [hm3]
          exact s5 m (by omega) hm2

end

/-! #### `sort.Slice` -/

section
variable {α : Type} [Inhabited α]

theorem sort.eq_map_index (l : List α) : l = (List.range l.length).map (sort.index l) := by
  apply List.ext_getElem
  · simp
  · intro i h1 h2
    simp [sort.index, List.getD_eq_getElem, h1]

theorem sort.perm_of_permOn {data1 data2 : List α} {b : Nat} (hb : b ≤ data1.length)
    (h : sort.PermOn data1 data2 0 b) : data2.Perm data1 := by
  obtain ⟨hl, σ, hf, hv⟩ := h
  have hlt : ∀ k, k < data1.length → σ k < data1.length := by
    intro k hk
    by_contra hge
    have := hf (σ k) (Or.inr (by omega))
    have := σ.injective this
    omega
  have hperm : ((List.range data1.length).map σ).Perm (List.range data1.length) := by
    rw [List.perm_ext_iff_of_nodup ((List.nodup_range _).map σ.injective) (List.nodup_range _)]
    intro m
    simp only [List.mem_map, List.mem_range]
    constructor
    · rintro ⟨k, hk, rfl⟩
      exact hlt k hk
    · intro hm
      refine ⟨σ.symm m, ?_, by simp⟩
      by_contra hge
      have := hf (σ.symm m) (Or.inr (by omega))
      rw [Equiv.apply_symm_apply] at this
      omega
  have e2 : data2 = ((List.range data1.length).map σ).map (sort.index data1) := by
    conv_lhs => rw [sort.eq_map_index data2, hl]
    rw [List.map_map]
    apply List.map_congr_left
    intro k _
    exact hv k
  rw [e2]
  conv_rhs => rw [sort.eq_map_index data1]
  exact hperm.map _

theorem sort.pairwise_of_sortedOn {less : α → α → Bool} {data : List α}
    (h : sort.SortedOn less data 0 data.length) :
    data.Pairwise (fun x y => less y x = false) := by
  rw [List.pairwise_iff_getElem]
  intro i j hi hj hij
  have := h i j (Nat.zero_le _) (by omega) hj
  simpa [sort.index, List.getD_eq_getElem, hi, hj] using this

/-- For a strict weak ordering, `sort.Slice(x, less)` leaves the elements of
`x` in an order in which none is less than one before it. -/
theorem sort.Slice_spec (next : Nat → Nat) {less : α → α → Bool} (ho : sort.IsOrder less)
    (x : List α) :
    (sort.Slice next less x).Perm x ∧
      (sort.Slice next less x).Pairwise (fun a b => less b a = false) := by
  obtain ⟨h1, h2⟩ := sort.pdqsort_func_spec next ho (x.length + 1) x 0 x.length (bits.Len x.length)
    true true (by omega) (Nat.zero_le _) (le_refl _) (Or.inl rfl)
  refine ⟨sort.perm_of_permOn (le_refl _) h1, ?_⟩
  apply sort.pairwise_of_sortedOn
  have hl : (sort.Slice next less x).length = x.length := h1.1
  rw [hl]
  exact h2

end

/-- Sixteen numbers, more than the twelve that `pdqsort_func` leaves to
`insertionSort_func`, sorted by `sort.Slice`. -/
theorem sort.Slice_example :
    sort.Slice sort.xorshift_Next (fun a b : Nat => decide (a < b))
        [5, 3, 9, 1, 4, 8, 2, 7, 6, 0, 11, 15, 13, 12, 20, 19]
      = [0, 1, 2, 3, 4, 5, 6, 7, 8, 9, 11, 12, 13, 15, 19, 20] := by
  decide

theorem generateReport_less_isOrder : sort.IsOrder GenerateReport.less :=
  ⟨fun a b => less_false_total a b, fun a b c hab hbc => less_false_trans a b c hab hbc⟩

/-! ### The claims -/

/-- C1: an event of a kind other than 1 for an identifier that is not in the
competitor map leaves the simulation as it is: same competitor map, same
lap-boundary map, and the identifier is still unregistered. -/
theorem processEvent_unknown_competitor (s : Simulation) (event : Event)
    (hkind : event.Kind ≠ 1) (hunknown : s.Competitors event.Competitor = none) :
    ProcessEvent s event = s ∧
      (ProcessEvent s event).Competitors = s.Competitors ∧
      (ProcessEvent s event).LastLapTime = s.LastLapTime ∧
      (ProcessEvent s event).Competitors event.Competitor = none := by
  have h : ProcessEvent s event = s := by
    unfold ProcessEvent
    simp [hunknown, hkind]
  rw [h]
  exact ⟨rfl, rfl, rfl, hunknown⟩

theorem processEvent_unknown_competitor_witness :
    ProcessEvent (NewSimulation testConfig) ⟨0, 10, 7, ""⟩ = NewSimulation testConfig ∧
      (ProcessEvent (NewSimulation testConfig) ⟨0, 10, 7, ""⟩).Competitors
        = (NewSimulation testConfig).Competitors ∧
      (ProcessEvent (NewSimulation testConfig) ⟨0, 10, 7, ""⟩).LastLapTime
        = (NewSimulation testConfig).LastLapTime ∧
      (ProcessEvent (NewSimulation testConfig) ⟨0, 10, 7, ""⟩).Competitors 7 = none :=
  processEvent_unknown_competitor (NewSimulation testConfig) ⟨0, 10, 7, ""⟩ (by decide) rfl

/-- C2: for a competitor whose status is Finished, `TotalTime` is the sum of
the entries of `LapTimes` plus `PenaltyTime`, computed in int64; it is the
exact sum whenever that sum is a `Duration`. -/
theorem totalTime_finished (c : Competitor) (hfin : c.Status = "Finished") :
    c.TotalTime = wrapInt64 (c.LapTimes.sum + c.PenaltyTime) ∧
      (minDuration ≤ c.LapTimes.sum + c.PenaltyTime →
        c.LapTimes.sum + c.PenaltyTime ≤ maxDuration →
        c.TotalTime = c.LapTimes.sum + c.PenaltyTime) := by
  have _ := hfin
  refine ⟨totalTime_eq_wrap c, fun hlo hhi => ?_⟩
  rw [totalTime_eq_wrap c, wrapInt64_of_mem hlo hhi]

theorem totalTime_finished_witness :
    finishedExample.Status = "Finished" ∧ finishedExample.TotalTime = 35 * Minute := by
  refine ⟨by decide, ?_⟩
  rw [(totalTime_finished finishedExample (by decide)).2 (by decide) (by decide)]
  decide

/-- C3 (the code at the failing input): `TotalTime` does not look at the
status; for a competitor that is NotFinished with one lap of 15 minutes and 5
minutes of penalty it returns 20 minutes, not zero. -/
theorem totalTime_notFinished_nonzero :
    notFinishedExample.Status = "NotFinished" ∧
      notFinishedExample.TotalTime = 20 * Minute ∧ notFinishedExample.TotalTime ≠ 0 := by
  decide

/-- C4: for a registered competitor, a kind-3 event at time `t` makes the
status NotStarted when `t.After(StartTime.Add(startDelta))` and leaves the
record as it is otherwise.  Whenever `StartTime + startDelta` is an instant of
`time.Time`, `StartTime.Add(startDelta)` is that instant: the status becomes
NotStarted when `t` is strictly later than `StartTime + startDelta`, the
record stays as it is otherwise, in particular when `t` is the boundary
itself, and so the status afterwards is NotStarted exactly when the event is
late or the status was NotStarted already.  A kind-2 event whose params parse
as `draw` stores `draw` and applies the same rule to its own time and `draw`. -/
theorem lateness_rule (s : Simulation) (id : Int) (comp : Competitor) (t : Time) (params : String)
    (hreg : s.Competitors id = some comp) :
    (ProcessEvent s ⟨t, 3, id, params⟩).Competitors id =
        some { comp with
          Status := if Time.After t (Time.Add comp.StartTime (startDelta s.Config)) = true
                    then "NotStarted" else comp.Status } ∧
      (minTime ≤ comp.StartTime + startDelta s.Config →
        comp.StartTime + startDelta s.Config ≤ maxTime →
        (ProcessEvent s ⟨t, 3, id, params⟩).Competitors id =
            some { comp with
              Status := if comp.StartTime + startDelta s.Config < t then "NotStarted"
                        else comp.Status } ∧
          (comp.StartTime + startDelta s.Config < t →
            ∃ c, (ProcessEvent s ⟨t, 3, id, params⟩).Competitors id = some c ∧
              c.Status = "NotStarted") ∧
          (t ≤ comp.StartTime + startDelta s.Config →
            (ProcessEvent s ⟨t, 3, id, params⟩).Competitors id = some comp) ∧
          (comp.Status ≠ "NotStarted" →
            ((∃ c, (ProcessEvent s ⟨t, 3, id, params⟩).Competitors id = some c ∧
                c.Status = "NotStarted") ↔ comp.StartTime + startDelta s.Config < t))) ∧
      ∀ draw : Time, time.Parse params.toList = some draw →
        (ProcessEvent s ⟨t, 2, id, params⟩).Competitors id =
            some { comp with
              StartTime := draw,
              Status := if Time.After t (Time.Add draw (startDelta s.Config)) = true
                        then "NotStarted" else comp.Status } ∧
          (minTime ≤ draw + startDelta s.Config → draw + startDelta s.Config ≤ maxTime →
            (ProcessEvent s ⟨t, 2, id, params⟩).Competitors id =
              some { comp with
                StartTime := draw,
                Status := if draw + startDelta s.Config < t then "NotStarted"
                          else comp.Status }) := by
  have h3 : (ProcessEvent s ⟨t, 3, id, params⟩).Competitors id =
      some { comp with
        Status := if Time.Add comp.StartTime (startDelta s.Config) < t then "NotStarted"
                  else comp.Status } := by
    rw [processEvent_kind3 s ⟨t, 3, id, params⟩ comp rfl hreg, setCompetitor_same, lateCheck_eq]
  have h2 : ∀ draw : Time, time.Parse params.toList = some draw →
      (ProcessEvent s ⟨t, 2, id, params⟩).Competitors id =
        some { comp with
          StartTime := draw,
          Status := if Time.Add draw (startDelta s.Config) < t then "NotStarted"
                    else comp.Status } := by
    intro draw hdraw
    rw [processEvent_kind2 s ⟨t, 2, id, params⟩ comp draw rfl hreg hdraw, setCompetitor_same,
      lateCheck_eq]
  refine ⟨?_, ?_, ?_⟩
  · rw [h3]
    simp [Time.After]
  · intro hlo hhi
    rw [timeAdd_of_fits _ _ hlo hhi] at h3
    refine ⟨h3, ?_, ?_, ?_⟩
    · intro hlate
      exact ⟨_, h3, by simp [hlate]⟩
    · intro hle
      rw [h3, if_neg (not_lt.mpr hle)]
    · intro hst
      rw [h3]
      constructor
      · rintro ⟨c, hc, hcs⟩
        by_contra hnl
        rw [if_neg hnl] at hc
        cases hc
        exact hst hcs
      · intro hlate
        exact ⟨_, rfl, by simp [hlate]⟩
  · intro draw hdraw
    have hd := h2 draw hdraw
    refine ⟨?_, ?_⟩
    · rw [hd]
      simp [Time.After]
    · intro hlo hhi
      rw [timeAdd_of_fits _ _ hlo hhi] at hd
      exact hd

/-- Witness for C4 with tolerance zero and draw time zero: an event one
nanosecond after the draw time is late, an event at the draw time is not. -/
theorem lateness_rule_witness :
    (ProcessEvent ((NewSimulation testConfig).setCompetitor 1 runningExample)
        ⟨1, 3, 1, ""⟩).Competitors 1 = some { runningExample with Status := "NotStarted" } ∧
      (ProcessEvent ((NewSimulation testConfig).setCompetitor 1 runningExample)
        ⟨0, 3, 1, ""⟩).Competitors 1 = some runningExample := by
  constructor
  · rw [((lateness_rule ((NewSimulation testConfig).setCompetitor 1 runningExample) 1
      runningExample 1 "" (setCompetitor_same _ _ _)).2.1 (by decide) (by decide)).1]
    decide
  · exact ((lateness_rule ((NewSimulation testConfig).setCompetitor 1 runningExample) 1
      runningExample 0 "" (setCompetitor_same _ _ _)).2.1 (by decide) (by decide)).2.2.1
        (by decide)

/-- C5: when `Config.StartDelta` is `HH:MM` with two decimal digits each, the
tolerance computed in cases 2 and 3 is HH hours plus MM minutes, and this is
the tolerance the lateness check of a kind-3 and of a kind-2 event uses: the
event is late when its time is after `StartTime.Add` of that tolerance, which
is the instant `StartTime` plus HH hours plus MM minutes whenever that is an
instant of `time.Time`. -/
theorem startDelta_hhmm (config : Config) (h1 h2 m1 m2 : Char)
    (hh1 : isDigit h1 = true) (hh2 : isDigit h2 = true)
    (hm1 : isDigit m1 = true) (hm2 : isDigit m2 = true)
    (hcfg : config.StartDelta = String.mk [h1, h2, ':', m1, m2]) :
    startDelta config
        = (((digitVal h1 * 10 + digitVal h2) * Hour + (digitVal m1 * 10 + digitVal m2) * Minute
            : Nat) : Int) ∧
      ∀ (s : Simulation) (id : Int) (comp : Competitor) (t : Time) (params : String),
        s.Config = config → s.Competitors id = some comp →
        (ProcessEvent s ⟨t, 3, id, params⟩).Competitors id =
            some { comp with
              Status :=
                if Time.After t (Time.Add comp.StartTime
                    (((digitVal h1 * 10 + digitVal h2) * Hour
                      + (digitVal m1 * 10 + digitVal m2) * Minute : Nat) : Int)) = true
                then "NotStarted" else comp.Status } ∧
          (comp.StartTime + (((digitVal h1 * 10 + digitVal h2) * Hour
              + (digitVal m1 * 10 + digitVal m2) * Minute : Nat) : Int) ≤ maxTime →
            minTime ≤ comp.StartTime →
            (ProcessEvent s ⟨t, 3, id, params⟩).Competitors id =
              some { comp with
                Status :=
                  if comp.StartTime + (((digitVal h1 * 10 + digitVal h2) * Hour
                      + (digitVal m1 * 10 + digitVal m2) * Minute : Nat) : Int) < t
                  then "NotStarted" else comp.Status }) ∧
          ∀ draw : Time, time.Parse params.toList = some draw →
            (ProcessEvent s ⟨t, 2, id, params⟩).Competitors id =
                some { comp with
                  StartTime := draw,
                  Status :=
                    if Time.After t (Time.Add draw
                        (((digitVal h1 * 10 + digitVal h2) * Hour
                          + (digitVal m1 * 10 + digitVal m2) * Minute : Nat) : Int)) = true
                    then "NotStarted" else comp.Status } ∧
              (draw + (((digitVal h1 * 10 + digitVal h2) * Hour
                  + (digitVal m1 * 10 + digitVal m2) * Minute : Nat) : Int) ≤ maxTime →
                minTime ≤ draw →
                (ProcessEvent s ⟨t, 2, id, params⟩).Competitors id =
                  some { comp with
                    StartTime := draw,
                    Status :=
                      if draw + (((digitVal h1 * 10 + digitVal h2) * Hour
                          + (digitVal m1 * 10 + digitVal m2) * Minute : Nat) : Int) < t
                      then "NotStarted" else comp.Status }) := by
  have hc1 : h1 ≠ ':' := by
    intro h; rw [h] at hh1; exact Bool.noConfusion hh1
  have hc2 : h2 ≠ ':' := by
    intro h; rw [h] at hh2; exact Bool.noConfusion hh2
  have hval : startDelta config
      = (((digitVal h1 * 10 + digitVal h2) * Hour + (digitVal m1 * 10 + digitVal m2) * Minute
          : Nat) : Int) := by
    unfold startDelta
    rw [hcfg]
    have hrep : strings.Replace (String.mk [h1, h2, ':', m1, m2]).toList ++ ['m', '0', 's']
        = [h1, h2, 'h', m1, m2, 'm', '0', 's'] := by
      simp [strings.Replace, hc1, hc2]
    rw [hrep, parseDuration_hhmm h1 h2 m1 m2 hh1 hh2 hm1 hm2]
    rfl
  refine ⟨hval, ?_⟩
  intro s id comp t params hs hreg
  rw [← hval, ← hs]
  have hnn : (0 : Int) ≤ startDelta s.Config := by
    rw [hs, hval]
    exact Int.ofNat_nonneg _
  have h3 : (ProcessEvent s ⟨t, 3, id, params⟩).Competitors id =
      some { comp with
        Status := if Time.Add comp.StartTime (startDelta s.Config) < t then "NotStarted"
                  else comp.Status } := by
    rw [processEvent_kind3 s ⟨t, 3, id, params⟩ comp rfl hreg, setCompetitor_same, lateCheck_eq]
  refine ⟨?_, ?_, ?_⟩
  · rw [h3]
    simp [Time.After]
  · intro hhi hlo
    rw [timeAdd_of_fits _ _ (le_trans hlo (le_add_of_nonneg_right hnn)) hhi] at h3
    exact h3
  · intro draw hdraw
    have hd : (ProcessEvent s ⟨t, 2, id, params⟩).Competitors id =
        some { comp with
          StartTime := draw,
          Status := if Time.Add draw (startDelta s.Config) < t then "NotStarted"
                    else comp.Status } := by
      rw [processEvent_kind2 s ⟨t, 2, id, params⟩ comp draw rfl hreg hdraw, setCompetitor_same,
        lateCheck_eq]
    refine ⟨?_, ?_⟩
    · rw [hd]
      simp [Time.After]
    · intro hhi hlo
      rw [timeAdd_of_fits _ _ (le_trans hlo (le_add_of_nonneg_right hnn)) hhi] at hd
      exact hd

/-- Witness for C5: "00:30" is 30 minutes and "01:05" is 65 minutes; with
"00:30" and the draw time 09:30:00, a start-line event at 10:00:00.001 is late
and one at 10:00:00.000 is not. -/
theorem startDelta_hhmm_witness :
    startDelta { testConfig with StartDelta := "00:30" } = 30 * Minute ∧
      startDelta { testConfig with StartDelta := "01:05" } = 65 * Minute ∧
      (ProcessEvent
          ((NewSimulation { testConfig with StartDelta := "00:30" }).setCompetitor 1 drawnExample)
          ⟨time.Date0 10 0 0 1000000, 3, 1, ""⟩).Competitors 1
        = some { drawnExample with Status := "NotStarted" } ∧
      (ProcessEvent
          ((NewSimulation { testConfig with StartDelta := "00:30" }).setCompetitor 1 drawnExample)
          ⟨time.Date0 10 0 0 0, 3, 1, ""⟩).Competitors 1 = some drawnExample := by
  have h := startDelta_hhmm { testConfig with StartDelta := "00:30" } '0' '0' '3' '0'
    (by decide) (by decide) (by decide) (by decide) rfl
  refine ⟨?_, ?_, ?_, ?_⟩
  · rw [h.1]
    decide
  · rw [(startDelta_hhmm { testConfig with StartDelta := "01:05" } '0' '1' '0' '5'
      (by decide) (by decide) (by decide) (by decide) rfl).1]
    decide
  · rw [(h.2 ((NewSimulation { testConfig with StartDelta := "00:30" }).setCompetitor 1
      drawnExample) 1 drawnExample (time.Date0 10 0 0 1000000) "" rfl
        (setCompetitor_same _ _ _)).2.1 (by decide) (by decide)]
    decide
  · rw [(h.2 ((NewSimulation { testConfig with StartDelta := "00:30" }).setCompetitor 1
      drawnExample) 1 drawnExample (time.Date0 10 0 0 0) "" rfl
        (setCompetitor_same _ _ _)).2.1 (by decide) (by decide)]
    decide

/-- C6: for a registered competitor whose `CurrentLap` is a Go `int` below
the largest one (so that `CurrentLap++` does not wrap: the int sum is the
exact one), a kind-10 event at time `t` adds one to `CurrentLap`; when the new
value exceeds `Config.Laps` the status becomes Finished and `CurrentLap` is
taken back by one, otherwise the status stays.  With a lap boundary `b` the one entry `t.Sub(b)` is appended at the end
of `LapTimes` (it is `t - b` whenever that is a `Duration`) and the boundary
becomes `t`; with no boundary nothing is appended and there is still no
boundary.  No other field changes. -/
theorem lap_completion (s : Simulation) (id : Int) (comp : Competitor) (t : Time)
    (params : String) (hreg : s.Competitors id = some comp)
    (hlo : minInt64 ≤ comp.CurrentLap) (hhi : comp.CurrentLap < maxInt64) :
    wrapInt64 (comp.CurrentLap + 1) = comp.CurrentLap + 1 ∧
    (∀ b : Time, s.LastLapTime id = some b →
      (ProcessEvent s ⟨t, 10, id, params⟩).Competitors id =
          some { comp with
            LapTimes := comp.LapTimes ++ [Time.Sub t b],
            CurrentLap :=
              if comp.CurrentLap + 1 > s.Config.Laps then comp.CurrentLap + 1 - 1
              else comp.CurrentLap + 1,
            Status := if comp.CurrentLap + 1 > s.Config.Laps then "Finished" else comp.Status } ∧
        (ProcessEvent s ⟨t, 10, id, params⟩).LastLapTime id = some t ∧
        (minDuration ≤ t - b → t - b ≤ maxDuration → Time.Sub t b = t - b)) ∧
      (s.LastLapTime id = none →
        (ProcessEvent s ⟨t, 10, id, params⟩).Competitors id =
            some { comp with
              CurrentLap :=
                if comp.CurrentLap + 1 > s.Config.Laps then comp.CurrentLap + 1 - 1
                else comp.CurrentLap + 1,
              Status := if comp.CurrentLap + 1 > s.Config.Laps then "Finished" else comp.Status } ∧
          (ProcessEvent s ⟨t, 10, id, params⟩).LastLapTime id = none) := by
  have hstep := processEvent_kind10 s ⟨t, 10, id, params⟩ comp rfl hreg
  refine ⟨int_add_fits hlo (by decide) (by unfold maxInt64 at hhi ⊢; omega), ?_, ?_⟩
  · intro b hb
    simp only [hb] at hstep
    rw [hstep]
    refine ⟨?_, setLastLapTime_same _ _ _, timeSub_of_mem⟩
    rw [setLastLapTime_competitors, setCompetitor_same]
    unfold lapCompleted
    by_cases hfin : comp.CurrentLap + 1 > s.Config.Laps <;> simp [hfin]
  · intro hb
    simp only [hb] at hstep
    rw [hstep]
    refine ⟨?_, ?_⟩
    · rw [setCompetitor_same]
      unfold lapCompleted
      by_cases hfin : comp.CurrentLap + 1 > s.Config.Laps <;> simp [hfin]
    · rw [setCompetitor_lastLapTime]
      exact hb

theorem lap_completion_witness :
    (ProcessEvent runningSim ⟨time.Date0 9 59 3 872000000, 10, 1, ""⟩).Competitors 1 =
        some { runningExample with LapTimes := [29 * Minute + 2867 * Millisecond], CurrentLap := 2 } ∧
      (ProcessEvent runningSim ⟨time.Date0 9 59 3 872000000, 10, 1, ""⟩).LastLapTime 1 =
        some (time.Date0 9 59 3 872000000) := by
  have h := (lap_completion runningSim 1 runningExample (time.Date0 9 59 3 872000000) ""
    (by simp [runningSim, Simulation.setLastLapTime, Simulation.setCompetitor]) (by decide)
    (by decide)).2.1
      (time.Date0 9 30 1 5000000) (by simp [runningSim, Simulation.setLastLapTime])
  refine ⟨?_, h.2.1⟩
  rw [h.1]
  decide

/-- C7: for a registered competitor, a kind-33 event at time `t` with
`CurrentLap >= Config.Laps` sets the status to Finished and, when there is a
lap boundary `b`, appends the one entry `t.Sub(b)` to `LapTimes`; `CurrentLap`,
every other field and the whole lap-boundary map stay as they are.  With
`CurrentLap < Config.Laps` the simulation is left unchanged. -/
theorem explicit_finish (s : Simulation) (id : Int) (comp : Competitor) (t : Time)
    (params : String) (hreg : s.Competitors id = some comp) :
    (comp.CurrentLap ≥ s.Config.Laps →
      (∀ b : Time, s.LastLapTime id = some b →
        (ProcessEvent s ⟨t, 33, id, params⟩).Competitors id =
          some { comp with Status := "Finished", LapTimes := comp.LapTimes ++ [Time.Sub t b] }) ∧
      (s.LastLapTime id = none →
        (ProcessEvent s ⟨t, 33, id, params⟩).Competitors id =
          some { comp with Status := "Finished" }) ∧
      (ProcessEvent s ⟨t, 33, id, params⟩).LastLapTime = s.LastLapTime) ∧
    (comp.CurrentLap < s.Config.Laps →
      (ProcessEvent s ⟨t, 33, id, params⟩).Competitors = s.Competitors ∧
      (ProcessEvent s ⟨t, 33, id, params⟩).LastLapTime = s.LastLapTime ∧
      ProcessEvent s ⟨t, 33, id, params⟩ = s) := by
  have hstep := processEvent_kind33 s ⟨t, 33, id, params⟩ comp rfl hreg
  rw [hstep]
  constructor
  · intro hge
    refine ⟨?_, ?_, rfl⟩
    · intro b hb
      rw [setCompetitor_same]
      simp [explicitFinish, hge, hb]
    · intro hb
      rw [setCompetitor_same]
      simp [explicitFinish, hge, hb]
  · intro hlt
    have hsame : s.setCompetitor id (explicitFinish s.Config ⟨t, 33, id, params⟩
        (s.LastLapTime id) comp) = s := by
      have hc : explicitFinish s.Config ⟨t, 33, id, params⟩ (s.LastLapTime id) comp = comp := by
        unfold explicitFinish
        rw [if_neg (not_le.mpr hlt)]
      rw [hc]
      unfold Simulation.setCompetitor
      rw [← hreg, Function.update_eq_self]
    rw [hsame]
    exact ⟨rfl, rfl, rfl⟩

theorem explicit_finish_witness :
    (ProcessEvent lastLapSim ⟨time.Date0 10 29 3 872000000, 33, 1, ""⟩).Competitors 1 =
        some { runningExample with
          Status := "Finished", CurrentLap := 2, LapTimes := [59 * Minute + 2867 * Millisecond] } ∧
      ProcessEvent runningSim ⟨time.Date0 10 29 3 872000000, 33, 1, ""⟩ = runningSim := by
  constructor
  · rw [((explicit_finish lastLapSim 1 { runningExample with CurrentLap := 2 }
      (time.Date0 10 29 3 872000000) ""
      (by simp [lastLapSim, Simulation.setLastLapTime, Simulation.setCompetitor])).1
        (by decide)).1 (time.Date0 9 30 1 5000000) (by simp [lastLapSim, Simulation.setLastLapTime])]
    decide
  · exact ((explicit_finish runningSim 1 runningExample (time.Date0 10 29 3 872000000) ""
      (by simp [runningSim, Simulation.setLastLapTime, Simulation.setCompetitor])).2
        (by decide)).2.2

/-- C8: `sort.Slice` with the comparison of `GenerateReport` leaves the slice
of competitors, whatever the order in which the loop over the map has filled
it, in an order in which every Finished competitor comes before every
competitor with another status and the Finished ones are in non-decreasing
`TotalTime` order.  The slice holds the same competitors as before
(`List.Perm`), and `sort.SliceIsSorted` accepts it.  The same is true with any
function as the random source of `breakPatterns_func`. -/
theorem report_order (competitors : List Competitor) :
    (GenerateReport.sorted competitors).Pairwise (fun a b =>
        (b.Status = "Finished" → a.Status = "Finished") ∧
        (a.Status = "Finished" → b.Status = "Finished" → a.TotalTime ≤ b.TotalTime)) ∧
      (GenerateReport.sorted competitors).Perm competitors ∧
      (∀ c, c ∈ competitors ↔ c ∈ GenerateReport.sorted competitors) ∧
      sort.SliceIsSorted GenerateReport.less (GenerateReport.sorted competitors) = true ∧
      ∀ next : Nat → Nat,
        (sort.Slice next GenerateReport.less competitors).Pairwise (fun a b =>
            (b.Status = "Finished" → a.Status = "Finished") ∧
            (a.Status = "Finished" → b.Status = "Finished" → a.TotalTime ≤ b.TotalTime)) ∧
          (sort.Slice next GenerateReport.less competitors).Perm competitors := by
  have key : ∀ next : Nat → Nat,
      (sort.Slice next GenerateReport.less competitors).Pairwise (fun a b =>
          (b.Status = "Finished" → a.Status = "Finished") ∧
          (a.Status = "Finished" → b.Status = "Finished" → a.TotalTime ≤ b.TotalTime)) ∧
        (sort.Slice next GenerateReport.less competitors).Perm competitors := by
    intro next
    obtain ⟨hperm, hpw⟩ := sort.Slice_spec next generateReport_less_isOrder competitors
    refine ⟨hpw.imp ?_, hperm⟩
    intro a b hab
    unfold GenerateReport.less at hab
    by_cases ha : a.Status = "Finished" <;> by_cases hb : b.Status = "Finished" <;> simp_all
  obtain ⟨hperm, hpw⟩ :=
    sort.Slice_spec sort.xorshift_Next generateReport_less_isOrder competitors
  refine ⟨(key sort.xorshift_Next).1, hperm, fun c => (hperm.mem_iff).symm, ?_, key⟩
  exact (sliceIsSorted_iff_chain _ _).mpr hpw.chain'

set_option maxRecDepth 100000 in
/-- Witness for C8: a NotStarted competitor, a Finished one with 35 minutes and
a Finished one with 32 minutes come out as 32 minutes, 35 minutes, NotStarted. -/
theorem report_order_witness :
    GenerateReport.sorted [cNS, c35, c32] = [c32, c35, cNS] ∧
      [c32, c35, cNS].Pairwise (fun a b =>
        (b.Status = "Finished" → a.Status = "Finished") ∧
        (a.Status = "Finished" → b.Status = "Finished" → a.TotalTime ≤ b.TotalTime)) := by
  have h : GenerateReport.sorted [cNS, c35, c32] = [c32, c35, cNS] := by decide
  refine ⟨h, ?_⟩
  rw [← h]
  exact (report_order [cNS, c35, c32]).1

/-- C9 (the claim fails): under the test configuration of two laps, a
competitor that registers, starts and gets three kind-10 events ends with
three entries in `LapTimes`; so does one that starts three times with a lap
after each start, and one that is registered again after its start and then
gets three kind-10 events. -/
theorem lapTimes_length_exceeds_laps :
    1 ≤ testConfig.Laps ∧
      (∃ comp, (runEvents (NewSimulation testConfig) threeLapEvents).Competitors 1 = some comp ∧
        testConfig.Laps < (comp.LapTimes.length : Int)) ∧
      (∃ comp, (runEvents (NewSimulation testConfig) restartEvents).Competitors 1 = some comp ∧
        testConfig.Laps < (comp.LapTimes.length : Int)) ∧
      ∃ comp, (runEvents (NewSimulation testConfig) reRegisterEvents).Competitors 1 = some comp ∧
        testConfig.Laps < (comp.LapTimes.length : Int) :=
  ⟨by decide, ⟨_, rfl, by decide⟩, ⟨_, rfl, by decide⟩, ⟨_, rfl, by decide⟩⟩

/-- C9 (amended): with `Laps >= 1`, start from an empty simulation and process
events that keep to the life cycle (no identifier registered twice, no
competitor started twice, no kind-10 or kind-33 event for a competitor whose
status is Finished, NotFinished or NotStarted).  Then after every number `k`
of events the length of each competitor's `LapTimes` is at most `Laps`. -/
theorem lapTimes_length_le_laps (config : Config) (hlaps : 1 ≤ config.Laps)
    (events : List Event) (hrun : protocolRun (NewSimulation config) events = true)
    (k : Nat) (id : Int) (comp : Competitor)
    (hcomp : (runEvents (NewSimulation config) (events.take k)).Competitors id = some comp) :
    (comp.LapTimes.length : Int) ≤ config.Laps := by
  have hinv := lapInvariant_run (NewSimulation config) (events.take k)
    (lapInvariant_new config hlaps) (protocolRun_take _ _ k hrun)
  obtain ⟨_, _, hreg⟩ := hinv
  have hok := hreg id comp hcomp
  rw [runEvents_config] at hok
  cases hb : (runEvents (NewSimulation config) (events.take k)).LastLapTime id with
  | none =>
    rw [hb] at hok
    simp only [lapsOk] at hok
    rw [hok]
    simp only [List.length_nil, Nat.cast_zero]
    exact le_trans (by decide) hlaps
  | some b =>
    rw [hb] at hok
    exact hok.1

theorem lapTimes_length_le_laps_witness :
    protocolRun (NewSimulation testConfig) twoLapEvents = true ∧
      (runEvents (NewSimulation testConfig) (twoLapEvents.take 4)).Competitors 1
        = some twoLapRecord ∧
      (twoLapRecord.LapTimes.length : Int) ≤ testConfig.Laps :=
  ⟨by decide, by decide,
    lapTimes_length_le_laps testConfig (by decide) twoLapEvents (by decide) 4 1 twoLapRecord
      (by decide)⟩

/-- C10 (the claim fails): in the run of `TestSimulationDisqualification` the
kind-3 event sets NotStarted; a kind-11 event after it sets NotFinished, and
three kind-10 events after it set Finished. -/
theorem notStarted_reverted :
    (∃ c, (runEvents (NewSimulation testConfig) lateEvents).Competitors 1 = some c ∧
        c.Status = "NotStarted") ∧
      (∃ c, (runEvents (NewSimulation testConfig) (lateEvents ++ [cannotContinue])).Competitors 1
          = some c ∧ c.Status = "NotFinished") ∧
      ∃ c, (runEvents (NewSimulation testConfig)
          (lateEvents ++ [lapEnded, lapEnded, lapEnded])).Competitors 1 = some c ∧
        c.Status = "Finished" :=
  ⟨⟨_, rfl, by decide⟩, ⟨_, rfl, by decide⟩, ⟨_, rfl, by decide⟩⟩

/-- C10 (amended): for a competitor whose status is NotStarted and whose
`CurrentLap` is a Go `int` below the largest one (so that `CurrentLap++` does
not wrap: the int sum is the exact one), a kind-10 event leaves the status NotStarted when the incremented
`CurrentLap` does not exceed `Config.Laps` and sets it to Finished when it
does; a kind-11 event sets it to NotFinished. -/
theorem notStarted_after_lap_or_giveup (s : Simulation) (id : Int) (comp : Competitor)
    (t : Time) (params : String) (hreg : s.Competitors id = some comp)
    (hns : comp.Status = "NotStarted")
    (hlo : minInt64 ≤ comp.CurrentLap) (hhi : comp.CurrentLap < maxInt64) :
    wrapInt64 (comp.CurrentLap + 1) = comp.CurrentLap + 1 ∧
    (∃ c, (ProcessEvent s ⟨t, 10, id, params⟩).Competitors id = some c ∧
        c.Status = if comp.CurrentLap + 1 > s.Config.Laps then "Finished" else "NotStarted") ∧
      ∃ c, (ProcessEvent s ⟨t, 11, id, params⟩).Competitors id = some c ∧
        c.Status = "NotFinished" := by
  refine ⟨int_add_fits hlo (by decide) (by unfold maxInt64 at hhi ⊢; omega), ?_, ?_⟩
  · have hstep := processEvent_kind10 s ⟨t, 10, id, params⟩ comp rfl hreg
    rw [hstep]
    cases hb : s.LastLapTime id with
    | none =>
      refine ⟨_, setCompetitor_same _ _ _, ?_⟩
      by_cases hfin : comp.CurrentLap + 1 > s.Config.Laps <;> simp [lapCompleted, hfin, hns]
    | some b =>
      refine ⟨_, by rw [setLastLapTime_competitors]; exact setCompetitor_same _ _ _, ?_⟩
      by_cases hfin : comp.CurrentLap + 1 > s.Config.Laps <;> simp [lapCompleted, hfin, hns]
  · rw [processEvent_kind11 s ⟨t, 11, id, params⟩ comp rfl hreg]
    exact ⟨_, setCompetitor_same _ _ _, rfl⟩

theorem notStarted_after_lap_or_giveup_witness :
    (∃ c, (ProcessEvent (runEvents (NewSimulation testConfig) lateEvents) lapEnded).Competitors 1
        = some c ∧ c.Status = "NotStarted") ∧
      ∃ c, (ProcessEvent (runEvents (NewSimulation testConfig) lateEvents)
          cannotContinue).Competitors 1 = some c ∧ c.Status = "NotFinished" := by
  have h := notStarted_after_lap_or_giveup (runEvents (NewSimulation testConfig) lateEvents) 1
    { Competitor.zero with
      ID := 1, StartTime := time.Date0 9 30 0 0, Status := "NotStarted" }
    (time.Date0 9 59 3 872000000) "" (by decide) (by decide) (by decide) (by decide)
  refine ⟨?_, ?_⟩
  · obtain ⟨c, hc, hs⟩ := h.2.1
    exact ⟨c, hc, by rw [hs]; decide⟩
  · exact (notStarted_after_lap_or_giveup (runEvents (NewSimulation testConfig) lateEvents) 1
      { Competitor.zero with
        ID := 1, StartTime := time.Date0 9 30 0 0, Status := "NotStarted" }
      (time.Date0 9 59 3 872000000) "Lost in the forest" (by decide) (by decide)
      (by decide) (by decide)).2.2

/-- C11: after a kind-1 event for identifier `id`, registered before or not,
the record of `id` is a fresh one: that identifier, status Registered and
every other field at its zero value. -/
theorem registration_fresh (s : Simulation) (t : Time) (id : Int) (params : String) :
    (ProcessEvent s ⟨t, 1, id, params⟩).Competitors id =
        some { Competitor.zero with ID := id, Status := "Registered" } ∧
      ∃ c, (ProcessEvent s ⟨t, 1, id, params⟩).Competitors id = some c ∧
        c.ID = id ∧ c.Status = "Registered" ∧ c.StartTime = Time.zero ∧
        c.ActualStart = Time.zero ∧ c.CurrentLap = 0 ∧ c.LapTimes = [] ∧
        c.PenaltyStart = Time.zero ∧ c.PenaltyTime = 0 ∧ c.Hits = 0 ∧ c.Shots = 0 ∧
        c.OnPenalty = false ∧ c.OnRange = false ∧ c.Comment = "" := by
  have h : (ProcessEvent s ⟨t, 1, id, params⟩).Competitors id =
      some { Competitor.zero with ID := id, Status := "Registered" } := by
    rw [processEvent_kind1 s ⟨t, 1, id, params⟩ rfl, setCompetitor_same]
  exact ⟨h, _, h, rfl, rfl, rfl, rfl, rfl, rfl, rfl, rfl, rfl, rfl, rfl, rfl, rfl⟩

/-- C12: for a registered competitor, a kind-2 event whose params do not parse
as a time of day leaves the simulation as it is: the record of the competitor,
the competitor map and the lap-boundary map are unchanged. -/
theorem drawTime_unparsed (s : Simulation) (event : Event) (comp : Competitor)
    (hk : event.Kind = 2) (hreg : s.Competitors event.Competitor = some comp)
    (hparse : time.Parse event.Params.toList = none) :
    ProcessEvent s event = s ∧
      (ProcessEvent s event).Competitors event.Competitor = some comp ∧
      (ProcessEvent s event).Competitors = s.Competitors ∧
      (ProcessEvent s event).LastLapTime = s.LastLapTime := by
  rw [processEvent_kind2_unparsed s event comp hk hreg hparse]
  exact ⟨rfl, hreg, rfl, rfl⟩

theorem drawTime_unparsed_witness :
    ProcessEvent runningSim badDraw = runningSim ∧
      (ProcessEvent runningSim badDraw).Competitors badDraw.Competitor = some runningExample ∧
      (ProcessEvent runningSim badDraw).Competitors = runningSim.Competitors ∧
      (ProcessEvent runningSim badDraw).LastLapTime = runningSim.LastLapTime :=
  drawTime_unparsed runningSim badDraw runningExample (by decide)
    (by simp [runningSim, badDraw, Simulation.setLastLapTime, Simulation.setCompetitor])
    (by decide)

/-- C13: for a registered competitor, take a kind-8 event at `t1`, then any
events among which the competitor has no kind-1 and no kind-8 event, then a
kind-9 event at `t2`.  The kind-9 event adds `t2.Sub(t1)` to `PenaltyTime` in
int64 (exactly `t2 - t1` when the values fit a `Duration`) and leaves
`OnPenalty` false; when the competitor has no kind-9 event in between either,
`PenaltyTime` before the kind-9 event is still the one before the kind-8
event. -/
theorem penalty_accumulation (s : Simulation) (id : Int) (comp : Competitor) (t1 t2 : Time)
    (p1 p2 : String) (between : List Event)
    (hreg : s.Competitors id = some comp)
    (hbetween : ∀ e ∈ between, e.Competitor = id → e.Kind ≠ 1 ∧ e.Kind ≠ 8) :
    ∃ before after,
      (runEvents s (⟨t1, 8, id, p1⟩ :: between)).Competitors id = some before ∧
      (runEvents s (⟨t1, 8, id, p1⟩ :: between ++ [⟨t2, 9, id, p2⟩])).Competitors id
        = some after ∧
      after.PenaltyTime = Duration.add before.PenaltyTime (Time.Sub t2 t1) ∧
      after.OnPenalty = false ∧
      (minDuration ≤ t2 - t1 → t2 - t1 ≤ maxDuration →
        minDuration ≤ before.PenaltyTime + (t2 - t1) →
        before.PenaltyTime + (t2 - t1) ≤ maxDuration →
        after.PenaltyTime = before.PenaltyTime + (t2 - t1)) ∧
      ((∀ e ∈ between, e.Competitor = id → e.Kind ≠ 9) →
        before.PenaltyTime = comp.PenaltyTime) := by
  have hr8 : recordStep s.Config ⟨t1, 8, id, p1⟩ (some comp) (s.LastLapTime id)
      = some { comp with OnPenalty := true, PenaltyStart := t1 } := by
    simp [recordStep]
  have hloc1 := runEvents_local s (⟨t1, 8, id, p1⟩ :: between) id
  have hloc2 := runEvents_local s (⟨t1, 8, id, p1⟩ :: between ++ [⟨t2, 9, id, p2⟩]) id
  rw [hreg] at hloc1 hloc2
  rw [localRun_append] at hloc2
  have hcons := localRun_own_cons s.Config ⟨t1, 8, id, p1⟩ between (some comp, s.LastLapTime id)
  simp only [hr8] at hcons
  rw [hcons] at hloc1 hloc2
  obtain ⟨before, hbefore, hstart⟩ := localRun_preserves s.Config id
    (fun c => c.PenaltyStart = t1) (fun e => e.Kind ≠ 1 ∧ e.Kind ≠ 8)
    (fun e c b hok hQ => recordStep_penaltyStart s.Config t1 e c b hok hQ)
    between hbetween { comp with OnPenalty := true, PenaltyStart := t1 }
    (boundaryStep ⟨t1, 8, id, p1⟩ (some comp) (s.LastLapTime id)) rfl
  generalize hmid : localRun s.Config id between
    (some { comp with OnPenalty := true, PenaltyStart := t1 },
      boundaryStep ⟨t1, 8, id, p1⟩ (some comp) (s.LastLapTime id)) = mid at hloc1 hloc2 hbefore
  obtain ⟨rec, bnd⟩ := mid
  simp only at hbefore
  subst hbefore
  have hr9 : recordStep s.Config ⟨t2, 9, id, p2⟩ (some before) bnd
      = some { before with
          OnPenalty := false,
          PenaltyTime := Duration.add before.PenaltyTime (Time.Sub t2 before.PenaltyStart) } := by
    simp [recordStep]
  have hlast : localRun s.Config id [⟨t2, 9, id, p2⟩] (some before, bnd)
      = (recordStep s.Config ⟨t2, 9, id, p2⟩ (some before) bnd,
          boundaryStep ⟨t2, 9, id, p2⟩ (some before) bnd) := by
    simp [localRun]
  rw [hlast, hr9] at hloc2
  refine ⟨before, _, congrArg Prod.fst hloc1, congrArg Prod.fst hloc2, ?_, rfl, ?_, ?_⟩
  · simp only [hstart]
  · intro h1 h2 h3 h4
    simp only [hstart, Duration.add]
    rw [timeSub_of_mem h1 h2, wrapInt64_of_mem h3 h4]
  · intro hno9
    obtain ⟨c, hc, hpen⟩ := localRun_preserves s.Config id
      (fun c => c.PenaltyTime = comp.PenaltyTime) (fun e => e.Kind ≠ 1 ∧ e.Kind ≠ 9)
      (fun e c b hok hQ => recordStep_penaltyTime s.Config comp.PenaltyTime e c b hok hQ)
      between (fun e he hid => ⟨(hbetween e he hid).1, hno9 e he hid⟩)
      { comp with OnPenalty := true, PenaltyStart := t1 }
      (boundaryStep ⟨t1, 8, id, p1⟩ (some comp) (s.LastLapTime id)) rfl
    rw [hmid] at hc
    simp only [Option.some.injEq] at hc
    rw [hc]
    exact hpen

theorem penalty_accumulation_witness :
    ∃ after,
      (runEvents registeredSim
        [⟨time.Date0 9 49 55 915000000, 8, 1, ""⟩,
          ⟨time.Date0 9 51 48 391000000, 9, 1, ""⟩]).Competitors 1 = some after ∧
      after.PenaltyTime = Minute + 52476 * Millisecond ∧ after.OnPenalty = false := by
  obtain ⟨before, after, hb, ha, hpen, hon, _, hsame⟩ :=
    penalty_accumulation registeredSim 1 { Competitor.zero with ID := 1, Status := "Registered" }
      (time.Date0 9 49 55 915000000) (time.Date0 9 51 48 391000000) "" "" []
      (by simp [registeredSim, Simulation.setCompetitor]) (by simp)
  refine ⟨after, ha, ?_, hon⟩
  rw [hpen, hsame (by simp)]
  decide

/-- C14: for a registered competitor, a kind-5 event, then `k` kind-6 events,
then a kind-7 event, all of that competitor, add `k` to `Hits` and 5 to
`Shots`, leave `OnRange` false and change no other field of the record.  The
counters are Go `int`s and the two sums do not pass the largest `int`, so
that no `Hits++` and not `Shots += 5` wraps: each int sum is the exact one. -/
theorem shooting_bout (s : Simulation) (id : Int) (comp : Competitor) (t5 t7 : Time)
    (p5 p7 : String) (hits : List (Time × String))
    (hreg : s.Competitors id = some comp)
    (hhits0 : minInt64 ≤ comp.Hits) (hhits : comp.Hits + hits.length ≤ maxInt64)
    (hshots0 : minInt64 ≤ comp.Shots) (hshots : comp.Shots + 5 ≤ maxInt64) :
    (∀ j : Nat, j ≤ hits.length → wrapInt64 (comp.Hits + j) = comp.Hits + j) ∧
    wrapInt64 (comp.Shots + 5) = comp.Shots + 5 ∧
    (runEvents s
        (⟨t5, 5, id, p5⟩ :: (hits.map fun h => (⟨h.1, 6, id, h.2⟩ : Event))
          ++ [⟨t7, 7, id, p7⟩])).Competitors id =
      some { comp with
        Hits := comp.Hits + hits.length, Shots := comp.Shots + 5, OnRange := false } := by
  refine ⟨fun j hj => int_add_fits hhits0 (Int.ofNat_nonneg j)
    (le_trans (by have := Int.ofNat_le.mpr hj; omega) hhits),
    int_add_fits hshots0 (by decide) hshots, ?_⟩
  have hloc := runEvents_local s
    (⟨t5, 5, id, p5⟩ :: (hits.map fun h => (⟨h.1, 6, id, h.2⟩ : Event)) ++ [⟨t7, 7, id, p7⟩]) id
  rw [hreg, localRun_append] at hloc
  have hcons := localRun_own_cons s.Config ⟨t5, 5, id, p5⟩
    (hits.map fun h => (⟨h.1, 6, id, h.2⟩ : Event)) (some comp, s.LastLapTime id)
  have hr5 : recordStep s.Config ⟨t5, 5, id, p5⟩ (some comp) (s.LastLapTime id)
      = some { comp with OnRange := true } := by
    simp [recordStep]
  simp only [hr5] at hcons
  rw [hcons, localRun_hits] at hloc
  simpa [localRun, recordStep] using congrArg Prod.fst hloc

theorem shooting_bout_witness :
    (runEvents registeredSim
        [⟨time.Date0 9 49 31 659000000, 5, 1, "1"⟩, ⟨time.Date0 9 49 33 123000000, 6, 1, "1"⟩,
          ⟨time.Date0 9 49 34 650000000, 6, 1, "2"⟩,
          ⟨time.Date0 9 49 38 339000000, 7, 1, ""⟩]).Competitors 1 =
      some { Competitor.zero with ID := 1, Status := "Registered", Hits := 2, Shots := 5 } := by
  have h := shooting_bout registeredSim 1 { Competitor.zero with ID := 1, Status := "Registered" }
    (time.Date0 9 49 31 659000000) (time.Date0 9 49 38 339000000) "1" ""
    [(time.Date0 9 49 33 123000000, "1"), (time.Date0 9 49 34 650000000, "2")]
    (by simp [registeredSim, Simulation.setCompetitor]) (by decide) (by decide) (by decide)
    (by decide)
  exact h.2.2

/-- C15: for a non-negative `Duration` `d` of whole milliseconds,
`formatDuration d` is the text `HH:MM:SS.mmm`: the whole hours of `d` (not
reduced modulo 24) padded with zeros to at least two digits, the remaining
whole minutes (00-59) and seconds (00-59) on two digits and the remaining
milliseconds (000-999) on three. -/
theorem formatDuration_text (d : Duration) (h0 : 0 ≤ d) (hmax : d ≤ maxDuration)
    (hms : d % 1000000 = 0) :
    formatDuration d = clockText d.toNat ∧
      formatDuration d =
        String.mk
          (List.replicate (2 - (Nat.toDigits 10 (d.toNat / Hour)).length) '0'
            ++ Nat.toDigits 10 (d.toNat / Hour) ++ [':']
            ++ twoDigits (d.toNat / Minute % 60) ++ [':']
            ++ twoDigits (d.toNat / Second % 60) ++ ['.']
            ++ threeDigits (d.toNat / Millisecond % 1000)) ∧
      2 ≤ (List.replicate (2 - (Nat.toDigits 10 (d.toNat / Hour)).length) '0'
            ++ Nat.toDigits 10 (d.toNat / Hour)).length ∧
      d.toNat / Minute % 60 < 60 ∧ d.toNat / Second % 60 < 60 ∧
      d.toNat / Millisecond % 1000 < 1000 := by
  have h := formatDuration_eq_clockText d h0 hmax hms
  refine ⟨h, h, ?_, Nat.mod_lt _ (by decide), Nat.mod_lt _ (by decide),
    Nat.mod_lt _ (by decide)⟩
  rw [List.length_append, List.length_replicate]
  omega

theorem formatDuration_text_witness :
    formatDuration (Hour + 30 * Minute + 15 * Second + 123 * Millisecond) = "01:30:15.123" ∧
      formatDuration (2 * Hour + 59 * Millisecond) = "02:00:00.059" := by
  constructor
  · rw [(formatDuration_text (Hour + 30 * Minute + 15 * Second + 123 * Millisecond)
      (by decide) (by decide) (by decide)).1]
    decide
  · rw [(formatDuration_text (2 * Hour + 59 * Millisecond) (by decide) (by decide)
      (by decide)).1]
    decide

/-- C16: for a `Duration` `d` of whole milliseconds with `0 <= d < 24h`,
`time.Parse` with the layout of the event loader reads `formatDuration d` as
the time of day that is `d` after midnight; so `formatDuration` gives
different texts for different such durations. -/
theorem format_parse_roundtrip (d : Duration) (h0 : 0 ≤ d) (h24 : d < 24 * Hour)
    (hms : d % 1000000 = 0) :
    time.Parse (formatDuration d).toList = some (time.Date0 0 0 0 0 + d) ∧
      ∀ d' : Duration, 0 ≤ d' → d' < 24 * Hour → d' % 1000000 = 0 →
        formatDuration d' = formatDuration d → d' = d := by
  have key : ∀ x : Int, 0 ≤ x → x < 24 * Hour → x % 1000000 = 0 →
      time.Parse (formatDuration x).toList = some (time.Date0 0 0 0 0 + x) := by
    intro x hx0 hx24 hxms
    have hH : ((24 * Hour : ℕ) : ℤ) = 86400000000000 := by decide
    have hx24' : x < 86400000000000 := by
      have : x < ((24 * Hour : ℕ) : ℤ) := by exact_mod_cast hx24
      rw [hH] at this
      exact this
    have hmax : x ≤ maxDuration := by
      unfold maxDuration
      omega
    rw [formatDuration_eq_clockText x hx0 hmax hxms]
    have hh : x.toNat / Hour < 24 := by
      simp only [Hour, Minute, Second, Millisecond, Microsecond, Nanosecond]
      omega
    unfold clockText
    rw [pad_twoDigits (x.toNat / Hour) (by omega)]
    have hp := parse_clock_digits (x.toNat / Hour) (x.toNat / Minute % 60)
      (x.toNat / Second % 60) (x.toNat / Millisecond % 1000) hh (Nat.mod_lt _ (by decide))
      (Nat.mod_lt _ (by decide)) (Nat.mod_lt _ (by decide))
    have hlist : (String.mk (twoDigits (x.toNat / Hour) ++ [':']
        ++ twoDigits (x.toNat / Minute % 60) ++ [':'] ++ twoDigits (x.toNat / Second % 60)
        ++ ['.'] ++ threeDigits (x.toNat / Millisecond % 1000))).toList
        = twoDigits (x.toNat / Hour) ++ [':'] ++ twoDigits (x.toNat / Minute % 60) ++ [':']
          ++ twoDigits (x.toNat / Second % 60) ++ ['.']
          ++ threeDigits (x.toNat / Millisecond % 1000) := rfl
    rw [hlist, hp]
    congr 1
    unfold time.Date0
    simp only [Hour, Minute, Second, Millisecond, Microsecond, Nanosecond]
    show (_ : ℤ) = (_ : ℤ)
    omega
  refine ⟨key d h0 h24 hms, ?_⟩
  intro d' h0' h24' hms' heq
  have h1 := key d h0 h24 hms
  have h2 := key d' h0' h24' hms'
  rw [heq, h1] at h2
  have h3 : time.Date0 0 0 0 0 + d = time.Date0 0 0 0 0 + d' := Option.some.inj h2
  exact (add_left_cancel h3).symm

theorem format_parse_roundtrip_witness :
    time.Parse (formatDuration (23 * Hour + 59 * Minute + 59 * Second + 999 * Millisecond)).toList
      = some (time.Date0 23 59 59 999000000) := by
  rw [(format_parse_roundtrip (23 * Hour + 59 * Minute + 59 * Second + 999 * Millisecond)
    (by decide) (by decide) (by decide)).1]
  decide

/-- C17: two events of different competitors commute: processing them in
either order gives the same competitor map and the same lap-boundary map; and
an event leaves the record and the lap boundary of every other competitor as
they are. -/
theorem events_commute (s : Simulation) (e1 e2 : Event)
    (hne : e1.Competitor ≠ e2.Competitor) :
    (ProcessEvent (ProcessEvent s e1) e2).Competitors
        = (ProcessEvent (ProcessEvent s e2) e1).Competitors ∧
      (ProcessEvent (ProcessEvent s e1) e2).LastLapTime
        = (ProcessEvent (ProcessEvent s e2) e1).LastLapTime ∧
      ∀ id, id ≠ e1.Competitor →
        (ProcessEvent s e1).Competitors id = s.Competitors id ∧
          (ProcessEvent s e1).LastLapTime id = s.LastLapTime id := by
  have key : ∀ id,
      (ProcessEvent (ProcessEvent s e1) e2).Competitors id
          = (ProcessEvent (ProcessEvent s e2) e1).Competitors id ∧
        (ProcessEvent (ProcessEvent s e1) e2).LastLapTime id
          = (ProcessEvent (ProcessEvent s e2) e1).LastLapTime id := by
    intro id
    by_cases h2 : id = e2.Competitor
    · subst h2
      have hne' : e2.Competitor ≠ e1.Competitor := fun h => hne h.symm
      have o1 := processEvent_own (ProcessEvent s e1) e2
      have f1 := processEvent_other s e1 e2.Competitor hne'
      have f2 := processEvent_other (ProcessEvent s e2) e1 e2.Competitor hne'
      have o2 := processEvent_own s e2
      rw [o1.1, o1.2, f2.1, f2.2, o2.1, o2.2, f1.1, f1.2, processEvent_config]
      exact ⟨rfl, rfl⟩
    · by_cases h1 : id = e1.Competitor
      · subst h1
        have o1 := processEvent_own (ProcessEvent s e2) e1
        have f1 := processEvent_other s e2 e1.Competitor hne
        have f2 := processEvent_other (ProcessEvent s e1) e2 e1.Competitor hne
        have o2 := processEvent_own s e1
        rw [o1.1, o1.2, f2.1, f2.2, o2.1, o2.2, f1.1, f1.2, processEvent_config]
        exact ⟨rfl, rfl⟩
      · have a1 := processEvent_other (ProcessEvent s e1) e2 id h2
        have a2 := processEvent_other s e1 id h1
        have b1 := processEvent_other (ProcessEvent s e2) e1 id h1
        have b2 := processEvent_other s e2 id h2
        rw [a1.1, a1.2, a2.1, a2.2, b1.1, b1.2, b2.1, b2.2]
        exact ⟨rfl, rfl⟩
  exact ⟨funext fun id => (key id).1, funext fun id => (key id).2,
    fun id hid => processEvent_other s e1 id hid⟩

theorem events_commute_witness :
    (ProcessEvent (ProcessEvent runningSim lapEnded) otherOnRange).Competitors
        = (ProcessEvent (ProcessEvent runningSim otherOnRange) lapEnded).Competitors ∧
      (ProcessEvent (ProcessEvent runningSim lapEnded) otherOnRange).LastLapTime
        = (ProcessEvent (ProcessEvent runningSim otherOnRange) lapEnded).LastLapTime ∧
      ∀ id, id ≠ lapEnded.Competitor →
        (ProcessEvent runningSim lapEnded).Competitors id = runningSim.Competitors id ∧
          (ProcessEvent runningSim lapEnded).LastLapTime id = runningSim.LastLapTime id :=
  events_commute runningSim lapEnded otherOnRange (by decide)

/-- C18: when the rewritten `StartDelta` is rejected by `time.ParseDuration`,
the error is dropped and the tolerance is zero, so a kind-3 event (and a
kind-2 event, against the draw time it has just stored) sets NotStarted
exactly when its time is strictly later than the draw time itself.  Every
three-field string `HH:MM:SS` of decimal digits is rejected. -/
theorem startDelta_rejected (config : Config) :
    (time.ParseDuration (strings.Replace config.StartDelta.toList ++ ['m', '0', 's']) = none →
      startDelta config = 0 ∧
      ∀ (s : Simulation) (id : Int) (comp : Competitor) (t : Time) (params : String),
        s.Config = config → s.Competitors id = some comp →
        (ProcessEvent s ⟨t, 3, id, params⟩).Competitors id =
            some { comp with
              Status := if comp.StartTime < t then "NotStarted" else comp.Status } ∧
          ∀ draw : Time, time.Parse params.toList = some draw →
            (ProcessEvent s ⟨t, 2, id, params⟩).Competitors id =
              some { comp with
                StartTime := draw,
                Status := if draw < t then "NotStarted" else comp.Status }) ∧
    ∀ h1 h2 m1 m2 s1 s2 : Char,
      isDigit h1 = true → isDigit h2 = true → isDigit m1 = true → isDigit m2 = true →
      isDigit s1 = true → isDigit s2 = true →
      config.StartDelta = String.mk [h1, h2, ':', m1, m2, ':', s1, s2] →
      time.ParseDuration (strings.Replace config.StartDelta.toList ++ ['m', '0', 's']) = none := by
  constructor
  · intro hrej
    have hzero : startDelta config = 0 := by
      unfold startDelta
      rw [hrej]
      rfl
    refine ⟨hzero, ?_⟩
    intro s id comp t params hs hreg
    constructor
    · rw [processEvent_kind3 s ⟨t, 3, id, params⟩ comp rfl hreg, setCompetitor_same,
        lateCheck_eq, hs, hzero, timeAdd_zero]
    · intro draw hdraw
      rw [processEvent_kind2 s ⟨t, 2, id, params⟩ comp draw rfl hreg hdraw, setCompetitor_same,
        lateCheck_eq, hs, hzero, timeAdd_zero]
  · intro h1 h2 m1 m2 s1 s2 hh1 hh2 hm1 hm2 hs1 _ hcfg
    have hc1 : h1 ≠ ':' := by
      intro h; rw [h] at hh1; exact Bool.noConfusion hh1
    have hc2 : h2 ≠ ':' := by
      intro h; rw [h] at hh2; exact Bool.noConfusion hh2
    rw [hcfg]
    have hrep : strings.Replace (String.mk [h1, h2, ':', m1, m2, ':', s1, s2]).toList
        ++ ['m', '0', 's'] = [h1, h2, 'h', m1, m2, ':', s1, s2, 'm', '0', 's'] := by
      simp [strings.Replace, hc1, hc2]
    rw [hrep]
    exact parseDuration_hhmmss h1 h2 m1 m2 s1 s2 hh1 hh2 hm1 hm2 hs1

theorem startDelta_rejected_witness :
    startDelta testConfig = 0 ∧
      (ProcessEvent drawnSim ⟨time.Date0 9 30 45 734000000, 3, 1, ""⟩).Competitors 1 =
        some { drawnExample with Status := "NotStarted" } ∧
      (ProcessEvent drawnSim ⟨time.Date0 9 30 0 0, 3, 1, ""⟩).Competitors 1 =
        some drawnExample := by
  have hrej := (startDelta_rejected testConfig).2 '0' '0' '0' '0' '3' '0'
    (by decide) (by decide) (by decide) (by decide) (by decide) (by decide) rfl
  have h := (startDelta_rejected testConfig).1 hrej
  refine ⟨h.1, ?_, ?_⟩
  · rw [(h.2 drawnSim 1 drawnExample (time.Date0 9 30 45 734000000) "" rfl
      (by simp [drawnSim, Simulation.setCompetitor])).1]
    decide
  · rw [(h.2 drawnSim 1 drawnExample (time.Date0 9 30 0 0) "" rfl
      (by simp [drawnSim, Simulation.setCompetitor])).1]
    decide

/-- C19: with `Laps >= 1`, after every number `k` of events of any sequence
processed from an empty simulation, every competitor has
`0 <= CurrentLap <= Laps`, and `CurrentLap = Laps` when its status is
Finished. -/
theorem currentLap_bounds (config : Config) (hlaps : 1 ≤ config.Laps) (events : List Event)
    (k : Nat) (id : Int) (comp : Competitor)
    (hcomp : (runEvents (NewSimulation config) (events.take k)).Competitors id = some comp) :
    0 ≤ comp.CurrentLap ∧ comp.CurrentLap ≤ config.Laps ∧
      (comp.Status = "Finished" → comp.CurrentLap = config.Laps) := by
  have hloc := runEvents_local (NewSimulation config) (events.take k) id
  have hb := localRun_lapBounds config hlaps id (events.take k) (none, none)
    (fun c hc => by cases hc)
  have h1 : (runEvents (NewSimulation config) (events.take k)).Competitors id
      = (localRun config id (events.take k) (none, none)).1 := congrArg Prod.fst hloc
  rw [← h1] at hb
  exact hb comp hcomp

theorem currentLap_bounds_witness :
    0 ≤ twoLapRecord.CurrentLap ∧ twoLapRecord.CurrentLap ≤ testConfig.Laps ∧
      (twoLapRecord.Status = "Finished" → twoLapRecord.CurrentLap = testConfig.Laps) :=
  currentLap_bounds testConfig (by decide) threeLapEvents 4 1 twoLapRecord (by decide)

/-- C20 (the claim fails): when the kind-10 events are about 300 and 600 years
after the start, each lap entry is the largest `Duration` (`Time.Sub`
saturates), so the two entries add up neither to `t - s` nor, in int64, to
`t.Sub(s)`. -/
theorem lap_sum_saturates :
    ∃ comp, (runEvents (NewSimulation testConfig) farApartEvents).Competitors 1 = some comp ∧
      comp.LapTimes = [maxDuration, maxDuration] ∧
      comp.LapTimes.sum ≠ time.Date0 5270400 0 0 0 - time.Date0 0 0 0 0 ∧
      wrapInt64 comp.LapTimes.sum
        ≠ Time.Sub (time.Date0 5270400 0 0 0) (time.Date0 0 0 0 0) :=
  ⟨_, rfl, by decide, by decide, by decide⟩

/-- C20 (amended): from an empty simulation, let the first event of competitor
`id` be its only kind-1 event, let it have one kind-4 event, at time `s`, no
kind-33 event, and after the kind-4 event at least one kind-10 event, the last
at time `t`; other events are interleaved freely.  Then `LapTimes` holds one
entry for each kind-10 event after the start, each being `Time.Sub` of the
event's time and the lap boundary before it; and when each of these
differences is a `Duration` (no `Time.Sub` saturates) the entries add up to
`t - s`. -/
theorem lap_sum_telescopes (config : Config) (id : Int) (before mid rest : List Event)
    (tr s t : Time) (pr ps : String)
    (hbefore : ∀ e ∈ before, e.Competitor ≠ id)
    (hmid : ∀ e ∈ mid, e.Competitor = id → e.Kind ≠ 1 ∧ e.Kind ≠ 4 ∧ e.Kind ≠ 33)
    (hrest : ∀ e ∈ rest, e.Competitor = id → e.Kind ≠ 1 ∧ e.Kind ≠ 4 ∧ e.Kind ≠ 33)
    (hlast : (ownLapTimes id rest).getLast? = some t) :
    ∃ comp,
      (runEvents (NewSimulation config)
        (before ++ [⟨tr, 1, id, pr⟩] ++ mid ++ [⟨s, 4, id, ps⟩] ++ rest)).Competitors id
          = some comp ∧
      comp.LapTimes = lapDiffs s (ownLapTimes id rest) ∧
      comp.LapTimes.length = (ownLapTimes id rest).length ∧
      (diffsFit s (ownLapTimes id rest) = true → comp.LapTimes.sum = t - s) := by
  have hloc := runEvents_local (NewSimulation config)
    (before ++ [⟨tr, 1, id, pr⟩] ++ mid ++ [⟨s, 4, id, ps⟩] ++ rest) id
  rw [localRun_append, localRun_append, localRun_append, localRun_append] at hloc
  have h0 : localRun (NewSimulation config).Config id before
      ((NewSimulation config).Competitors id, (NewSimulation config).LastLapTime id)
      = (none, none) := localRun_skip _ id before hbefore _
  rw [h0] at hloc
  have hreg : localRun (NewSimulation config).Config id [⟨tr, 1, id, pr⟩] (none, none)
      = (some { Competitor.zero with ID := id, Status := "Registered" }, none) := by
    simp [localRun, recordStep, boundaryStep]
  rw [hreg] at hloc
  obtain ⟨c1, hc1, hl1⟩ := localRun_before_start (NewSimulation config).Config id mid hmid
    { Competitor.zero with ID := id, Status := "Registered" } rfl
  rw [hc1] at hloc
  have hstart : localRun (NewSimulation config).Config id [⟨s, 4, id, ps⟩] (some c1, none)
      = (some { c1 with ActualStart := s, Status := "Running", CurrentLap := 1 }, some s) := by
    simp [localRun, recordStep, boundaryStep]
  rw [hstart] at hloc
  obtain ⟨c2, hc2, hl2⟩ := localRun_after_start (NewSimulation config).Config id rest hrest
    { c1 with ActualStart := s, Status := "Running", CurrentLap := 1 } s
  rw [hc2] at hloc
  have hlaps : c2.LapTimes = lapDiffs s (ownLapTimes id rest) := by
    rw [hl2]
    simp only [hl1, List.nil_append]
  refine ⟨c2, congrArg Prod.fst hloc, hlaps, ?_, ?_⟩
  · rw [hlaps, lapDiffs_length]
  · intro hfit
    rw [hlaps, lapDiffs_sum s _ hfit, List.getLastD_eq_getLast?, hlast]
    rfl

theorem lap_sum_telescopes_witness :
    ∃ comp,
      (runEvents (NewSimulation testConfig) twoLapEvents).Competitors 1 = some comp ∧
      comp.LapTimes.length = 2 ∧
      comp.LapTimes.sum = time.Date0 10 29 3 872000000 - time.Date0 9 30 1 5000000 := by
  obtain ⟨comp, hc, hl, hlen, hsum⟩ := lap_sum_telescopes testConfig 1 [] []
    [⟨time.Date0 9 59 3 872000000, 10, 1, ""⟩, ⟨time.Date0 10 29 3 872000000, 10, 1, ""⟩]
    (time.Date0 9 5 59 867000000) (time.Date0 9 30 1 5000000) (time.Date0 10 29 3 872000000)
    "" "" (by simp) (by simp) (by decide) (by decide)
  exact ⟨comp, hc, by rw [hlen]; decide, hsum (by decide)⟩

/-- C21: a kind-1 event replaces the record of its identifier and nothing
else: the lap-boundary map and the records of the other identifiers stay.  So
when the identifier has lap boundary `b` (a kind-4 event at time `b` sets it),
it still has it after being registered again, and a kind-10 event at time `t`
that follows appends `t.Sub(b)` (`t - b` whenever that is a `Duration`) to the
`LapTimes` of the fresh record, whose `ActualStart` is still the zero time. -/
theorem reregistration_keeps_boundary (s : Simulation) (id : Int) (tr t : Time)
    (pr p10 : String) :
    (ProcessEvent s ⟨tr, 1, id, pr⟩).LastLapTime = s.LastLapTime ∧
      (∀ j, j ≠ id → (ProcessEvent s ⟨tr, 1, id, pr⟩).Competitors j = s.Competitors j) ∧
      (ProcessEvent s ⟨tr, 1, id, pr⟩).Competitors id =
        some { Competitor.zero with ID := id, Status := "Registered" } ∧
      (∀ (comp : Competitor) (s0 : Time) (p4 : String), s.Competitors id = some comp →
        (ProcessEvent s ⟨s0, 4, id, p4⟩).LastLapTime id = some s0) ∧
      ∀ b : Time, s.LastLapTime id = some b →
        (ProcessEvent s ⟨tr, 1, id, pr⟩).LastLapTime id = some b ∧
        (ProcessEvent (ProcessEvent s ⟨tr, 1, id, pr⟩) ⟨t, 10, id, p10⟩).Competitors id =
          some { Competitor.zero with
            ID := id,
            LapTimes := [Time.Sub t b],
            CurrentLap := if (0 : Int) + 1 > s.Config.Laps then 0 + 1 - 1 else 0 + 1,
            Status := if (0 : Int) + 1 > s.Config.Laps then "Finished" else "Registered" } ∧
        (∃ c, (ProcessEvent (ProcessEvent s ⟨tr, 1, id, pr⟩) ⟨t, 10, id, p10⟩).Competitors id
            = some c ∧ c.LapTimes = [Time.Sub t b] ∧ c.ActualStart = Time.zero) ∧
        (ProcessEvent (ProcessEvent s ⟨tr, 1, id, pr⟩) ⟨t, 10, id, p10⟩).LastLapTime id
          = some t ∧
        (minDuration ≤ t - b → t - b ≤ maxDuration → Time.Sub t b = t - b) := by
  have hreg := processEvent_kind1 s ⟨tr, 1, id, pr⟩ rfl
  have hframe : (ProcessEvent s ⟨tr, 1, id, pr⟩).LastLapTime = s.LastLapTime := by
    rw [hreg]
    rfl
  have hrec : (ProcessEvent s ⟨tr, 1, id, pr⟩).Competitors id =
      some { Competitor.zero with ID := id, Status := "Registered" } := by
    rw [hreg]
    exact setCompetitor_same _ _ _
  refine ⟨hframe, ?_, hrec, ?_, ?_⟩
  · intro j hj
    exact (processEvent_other s ⟨tr, 1, id, pr⟩ j hj).1
  · intro comp s0 p4 hcomp
    rw [processEvent_kind4 s ⟨s0, 4, id, p4⟩ comp rfl hcomp]
    exact setLastLapTime_same _ _ _
  · intro b hb
    have hb1 : (ProcessEvent s ⟨tr, 1, id, pr⟩).LastLapTime id = some b := by
      rw [hframe]
      exact hb
    have hstep := processEvent_kind10 (ProcessEvent s ⟨tr, 1, id, pr⟩) ⟨t, 10, id, p10⟩
      { Competitor.zero with ID := id, Status := "Registered" } rfl hrec
    simp only [hb1] at hstep
    have hcfg : (ProcessEvent s ⟨tr, 1, id, pr⟩).Config = s.Config := processEvent_config _ _
    have hafter : (ProcessEvent (ProcessEvent s ⟨tr, 1, id, pr⟩) ⟨t, 10, id, p10⟩).Competitors id =
        some { Competitor.zero with
          ID := id,
          LapTimes := [Time.Sub t b],
          CurrentLap := if (0 : Int) + 1 > s.Config.Laps then 0 + 1 - 1 else 0 + 1,
          Status := if (0 : Int) + 1 > s.Config.Laps then "Finished" else "Registered" } := by
      rw [hstep, setLastLapTime_competitors, setCompetitor_same, hcfg]
      unfold lapCompleted
      by_cases hfin : s.Config.Laps < 1 <;> simp [hfin, Competitor.zero]
    refine ⟨hb1, hafter, ⟨_, hafter, rfl, rfl⟩, ?_, timeSub_of_mem⟩
    rw [hstep]
    exact setLastLapTime_same _ _ _

/-- Witness for C21 on the running example: competitor 1 started at
09:30:01.005, is registered again at 09:31 and ends a lap at 09:40. -/
theorem reregistration_keeps_boundary_witness :
    (ProcessEvent runningSim ⟨time.Date0 9 31 0 0, 1, 1, ""⟩).LastLapTime 1
        = some (time.Date0 9 30 1 5000000) ∧
      (ProcessEvent (ProcessEvent runningSim ⟨time.Date0 9 31 0 0, 1, 1, ""⟩)
          ⟨time.Date0 9 40 0 0, 10, 1, ""⟩).Competitors 1 =
        some { Competitor.zero with
          ID := 1, Status := "Registered", CurrentLap := 1,
          LapTimes := [9 * Minute + 58995 * Millisecond] } := by
  have h := (reregistration_keeps_boundary runningSim 1 (time.Date0 9 31 0 0)
    (time.Date0 9 40 0 0) "" "").2.2.2.2 (time.Date0 9 30 1 5000000)
    (by simp [runningSim, Simulation.setLastLapTime])
  refine ⟨h.1, ?_⟩
  rw [h.2.1]
  decide

end Biathlon
